import Mathlib

/-! The struct-tag codec of faketagencoder: parsing, serialisation and option
insertion.

A shallow embedding of `tag.go`.  Go strings are byte sequences, so a string is
a list of bytes and every scanning loop of the source works on such lists; a
loop that is not structural takes fuel, and the function that starts it gives
it the length of its input.  The functions of the Go standard library that
`tag.go` calls (`unicode/utf8`, `strconv`, `strings`, `unicode`) are embedded
next to it, under the names of their packages.  The Unicode property tables
above Latin-1 are a parameter of the development: every theorem holds for all
tables.
-/

/-- A Go byte. -/
abbrev Byte := Fin 256

/-- A Go string: a sequence of bytes, not necessarily valid UTF-8. -/
abbrev Str := List Byte

/-- The Go conversion `byte(x)`: truncation to eight bits. -/
def byte (n : Nat) : Byte := ⟨n % 256, Nat.mod_lt _ (by decide)⟩

/-- The bytes of an ASCII literal, for writing concrete tags. -/
def ascii (s : String) : Str := s.toList.map (fun c => byte c.toNat)

/-- The Unicode property tables for runes above Latin-1 (U+00FF). -/
structure UnicodeTables where
  /-- The table behind `unicode.IsLetter`. -/
  letter : Nat → Bool
  /-- The table behind `unicode.IsNumber`. -/
  number : Nat → Bool
  /-- The tables behind `strconv.IsPrint`. -/
  print : Nat → Bool

/-- Tables with no entry above Latin-1: enough to run ASCII and Latin-1 inputs. -/
def latin1Tables : UnicodeTables := ⟨fun _ => false, fun _ => false, fun _ => false⟩

namespace utf8

/-- The rune U+FFFD, returned for invalid encodings. -/
def RuneError : Nat := 0xFFFD

/-- Runes below `RuneSelf` are single bytes. -/
def RuneSelf : Nat := 0x80

/-- `utf8.ValidRune`: not a surrogate and at most `MaxRune`. -/
def ValidRune (r : Nat) : Bool := r < 0xD800 || (0xDFFF < r && r ≤ 0x10FFFF)

/-- The size `first[s0] & 7` of the sequence led by `s0`, for `0xC2 ≤ s0 ≤ 0xF4`. -/
def seqSize (s0 : Nat) : Nat := if s0 < 0xE0 then 2 else if s0 < 0xF0 then 3 else 4

/-- The lower bound `acceptRanges[first[s0] >> 4].lo` for the second byte. -/
def acceptLo (s0 : Nat) : Nat := if s0 = 0xE0 then 0xA0 else if s0 = 0xF0 then 0x90 else 0x80

/-- The upper bound `acceptRanges[first[s0] >> 4].hi` for the second byte. -/
def acceptHi (s0 : Nat) : Nat := if s0 = 0xED then 0x9F else if s0 = 0xF4 then 0x8F else 0xBF

/-- `utf8.DecodeRuneInString`: the first rune of `s` and its width in bytes.
Masks and shifts are written as remainders and products. -/
def DecodeRuneInString (s : Str) : Nat × Nat :=
  match s with
  | [] => (RuneError, 0)
  | b0 :: t =>
    let s0 := b0.val
    if s0 < 0x80 then (s0, 1)
    else if s0 < 0xC2 ∨ 0xF4 < s0 then (RuneError, 1)
    else if s.length < seqSize s0 then (RuneError, 1)
    else
      let s1 := (t.getD 0 0).val
      if s1 < acceptLo s0 ∨ acceptHi s0 < s1 then (RuneError, 1)
      else if seqSize s0 ≤ 2 then (s0 % 32 * 64 + s1 % 64, 2)
      else
        let s2 := (t.getD 1 0).val
        if s2 < 0x80 ∨ 0xBF < s2 then (RuneError, 1)
        else if seqSize s0 ≤ 3 then (s0 % 16 * 4096 + s1 % 64 * 64 + s2 % 64, 3)
        else
          let s3 := (t.getD 2 0).val
          if s3 < 0x80 ∨ 0xBF < s3 then (RuneError, 1)
          else (s0 % 8 * 262144 + s1 % 64 * 4096 + s2 % 64 * 64 + s3 % 64, 4)

/-- `utf8.AppendRune` onto an empty buffer: the UTF-8 encoding of `r`. -/
def AppendRune (r : Nat) : Str :=
  if r ≤ 0x7F then [byte r]
  else if r ≤ 0x7FF then [byte (0xC0 + r / 64), byte (0x80 + r % 64)]
  else if 0x10FFFF < r ∨ (0xD800 ≤ r ∧ r ≤ 0xDFFF) then [0xEF, 0xBF, 0xBD]
  else if r ≤ 0xFFFF then
    [byte (0xE0 + r / 4096), byte (0x80 + r / 64 % 64), byte (0x80 + r % 64)]
  else
    [byte (0xF0 + r / 262144), byte (0x80 + r / 4096 % 64), byte (0x80 + r / 64 % 64),
      byte (0x80 + r % 64)]

/-- The loop of `utf8.ValidString`: every rune of `s` is validly encoded. -/
def validLoop : Nat → Str → Bool
  | 0, _ => true
  | fuel + 1, s =>
    match s with
    | [] => true
    | _ :: _ =>
      let rw := DecodeRuneInString s
      if rw.1 = RuneError ∧ rw.2 = 1 then false else validLoop fuel (s.drop rw.2)

/-- `utf8.ValidString`. -/
def ValidString (s : Str) : Bool := validLoop s.length s

end utf8

namespace unicode

/-- `unicode.IsLetter`: the Latin-1 property table, then the letter table. -/
def IsLetter (U : UnicodeTables) (r : Nat) : Bool :=
  if r ≤ 0xFF then
    (0x41 ≤ r && r ≤ 0x5A) || (0x61 ≤ r && r ≤ 0x7A) || r = 0xAA || r = 0xB5 || r = 0xBA ||
      (0xC0 ≤ r && r ≤ 0xD6) || (0xD8 ≤ r && r ≤ 0xF6) || (0xF8 ≤ r && r ≤ 0xFF)
  else U.letter r

/-- `unicode.IsNumber`: the Latin-1 property table, then the number table. -/
def IsNumber (U : UnicodeTables) (r : Nat) : Bool :=
  if r ≤ 0xFF then
    (0x30 ≤ r && r ≤ 0x39) || r = 0xB2 || r = 0xB3 || r = 0xB9 || (0xBC ≤ r && r ≤ 0xBE)
  else U.number r

end unicode

namespace strings

/-- `strings.IndexByte`: the index of the first `c` in `s`, `none` for `-1`. -/
def IndexByte : Str → Byte → Option Nat
  | [], _ => none
  | b :: rest, c => if b = c then some 0 else (IndexByte rest c).map (· + 1)

/-- `strings.HasPrefix`. -/
def HasPrefix (s pre : Str) : Bool := s.take pre.length = pre

/-- The loop of `strings.TrimLeftFunc`, returning the number of bytes trimmed,
`len(s) - len(strings.TrimLeftFunc(s, f))`: the byte index of the first rune
(decoded as `range` does) that does not satisfy `f`. -/
def trimLeftLoop (f : Nat → Bool) : Nat → Str → Nat
  | 0, _ => 0
  | fuel + 1, s =>
    match s with
    | [] => 0
    | _ :: _ =>
      let rw := utf8.DecodeRuneInString s
      if f rw.1 then rw.2 + trimLeftLoop f fuel (s.drop rw.2) else 0

/-- The value of `len(s) - len(strings.TrimLeftFunc(s, f))`. -/
def trimLeftLen (f : Nat → Bool) (s : Str) : Nat := trimLeftLoop f s.length s

end strings

namespace strconv

/-- `strconv.IsPrint`: the Latin-1 fast path, then the print tables. -/
def IsPrint (U : UnicodeTables) (r : Nat) : Bool :=
  if r ≤ 0xFF then
    if 0x20 ≤ r ∧ r ≤ 0x7E then true
    else if 0xA1 ≤ r ∧ r ≤ 0xFF then r ≠ 0xAD
    else false
  else U.print r

/-- The digit `"0123456789abcdef"[n]`. -/
def lowerhex (n : Nat) : Byte := if n < 10 then byte (0x30 + n) else byte (0x61 + (n - 10))

/-- The digits `lowerhex[r>>s&0xF]` for `s` from `4*(n-1)` down to `0`. -/
def hexDigits : Nat → Nat → Str
  | 0, _ => []
  | n + 1, r => lowerhex (r / 16 ^ n % 16) :: hexDigits n r

/-- `strconv.appendEscapedRune` with `quote = '"'`, `ASCIIonly = false` and
`graphicOnly = false`, as `strconv.Quote` calls it. -/
def appendEscapedRune (U : UnicodeTables) (r : Nat) : Str :=
  if r = 0x22 ∨ r = 0x5C then [0x5C, byte r]
  else if IsPrint U r then utf8.AppendRune r
  else if r = 0x07 then [0x5C, 0x61]
  else if r = 0x08 then [0x5C, 0x62]
  else if r = 0x0C then [0x5C, 0x66]
  else if r = 0x0A then [0x5C, 0x6E]
  else if r = 0x0D then [0x5C, 0x72]
  else if r = 0x09 then [0x5C, 0x74]
  else if r = 0x0B then [0x5C, 0x76]
  else if r < 0x20 ∨ r = 0x7F then
    [0x5C, 0x78, lowerhex (r % 256 / 16), lowerhex (r % 256 % 16)]
  else if ¬ utf8.ValidRune r then 0x5C :: 0x75 :: hexDigits 4 0xFFFD
  else if r < 0x10000 then 0x5C :: 0x75 :: hexDigits 4 r
  else 0x5C :: 0x55 :: hexDigits 8 r

/-- The loop of `strconv.appendQuotedWith`: the escaped body of `s`. -/
def quoteLoop (U : UnicodeTables) : Nat → Str → Str
  | 0, _ => []
  | fuel + 1, s =>
    match s with
    | [] => []
    | b :: _ =>
      let rw := if 0x80 ≤ b.val then utf8.DecodeRuneInString s else (b.val, 1)
      if rw.2 = 1 ∧ rw.1 = utf8.RuneError then
        [0x5C, 0x78, lowerhex (b.val / 16), lowerhex (b.val % 16)]
          ++ quoteLoop U fuel (s.drop rw.2)
      else appendEscapedRune U rw.1 ++ quoteLoop U fuel (s.drop rw.2)

/-- `strconv.Quote`: a double-quoted Go string literal for `s`. -/
def Quote (U : UnicodeTables) (s : Str) : Str := 0x22 :: (quoteLoop U s.length s ++ [0x22])

/-- The function `unhex` of `strconv`. -/
def unhex (b : Byte) : Option Nat :=
  let c := b.val
  if 0x30 ≤ c ∧ c ≤ 0x39 then some (c - 0x30)
  else if 0x61 ≤ c ∧ c ≤ 0x66 then some (c - 0x61 + 10)
  else if 0x41 ≤ c ∧ c ≤ 0x46 then some (c - 0x41 + 10)
  else none

/-- The digit loop of `strconv.UnquoteChar` for `\x`, `\u` and `\U`:
`v = v<<4 | x` over the first `n` bytes. -/
def readHex : Nat → Str → Nat → Option Nat
  | 0, _, v => some v
  | _ + 1, [], _ => none
  | n + 1, b :: rest, v =>
    match unhex b with
    | none => none
    | some x => readHex n rest (v * 16 + x)

/-- The digit loop of `strconv.UnquoteChar` for octal escapes: `v = (v<<3) | x`. -/
def readOctal : Nat → Str → Nat → Option Nat
  | 0, _, v => some v
  | _ + 1, [], _ => none
  | n + 1, b :: rest, v =>
    if b.val < 0x30 ∨ 0x37 < b.val then none else readOctal n rest (v * 8 + (b.val - 0x30))

/-- `strconv.UnquoteChar`: the value of the first character or escape of `s`,
whether it is a multibyte rune, and the tail; `none` stands for `ErrSyntax`. -/
def UnquoteChar (s : Str) (quote : Byte) : Option (Nat × Bool × Str) :=
  match s with
  | [] => none
  | c :: rest =>
    if c = quote ∧ (quote = 0x27 ∨ quote = 0x22) then none
    else if 0x80 ≤ c.val then
      let rw := utf8.DecodeRuneInString s
      some (rw.1, true, s.drop rw.2)
    else if c ≠ 0x5C then some (c.val, false, rest)
    else
      match rest with
      | [] => none
      | c :: s =>
        if c = 0x61 then some (0x07, false, s)
        else if c = 0x62 then some (0x08, false, s)
        else if c = 0x66 then some (0x0C, false, s)
        else if c = 0x6E then some (0x0A, false, s)
        else if c = 0x72 then some (0x0D, false, s)
        else if c = 0x74 then some (0x09, false, s)
        else if c = 0x76 then some (0x0B, false, s)
        else if c = 0x78 ∨ c = 0x75 ∨ c = 0x55 then
          let n := if c = 0x78 then 2 else if c = 0x75 then 4 else 8
          if s.length < n then none
          else
            match readHex n s 0 with
            | none => none
            | some v =>
              if c = 0x78 then some (v, false, s.drop n)
              else if ¬ utf8.ValidRune v then none
              else some (v, true, s.drop n)
        else if 0x30 ≤ c.val ∧ c.val ≤ 0x37 then
          if s.length < 2 then none
          else
            match readOctal 2 s (c.val - 0x30) with
            | none => none
            | some v => if 255 < v then none else some (v, false, s.drop 2)
        else if c = 0x5C then some (0x5C, false, s)
        else if c = 0x27 ∨ c = 0x22 then
          if c ≠ quote then none else some (c.val, false, s)
        else none

/-- The escape-processing loop of `strconv.unquote`: the buffer and the input
left when the loop exits; `none` stands for `ErrSyntax`. -/
def unquoteLoop (quote : Byte) : Nat → Str → Str → Option (Str × Str)
  | 0, inp, buf => some (buf, inp)
  | fuel + 1, inp, buf =>
    match inp with
    | [] => some (buf, inp)
    | c :: _ =>
      if c = quote then some (buf, inp)
      else
        match UnquoteChar inp quote with
        | none => none
        | some (r, multibyte, rem) =>
          if c = 0x0A then none
          else
            let buf := if r < utf8.RuneSelf ∨ multibyte = false then buf ++ [byte r]
              else buf ++ utf8.AppendRune r
            if quote = 0x27 then some (buf, rem) else unquoteLoop quote fuel rem buf

/-- The slow path of `strconv.unquote`, after the opening quote: run the loop,
then require the terminating quote.  Returns the value and the remainder. -/
def unquoteSlow (quote : Byte) (inp : Str) : Option (Str × Str) :=
  match unquoteLoop quote inp.length inp [] with
  | none => none
  | some (buf, rest) =>
    match rest with
    | [] => none
    | c :: rest => if c = quote then some (buf, rest) else none

/-- `strconv.unquote` with `unescape = true`: the value of the quoted prefix of
`inp` and the remainder; `none` stands for `ErrSyntax`. -/
def unquote (inp : Str) : Option (Str × Str) :=
  if inp.length < 2 then none
  else
    match inp with
    | [] => none
    | quote :: body =>
      match strings.IndexByte body quote with
      | none => none
      | some e =>
        let stop := e + 2
        if quote = 0x60 then
          some (((inp.take (stop - 1)).drop 1).filter (fun b => b ≠ 0x0D), inp.drop stop)
        else if quote = 0x22 ∨ quote = 0x27 then
          if (0x5C : Byte) ∉ inp.take stop ∧ (0x0A : Byte) ∉ inp.take stop ∧
              (if quote = 0x22 then utf8.ValidString ((inp.take (stop - 1)).drop 1) = true
               else
                let rn := utf8.DecodeRuneInString ((inp.take (stop - 1)).drop 1)
                1 + rn.2 + 1 = stop ∧ (rn.1 ≠ utf8.RuneError ∨ rn.2 ≠ 1)) then
            some ((inp.take (stop - 1)).drop 1, inp.drop stop)
          else unquoteSlow quote body
        else none

/-- `strconv.Unquote`: the whole of `s` must be one quoted literal. -/
def Unquote (s : Str) : Option Str :=
  match unquote s with
  | none => none
  | some (out, rem) => if 0 < rem.length then none else some out

end strconv

deriving instance DecidableEq for Except

/-- The errors `tag.go` returns. -/
inductive TagError where
  /-- `fmt.Errorf("%w: input has no paired value, rest = %s", ErrUnpairedKey, tag)`. -/
  | unpairedInput (rest : Str)
  /-- `fmt.Errorf("%w: name = %s has no paired value, rest = %s", ErrUnpairedKey, name, tag)`. -/
  | unpairedName (name rest : Str)
  /-- The error `strconv.ErrSyntax`, returned as it comes from `strconv.Unquote`. -/
  | errSyntax
  /-- `fmt.Errorf("malformed option, %s", tags[i].Value)`. -/
  | malformedOption (value : Str)
  /-- The error `io.ErrUnexpectedEOF`. -/
  | unexpectedEOF
  /-- `fmt.Errorf("invalid character: %s", s)`. -/
  | invalidCharacter (s : Str)
  /-- `fmt.Errorf("invalid escaped string: string must be escaped by single quotes, input = %s", s)`. -/
  | invalidEscaped (s : Str)
  /-- `fmt.Errorf("invalid escaped string: single-quoted string missing terminating single-quote: %s", s)`. -/
  | missingQuote (s : Str)
  /-- Not a Go error: a loop of the embedding ran out of fuel. -/
  | outOfFuel
deriving DecidableEq, Repr

/-- The errors built with `%w` of `ErrUnpairedKey`: `errors.Is(err, ErrUnpairedKey)`. -/
def TagError.wrapsErrUnpairedKey : TagError → Bool
  | .unpairedInput _ => true
  | .unpairedName _ _ => true
  | _ => false

/-- The struct `Tag`: a key and its unquoted value. -/
structure Tag where
  /-- The key before the colon. -/
  Key : Str
  /-- The unquoted value. -/
  Value : Str
deriving DecidableEq, Repr

/-- The method `Tag.Flatten`: `t.Key + ":" + strconv.Quote(t.Value)`. -/
def Tag.Flatten (U : UnicodeTables) (t : Tag) : Str := t.Key ++ 0x3A :: strconv.Quote U t.Value

/-- The first loop of `ParseStructTag`: `tag[i:]` after the leading spaces. -/
def skipSpaces : Str → Str
  | [] => []
  | b :: rest => if b = 0x20 then skipSpaces rest else b :: rest

/-- The second loop of `ParseStructTag`: the index `i` at which the key scan
stops, the first byte that is a space or below, a colon, a quote or DEL. -/
def keyLen : Str → Nat
  | [] => 0
  | b :: rest =>
    if 0x20 < b.val ∧ b ≠ 0x3A ∧ b ≠ 0x22 ∧ b.val ≠ 0x7F then keyLen rest + 1 else 0

/-- The third loop of `ParseStructTag`, on `tag[1:]`: the offset in `tag[1:]`
of the closing quote, or `none` when the scan ends with `i >= len(tag)`. -/
def scanQuoted : Str → Option Nat
  | [] => none
  | b :: rest =>
    if b = 0x22 then some 0
    else if b = 0x5C then
      match rest with
      | [] => none
      | _ :: rest2 => (scanQuoted rest2).map (· + 2)
    else (scanQuoted rest).map (· + 1)

/-- The outer loop of `ParseStructTag`. -/
def parseLoop : Nat → Str → List Tag → Except TagError (List Tag)
  | 0, _, _ => .error .outOfFuel
  | fuel + 1, tag, out =>
    if tag = [] then .ok out
    else
      let tag := skipSpaces tag
      if tag = [] then .ok out
      else
        let i := keyLen tag
        if i = 0 ∨ tag.length ≤ i + 1 ∨ tag.get? i ≠ some 0x3A ∨ tag.get? (i + 1) ≠ some 0x22 then
          .error (.unpairedInput tag)
        else
          let name := tag.take i
          let tag := tag.drop (i + 1)
          match scanQuoted (tag.drop 1) with
          | none => .error (.unpairedName name tag)
          | some j =>
            let i := j + 1
            let quotedValue := tag.take (i + 1)
            let tag := tag.drop (i + 1)
            match strconv.Unquote quotedValue with
            | none => .error .errSyntax
            | some value => parseLoop fuel tag (out ++ [⟨name, value⟩])

/-- `ParseStructTag`. -/
def ParseStructTag (tag : Str) : Except TagError (List Tag) := parseLoop (tag.length + 1) tag []

/-- `StructTagOf`: the flattened tags, each followed by a space, less the last byte. -/
def StructTagOf (U : UnicodeTables) (tags : List Tag) : Str :=
  let out := tags.foldl (fun buf tag => buf ++ tag.Flatten U ++ [0x20]) []
  if 0 < out.length then out.take (out.length - 1) else out

/-- The loop of `unescape`, with the index `i`, the flag `escaping` and the
buffer `escaped` as its state.  The named result `n` is still zero inside the
loop, so the bytes appended at each step are `s[n:][:rn]` with `n = 0`. -/
def unescapeLoop (s : Str) : Nat → Nat → Bool → Str → Except TagError (Str × Nat)
  | 0, _, _, _ => .error .outOfFuel
  | fuel + 1, i, escaping, escaped =>
    if i < s.length then
      let n := 0
      let rw := utf8.DecodeRuneInString (s.drop i)
      let r := rw.1
      let rn := rw.2
      if escaping then
        let escaped := if r = 0x27 then escaped.take (escaped.length - 1) else escaped
        unescapeLoop s fuel (i + rn) false (escaped ++ (s.drop n).take rn)
      else if r = 0x5C then
        unescapeLoop s fuel (i + rn) true (escaped ++ (s.drop n).take rn)
      else if r = 0x22 then
        unescapeLoop s fuel (i + rn) false (escaped ++ [0x5C] ++ (s.drop n).take rn)
      else if r = 0x27 then
        let escaped := escaped ++ [0x22]
        let i := i + 1
        match strconv.Unquote escaped with
        | none => .error (.invalidEscaped s)
        | some out => .ok (out, i)
      else unescapeLoop s fuel (i + rn) false (escaped ++ (s.drop n).take rn)
    else .error (.missingQuote s)

/-- `unescape`: the single-quoted token at the start of `s` and its length. -/
def unescape (s : Str) : Except TagError (Str × Nat) :=
  let i := if s.head? = some 0x27 then 1 else 0
  unescapeLoop s (s.length + 1) i false [0x22]

/-- The runes an identifier may continue with: `r == '_' || unicode.IsLetter(r) || unicode.IsNumber(r)`. -/
def identRune (U : UnicodeTables) (r : Nat) : Bool :=
  r = 0x5F || unicode.IsLetter U r || unicode.IsNumber U r

/-- `readTagOption`: the option token at the start of `s` and its length in bytes. -/
def readTagOption (U : UnicodeTables) (s : Str) : Except TagError (Str × Nat) :=
  if s.length = 0 then .error .unexpectedEOF
  else
    let r := (utf8.DecodeRuneInString s).1
    if r = 0x5F ∨ unicode.IsLetter U r = true then
      let n := strings.trimLeftLen (identRune U) s
      .ok (s.take n, n)
    else if r = 0x27 then unescape s
    else .error (.invalidCharacter s)

/-- The runes reserved in a name: comma, backslash, single quote, double quote
and backquote, the set `strings.ContainsRune` is asked about. -/
def reservedRune (r : Nat) : Bool := r = 0x2C || r = 0x5C || r = 0x27 || r = 0x22 || r = 0x60

/-- The step "first, skip name" of `AddTagOption`: the value after its name slot. -/
def skipName (U : UnicodeTables) (value : Str) : Except TagError Str :=
  if 0 < value.length ∧ ¬ strings.HasPrefix value [0x2C] = true then
    let n := strings.trimLeftLen (fun r => !reservedRune r) value
    if n = 0 then
      match readTagOption U value with
      | .error err => .error err
      | .ok (_, n) => .ok (value.drop n)
    else .ok (value.drop n)
  else .ok value

/-- The loop `for len(value) > 0` of `AddTagOption` over the options of one
value: the final `hasValue`.  `orig` is `tags[i].Value`, reported in errors. -/
def optionLoop (U : UnicodeTables) (option orig : Str) : Nat → Str → Except TagError Bool
  | 0, _ => .error .outOfFuel
  | fuel + 1, value =>
    match value with
    | [] => .ok false
    | c :: value =>
      if c ≠ 0x2C then .error (.malformedOption orig)
      else if value.length = 0 then .error (.malformedOption orig)
      else
        match readTagOption U value with
        | .error err => .error err
        | .ok (opt, n) =>
          let value := value.drop n
          if 0 < value.length ∧ value.head? = some 0x3A then
            if strings.HasPrefix option (opt ++ [0x3A]) then .ok true
            else
              let value := value.drop 1
              match readTagOption U value with
              | .error err => .error err
              | .ok (_, n) =>
                let value := value.drop n
                if option = opt then .ok true else optionLoop U option orig fuel value
          else if option = opt then .ok true
          else optionLoop U option orig fuel value

/-- The body of the loop over `tags` for the entry `t` whose key is the one
looked for: the entry after the option has been added, or left as it is. -/
def addToEntry (U : UnicodeTables) (option : Str) (t : Tag) : Except TagError Tag :=
  match skipName U t.Value with
  | .error err => .error err
  | .ok value =>
    match optionLoop U option t.Value (value.length + 1) value with
    | .error err => .error err
    | .ok hasValue =>
      if hasValue = false then
        .ok ⟨t.Key, (if strings.HasPrefix option [0x2C] = false then t.Value ++ [0x2C] else t.Value)
          ++ option⟩
      else .ok t

/-- The loop `for i := 0; i < len(tags); i++` of `AddTagOption`: the tags after
the loop and the final `hasTag`.  Only the first entry with the key is visited
(the loop ends with `break`). -/
def addLoop (U : UnicodeTables) (tag option : Str) : List Tag → Except TagError (List Tag × Bool)
  | [] => .ok ([], false)
  | t :: rest =>
    if t.Key ≠ tag then
      match addLoop U tag option rest with
      | .error err => .error err
      | .ok (ts, hasTag) => .ok (t :: ts, hasTag)
    else
      match addToEntry U option t with
      | .error err => .error err
      | .ok t2 => .ok (t2 :: rest, true)

/-- `AddTagOption`. -/
def AddTagOption (U : UnicodeTables) (t tag option : Str) : Except TagError Str :=
  match ParseStructTag t with
  | .error err => .error err
  | .ok tags =>
    match addLoop U tag option tags with
    | .error err => .error err
    | .ok (tags, hasTag) =>
      let tags := if hasTag = false then tags ++ [⟨tag, option⟩] else tags
      .ok (StructTagOf U tags)

/-! Definitions used in the statements and proofs. -/

namespace utf8

/-- The first byte leads a sequence of `n` bytes whose second byte is `b1`. -/
def leads (n : Nat) (b0 b1 : Byte) : Prop :=
  0xC2 ≤ b0.val ∧ b0.val ≤ 0xF4 ∧ seqSize b0.val = n ∧
    acceptLo b0.val ≤ b1.val ∧ b1.val ≤ acceptHi b0.val

/-- A continuation byte. -/
def cont (b : Byte) : Prop := 0x80 ≤ b.val ∧ b.val ≤ 0xBF

/-- The shapes a decoding can have. -/
inductive Decoded : Str → Nat → Nat → Prop where
  | empty : Decoded [] RuneError 0
  | ascii (b : Byte) (t : Str) : b.val < 0x80 → Decoded (b :: t) b.val 1
  | bad (b : Byte) (t : Str) : 0x80 ≤ b.val → Decoded (b :: t) RuneError 1
  | two (b0 b1 : Byte) (t : Str) : leads 2 b0 b1 →
      Decoded (b0 :: b1 :: t) (b0.val % 32 * 64 + b1.val % 64) 2
  | three (b0 b1 b2 : Byte) (t : Str) : leads 3 b0 b1 → cont b2 →
      Decoded (b0 :: b1 :: b2 :: t) (b0.val % 16 * 4096 + b1.val % 64 * 64 + b2.val % 64) 3
  | four (b0 b1 b2 b3 : Byte) (t : Str) : leads 4 b0 b1 → cont b2 → cont b3 →
      Decoded (b0 :: b1 :: b2 :: b3 :: t)
        (b0.val % 8 * 262144 + b1.val % 64 * 4096 + b2.val % 64 * 64 + b3.val % 64) 4

end utf8

namespace strconv

/-- What one turn of the loop of `strconv.Quote` appends for the first rune of
a non-empty `s`. -/
def quoteChunk (U : UnicodeTables) (s : Str) : Str :=
  let rw := utf8.DecodeRuneInString s
  if rw.2 = 1 ∧ rw.1 = utf8.RuneError then
    [0x5C, 0x78, lowerhex ((s.headD 0).val / 16), lowerhex ((s.headD 0).val % 16)]
  else appendEscapedRune U rw.1

/-- What the loop of `strconv.unquote` appends to its buffer for one character. -/
def unquoted (r : Nat) (multibyte : Bool) : Str :=
  if r < utf8.RuneSelf ∨ multibyte = false then [byte r] else utf8.AppendRune r

end strconv

/-- A byte that the scan of a quoted value steps over singly: neither a double
quote nor a backslash. -/
def plainByte (x : Byte) : Prop := x ≠ 0x22 ∧ x ≠ 0x5C

/-- The bytes the key scan of `ParseStructTag` steps over: above the space,
and not a colon, a double quote or DEL. -/
def keyByte (b : Byte) : Bool := decide (0x20 < b.val ∧ b ≠ 0x3A ∧ b ≠ 0x22 ∧ b.val ≠ 0x7F)

/-- A key as `ParseStructTag` reads one: not empty and made of key bytes. -/
def validKey (k : Str) : Bool := !k.isEmpty && k.all keyByte

/-- What one turn of the outer loop of `ParseStructTag` does. -/
inductive ParseStep where
  /-- The loop ends: the tag is empty or all spaces. -/
  | stop
  /-- The loop returns an error. -/
  | fail (err : TagError)
  /-- The loop appends an entry and goes on with the rest. -/
  | entry (t : Tag) (rest : Str)
deriving DecidableEq

/-- One turn of the outer loop of `ParseStructTag`, as in `parseLoop`. -/
def parseStep (tag : Str) : ParseStep :=
  if tag = [] then .stop
  else
    let tag := skipSpaces tag
    if tag = [] then .stop
    else
      let i := keyLen tag
      if i = 0 ∨ tag.length ≤ i + 1 ∨ tag.get? i ≠ some 0x3A ∨ tag.get? (i + 1) ≠ some 0x22 then
        .fail (.unpairedInput tag)
      else
        let name := tag.take i
        let tag := tag.drop (i + 1)
        match scanQuoted (tag.drop 1) with
        | none => .fail (.unpairedName name tag)
        | some j =>
          let i := j + 1
          let quotedValue := tag.take (i + 1)
          let tag := tag.drop (i + 1)
          match strconv.Unquote quotedValue with
          | none => .fail .errSyntax
          | some value => .entry ⟨name, value⟩ tag

/-- The outer loop of `ParseStructTag` with the fuel `ParseStructTag` gives it. -/
def parseFrom (tag : Str) (out : List Tag) : Except TagError (List Tag) :=
  parseLoop (tag.length + 1) tag out

/-- The text `StructTagOf` writes: the flattened tags with one space between them. -/
def joinTags (U : UnicodeTables) : List Tag → Str
  | [] => []
  | [t] => t.Flatten U
  | t :: ts => t.Flatten U ++ 0x20 :: joinTags U ts

/-- What one turn of the option loop of `AddTagOption` does. -/
inductive OptStep where
  /-- The loop ends: with `hasValue` at `break` or at the end of the value, or
  with the error the function returns. -/
  | done (r : Except TagError Bool)
  /-- The loop goes on with the rest of the value. -/
  | more (rest : Str)
deriving DecidableEq

/-- One turn of the option loop of `AddTagOption`, as in `optionLoop`. -/
def optionStep (U : UnicodeTables) (option orig : Str) (value : Str) : OptStep :=
  match value with
  | [] => .done (.ok false)
  | c :: value =>
    if c ≠ 0x2C then .done (.error (.malformedOption orig))
    else if value.length = 0 then .done (.error (.malformedOption orig))
    else
      match readTagOption U value with
      | .error err => .done (.error err)
      | .ok (opt, n) =>
        let value := value.drop n
        if 0 < value.length ∧ value.head? = some 0x3A then
          if strings.HasPrefix option (opt ++ [0x3A]) then .done (.ok true)
          else
            let value := value.drop 1
            match readTagOption U value with
            | .error err => .done (.error err)
            | .ok (_, n) =>
              let value := value.drop n
              if option = opt then .done (.ok true) else .more value
        else if option = opt then .done (.ok true)
        else .more value

/-- The byte after a token is a colon. -/
def colonNext (value : Str) : Prop := 0 < value.length ∧ value.head? = some 0x3A

instance (value : Str) : Decidable (colonNext value) := by
  unfold colonNext
  infer_instance

/-- The part of a turn of the option loop after the first token has been read. -/
def afterToken (U : UnicodeTables) (option : Str) (opt : Str) (value : Str) : OptStep :=
  if colonNext value then
    if strings.HasPrefix option (opt ++ [0x3A]) then .done (.ok true)
    else
      match readTagOption U (value.drop 1) with
      | .error err => .done (.error err)
      | .ok (_, n) => if option = opt then .done (.ok true) else .more ((value.drop 1).drop n)
  else if option = opt then .done (.ok true)
  else .more value

/-- The option loop of `AddTagOption` with fuel for the whole value. -/
def optionScan (U : UnicodeTables) (option orig value : Str) : Except TagError Bool :=
  optionLoop U option orig (value.length + 1) value

/-- The scan `AddTagOption` makes of one value: the name slot is skipped, then
the options are compared with the candidate; the result is `hasValue`. -/
def scanValue (U : UnicodeTables) (option value : Str) : Except TagError Bool :=
  match skipName U value with
  | .error err => .error err
  | .ok rest => optionScan U option value rest

/-- An identifier as `readTagOption` reads one: it starts with an underscore or
a letter and is made of underscores, letters and numbers. -/
def identifier (U : UnicodeTables) (p : Str) : Bool :=
  !p.isEmpty &&
    (decide ((utf8.DecodeRuneInString p).1 = 0x5F) || unicode.IsLetter U (utf8.DecodeRuneInString p).1)
    && decide (strings.trimLeftLen (identRune U) p = p.length)

/-- An option token of a value, as the grammar of the option list describes
it: the text of its identifier or single-quoted token and, when a colon
follows, the text of its secondary value. -/
structure OptToken where
  /-- The text of the identifier, or of the single-quoted token. -/
  ident : Str
  /-- The text of the secondary value after the colon, when there is one. -/
  secondary : Option Str
deriving DecidableEq

/-- The text of a token: the identifier, then the colon and the secondary
value when there is one. -/
def OptToken.text (tok : OptToken) : Str :=
  match tok.secondary with
  | none => tok.ident
  | some s => tok.ident ++ 0x3A :: s

/-- The option tokens of the part of a value after its name slot: each is
preceded by a comma and read with `readTagOption`, as is the secondary value
after a colon.  The loop is the option loop of `AddTagOption` without the
comparison with a candidate option. -/
def tokenLoop (U : UnicodeTables) (orig : Str) : Nat → Str → Except TagError (List OptToken)
  | 0, _ => .error .outOfFuel
  | fuel + 1, value =>
    match value with
    | [] => .ok []
    | c :: value =>
      if c ≠ 0x2C then .error (.malformedOption orig)
      else if value.length = 0 then .error (.malformedOption orig)
      else
        match readTagOption U value with
        | .error err => .error err
        | .ok (_, n) =>
          if colonNext (value.drop n) then
            match readTagOption U ((value.drop n).drop 1) with
            | .error err => .error err
            | .ok (_, m) =>
              match tokenLoop U orig fuel (((value.drop n).drop 1).drop m) with
              | .error err => .error err
              | .ok toks => .ok (⟨value.take n, some (((value.drop n).drop 1).take m)⟩ :: toks)
          else
            match tokenLoop U orig fuel (value.drop n) with
            | .error err => .error err
            | .ok toks => .ok (⟨value.take n, none⟩ :: toks)

/-- The option tokens of a value: the name slot is skipped as `AddTagOption`
skips it, then the tokens are read to the end of the value. -/
def optionTokens (U : UnicodeTables) (value : Str) : Except TagError (List OptToken) :=
  match skipName U value with
  | .error err => .error err
  | .ok rest => tokenLoop U value (rest.length + 1) rest

/-! ## mutate_type.go

`MutateTag` walks a `reflect.Type`.  A type is described here by the part of
it the walk can see: its kind, the element of a pointer, the fields of a
struct, and a name that tells declared types apart.  Descriptions are finite
trees, so a struct that contains itself through a pointer has no description.
-/

/-- The cases of `reflect.Kind` that the walk distinguishes; the kinds without
an element type (`Bool` to `String`) are one case. -/
inductive Kind where
  | Scalar
  | Interface
  | Slice
  | Map
  | Pointer
  | Struct
deriving DecidableEq

/-- The fields of `reflect.StructField` that `reflect.StructOf` reads, over a
type `τ` of type descriptions.  `Offset` and `Index` are left out: `StructOf`
ignores them and computes them from the layout. -/
structure FieldOf (τ : Type) where
  /-- The field name. -/
  Name : Str
  /-- The package path of an unexported field. -/
  PkgPath : Str
  /-- The declared type of the field (`Type` in Go). -/
  Typ : τ
  /-- The annotation (`reflect.StructTag`). -/
  Tag : Str
  /-- The embedded flag. -/
  Anonymous : Bool

/-- The description of a `reflect.Type`. -/
inductive GoType where
  /-- A type of a kind without element type, given by its name. -/
  | scalar (name : Str) : GoType
  /-- An interface type, given by its name. -/
  | iface (name : Str) : GoType
  /-- A slice type. -/
  | slice (elem : GoType) : GoType
  /-- A map type. -/
  | map (key : GoType) (elem : GoType) : GoType
  /-- A pointer type. -/
  | pointer (elem : GoType) : GoType
  /-- A struct type: its name (empty for an unnamed struct) and its fields. -/
  | struct (name : Str) (fields : List (FieldOf GoType)) : GoType

/-- The type `reflect.StructField`. -/
abbrev StructField := FieldOf GoType

/-- The method `Kind` of `reflect.Type`. -/
def GoType.Kind : GoType → Kind
  | .scalar _ => .Scalar
  | .iface _ => .Interface
  | .slice _ => .Slice
  | .map _ _ => .Map
  | .pointer _ => .Pointer
  | .struct _ _ => .Struct

/-- The method `Elem` of `reflect.Type`; `none` is its panic on a kind without
element type. -/
def GoType.Elem : GoType → Option GoType
  | .slice e => some e
  | .map _ e => some e
  | .pointer e => some e
  | _ => none

/-- The fields that `NumField` and `Field` of `reflect.Type` give; `none` is
their panic on a type that is not a struct. -/
def GoType.Fields : GoType → Option (List StructField)
  | .struct _ fields => some fields
  | _ => none

/-- The function `reflect.PointerTo`. -/
def PointerTo (t : GoType) : GoType := .pointer t

/-- The ways a call of `MutateTag` stops without a type. -/
inductive Abort where
  /-- A function or a method of `reflect` panics. -/
  | panic
  /-- The calls nest deeper than the bound given (only with a bound, in
  `MutateTagWithin`). -/
  | tooDeep
deriving DecidableEq

/-- What `reflect.StructOf` refuses beyond the refusal written out in
`StructOf` below.  The package `reflect` is not code of this repository, and
most of what `StructOf` refuses depends on what a description does not hold
(method sets of embedded types, sizes, the validity of names), so these
refusals are a parameter. -/
structure Reflect where
  /-- The list of fields on which `reflect.StructOf` panics. -/
  refuses : List StructField → Bool
  /-- The struct without fields is built. -/
  refuses_nil : refuses [] = false

/-- The parameter with no further refusal. -/
def plainReflect : Reflect := ⟨fun _ => false, rfl⟩

/-- The function `reflect.StructOf`: it panics on a field that is embedded and
has a package path ("is anonymous but has PkgPath set") and on what the
parameter refuses; otherwise it builds the unnamed struct type of the fields
it is given. -/
def StructOf (R : Reflect) (fields : List StructField) : Except Abort GoType :=
  if fields.any (fun f => f.Anonymous && !f.PkgPath.isEmpty) then .error .panic
  else if R.refuses fields then .error .panic
  else .ok (.struct [] fields)

/-- The type `Skipper`. -/
abbrev Skipper := GoType → Bool

/-- The type `TagMutator`. -/
abbrev TagMutator := StructField → Str

/-- The function `SkipNot`. -/
def SkipNot (s : Skipper) : Skipper := fun t => !s t

/-- The function `CombineSkipper`. -/
def CombineSkipper (skippers : List Skipper) : Skipper := fun t =>
  skippers.any (fun skipper => skipper t)

/-- The function `AddOption`: a mutator that adds `opt` to the entry `tag`
unless `ignoreIf` holds of the field type, and gives the annotation back as it
is when `AddTagOption` fails. -/
def AddOption (U : UnicodeTables) (tag opt : Str) (ignoreIf : GoType → Bool) : TagMutator :=
  fun sf =>
    if ignoreIf sf.Typ then sf.Tag
    else
      match AddTagOption U sf.Tag tag opt with
      | .error _ => sf.Tag
      | .ok added => added

/-- The body of the loop of `MutateTag` for one field, with the recursive call
as the argument `recurse`. -/
def mutateField (skipAdvancing : Skipper) (mutateTag : TagMutator)
    (recurse : GoType → Except Abort GoType) (field : StructField) : Except Abort StructField :=
  let typ := field.Typ
  let typ' : Except Abort GoType :=
    if !skipAdvancing typ then
      if typ.Kind = .Struct then recurse typ
      else if typ.Kind = .Pointer then
        match typ.Elem with
        | none => .error .panic
        | some elem =>
          if elem.Kind = .Struct then
            match recurse elem with
            | .error e => .error e
            | .ok elem => .ok (PointerTo elem)
          else .ok typ
      else .ok typ
    else .ok typ
  match typ' with
  | .error e => .error e
  | .ok typ =>
    .ok { Name := field.Name, PkgPath := field.PkgPath, Typ := typ,
          Tag := mutateTag field, Anonymous := field.Anonymous }

/-- The loop of `MutateTag` over the fields, with the recursive call as the
argument `recurse`. -/
def mutateFields (skipAdvancing : Skipper) (mutateTag : TagMutator)
    (recurse : GoType → Except Abort GoType) : List StructField → Except Abort (List StructField)
  | [] => .ok []
  | field :: rest =>
    match mutateField skipAdvancing mutateTag recurse field with
    | .error e => .error e
    | .ok f =>
      match mutateFields skipAdvancing mutateTag recurse rest with
      | .error e => .error e
      | .ok fs => .ok (f :: fs)

/-- The function `MutateTag` with a bound on the depth of its calls, the call
itself counted: a call at bound `0` stops with `tooDeep`, and a call at bound
`d + 1` makes its recursive calls at bound `d`. -/
def MutateTagWithin (R : Reflect) (skipAdvancing : Skipper) (mutateTag : TagMutator) :
    Nat → GoType → Except Abort GoType
  | 0, _ => .error .tooDeep
  | d + 1, rt =>
    match rt.Fields with
    | none => .error .panic
    | some fields =>
      match mutateFields skipAdvancing mutateTag (MutateTagWithin R skipAdvancing mutateTag d)
          fields with
      | .error e => .error e
      | .ok fields => StructOf R fields

mutual
/-- The nesting depth of a struct type: one more than the greatest nesting
depth of the structs its fields hold directly or behind one pointer; `0` for a
type that is not a struct. -/
def GoType.nesting : GoType → Nat
  | .struct _ fields => nestingFields fields + 1
  | _ => 0
/-- The greatest nesting depth among the structs that fields hold. -/
def nestingFields : List (FieldOf GoType) → Nat
  | [] => 0
  | field :: rest => max (nestingField field) (nestingFields rest)
/-- The nesting depth of the struct that a field holds directly or behind one
pointer. -/
def nestingField : FieldOf GoType → Nat
  | ⟨_, _, .pointer elem, _, _⟩ => GoType.nesting elem
  | ⟨_, _, typ, _, _⟩ => GoType.nesting typ
end

mutual
/-- The function `MutateTag`.  `rt.NumField()` panics on a type that is not a
struct. -/
def MutateTag (R : Reflect) (rt : GoType) (skipAdvancing : Skipper) (mutateTag : TagMutator) :
    Except Abort GoType :=
  match rt with
  | .struct _ fields =>
    match mutateLoop R fields skipAdvancing mutateTag with
    | .error e => .error e
    | .ok fields => StructOf R fields
  | _ => .error .panic
/-- The loop of `MutateTag` over the fields `rt.Field(i)`. -/
def mutateLoop (R : Reflect) (fields : List (FieldOf GoType)) (skipAdvancing : Skipper)
    (mutateTag : TagMutator) : Except Abort (List StructField) :=
  match fields with
  | [] => .ok []
  | field :: rest =>
    match mutateOne R field skipAdvancing mutateTag with
    | .error e => .error e
    | .ok f =>
      match mutateLoop R rest skipAdvancing mutateTag with
      | .error e => .error e
      | .ok fs => .ok (f :: fs)
/-- The body of the loop of `MutateTag`: the field type is rebuilt when the
skip predicate is false of it and it is a struct or a pointer to a struct, and
the annotation is what the mutator makes of the field as it was. -/
def mutateOne (R : Reflect) (field : FieldOf GoType) (skipAdvancing : Skipper)
    (mutateTag : TagMutator) : Except Abort StructField :=
  match field with
  | ⟨name, pkgPath, .pointer elem, tag, anonymous⟩ =>
    let typ' : Except Abort GoType :=
      if !skipAdvancing (.pointer elem) then
        if elem.Kind = .Struct then
          match MutateTag R elem skipAdvancing mutateTag with
          | .error e => .error e
          | .ok elem => .ok (PointerTo elem)
        else .ok (.pointer elem)
      else .ok (.pointer elem)
    match typ' with
    | .error e => .error e
    | .ok typ =>
      .ok { Name := name, PkgPath := pkgPath, Typ := typ,
            Tag := mutateTag ⟨name, pkgPath, .pointer elem, tag, anonymous⟩,
            Anonymous := anonymous }
  | ⟨name, pkgPath, typ, tag, anonymous⟩ =>
    let typ' : Except Abort GoType :=
      if !skipAdvancing typ then
        if typ.Kind = .Struct then MutateTag R typ skipAdvancing mutateTag
        else .ok typ
      else .ok typ
    match typ' with
    | .error e => .error e
    | .ok typ2 =>
      .ok { Name := name, PkgPath := pkgPath, Typ := typ2,
            Tag := mutateTag ⟨name, pkgPath, typ, tag, anonymous⟩,
            Anonymous := anonymous }
end

/-! ## Vocabulary for the claims on the option list -/

/-- What the buffer of `unescape` holds after its opening double quote when
the text read starts with a single quote: nothing, or a text that starts with
a single quote, or one that starts with a backslash and a single quote. -/
def quoteLed (e : Str) : Prop :=
  e = [] ∨ (∃ x, e = 0x27 :: x) ∨ (∃ x, e = 0x5C :: 0x27 :: x)

/-- A single quote that ends a single-quoted token occurs in `s`, the text
after the opening quote: a single quote that is not the rune after a
backslash.  The runes are decoded as `unescape` decodes them; `escaping` says
that the rune before was a backslash. -/
def closesQuote : Nat → Bool → Str → Bool
  | 0, _, _ => false
  | fuel + 1, escaping, s =>
    match s with
    | [] => false
    | _ :: _ =>
      let rw := utf8.DecodeRuneInString s
      if escaping then closesQuote fuel false (s.drop rw.2)
      else if rw.1 = 0x5C then closesQuote fuel true (s.drop rw.2)
      else if rw.1 = 0x27 then true
      else closesQuote fuel false (s.drop rw.2)

/-- The single-quoted token that starts with the quote before `body` has a
terminating single quote. -/
def terminated (body : Str) : Bool := closesQuote body.length false body

/-- A text at which a token is expected and none can be read: it starts with a
character that is neither a letter, an underscore nor a single quote, or it is
a single-quoted token with no terminating single quote. -/
def badToken (U : UnicodeTables) (tok : Str) : Prop :=
  (tok ≠ [] ∧ (utf8.DecodeRuneInString tok).1 ≠ 0x5F
      ∧ unicode.IsLetter U (utf8.DecodeRuneInString tok).1 = false
      ∧ (utf8.DecodeRuneInString tok).1 ≠ 0x27)
    ∨ ∃ body, tok = 0x27 :: body ∧ terminated body = false

/-- The option loop of `AddTagOption`, started with `a` left of the value,
comes to the start of a turn with `b` left, the option not found so far. -/
inductive ScanReaches (U : UnicodeTables) (option orig : Str) : Str → Str → Prop where
  /-- The loop is where it starts. -/
  | here (a : Str) : ScanReaches U option orig a a
  /-- One more turn that ends with the loop going on. -/
  | turn (a b c : Str) : optionStep U option orig a = .more b →
      ScanReaches U option orig b c → ScanReaches U option orig a c

/-- The ways the rest `rem` of an option list is malformed at the start of a
turn of the loop: an empty token (a comma that ends the value), a character
other than a comma where the separator is expected, a token that cannot be
read after the comma, or, after an identifier `p` and a colon that do not make
the option present, a secondary value that is missing or cannot be read. -/
def MalformedAt (U : UnicodeTables) (option rem : Str) : Prop :=
  rem = [0x2C]
    ∨ (∃ c x, rem = c :: x ∧ c ≠ 0x2C)
    ∨ (∃ tok, rem = 0x2C :: tok ∧ badToken U tok)
    ∨ (∃ p tok, rem = 0x2C :: (p ++ 0x3A :: tok) ∧ identifier U p = true
        ∧ strings.HasPrefix option (p ++ [0x3A]) = false ∧ (tok = [] ∨ badToken U tok))

/-- The two results of `AddTagOption` as Go returns them: the tag and the
error.  Every `return` of the function with an error returns the empty tag. -/
def AddTagOptionResults (U : UnicodeTables) (t tag option : Str) : Str × Option TagError :=
  match AddTagOption U t tag option with
  | .error err => ([], some err)
  | .ok r => (r, none)

/-! ## The tag pipeline with the bounds checks of the run time

The functions of `tag.go` once more, with every index expression `s[i]` and
every slice expression `s[i:]`, `s[:j]` checked as the Go run time checks it:
out of range, the call ends with `Fault.outOfRange`, the panic.  The loops of
`ParseStructTag` run on the index `i` as in the source.  The functions of the
standard library are the ones of the model above. -/

/-- How a checked call ends without a result. -/
inductive Fault where
  /-- The function returns this error (or a loop of the embedding runs out of
  fuel, `TagError.outOfFuel`). -/
  | error (err : TagError)
  /-- The run-time panic of an index or a slice bound out of range. -/
  | outOfRange
deriving DecidableEq

/-- A result of the model without bounds checks, as a result of the checked
model. -/
def Fault.lift {α : Type} : Except TagError α → Except Fault α
  | .ok a => .ok a
  | .error err => .error (.error err)

/-- The index expression `s[i]`. -/
def indexAt {α : Type} (s : List α) (i : Nat) : Except Fault α :=
  match s.get? i with
  | some b => .ok b
  | none => .error .outOfRange

/-- The slice expression `s[i:]`. -/
def sliceFrom {α : Type} (s : List α) (i : Nat) : Except Fault (List α) :=
  if i ≤ s.length then .ok (s.drop i) else .error .outOfRange

/-- The slice expression `s[:j]`. -/
def sliceTo {α : Type} (s : List α) (j : Nat) : Except Fault (List α) :=
  if j ≤ s.length then .ok (s.take j) else .error .outOfRange

/-- The slice expression `s[:len(s)-1]`, out of range when `s` is empty. -/
def sliceToPred {α : Type} (s : List α) : Except Fault (List α) :=
  if 0 < s.length then .ok (s.take (s.length - 1)) else .error .outOfRange

/-- The first loop of `ParseStructTag`, `for i < len(tag) && tag[i] == ' '`:
the final `i`. -/
def spacesLoop (tag : Str) : Nat → Nat → Except Fault Nat
  | 0, _ => .error (.error .outOfFuel)
  | fuel + 1, i =>
    if i < tag.length then do
      let b ← indexAt tag i
      if b = 0x20 then spacesLoop tag fuel (i + 1) else .ok i
    else .ok i

/-- The second loop of `ParseStructTag`, over the bytes of the key: the final
`i`. -/
def keyLoop (tag : Str) : Nat → Nat → Except Fault Nat
  | 0, _ => .error (.error .outOfFuel)
  | fuel + 1, i =>
    if i < tag.length then do
      let b ← indexAt tag i
      if 0x20 < b.val ∧ b ≠ 0x3A ∧ b ≠ 0x22 ∧ b.val ≠ 0x7F then keyLoop tag fuel (i + 1)
      else .ok i
    else .ok i

/-- The third loop of `ParseStructTag`, `for i < len(tag) && tag[i] != '"'`
with its step over the byte after a backslash: the final `i`. -/
def quotedLoop (tag : Str) : Nat → Nat → Except Fault Nat
  | 0, _ => .error (.error .outOfFuel)
  | fuel + 1, i =>
    if i < tag.length then do
      let b ← indexAt tag i
      if b ≠ 0x22 then do
        let c ← indexAt tag i
        let i := if c = 0x5C then i + 1 else i
        quotedLoop tag fuel (i + 1)
      else .ok i
    else .ok i

/-- The condition `i == 0 || i+1 >= len(tag) || tag[i] != ':' || tag[i+1] != '"'`,
evaluated from left to right. -/
def unpairedAt (tag : Str) (i : Nat) : Except Fault Bool :=
  if i = 0 ∨ tag.length ≤ i + 1 then .ok true
  else do
    let c ← indexAt tag i
    if c ≠ 0x3A then .ok true
    else do
      let q ← indexAt tag (i + 1)
      .ok (decide (q ≠ 0x22))

/-- One turn of the outer loop of `ParseStructTag`, checked. -/
def parseStepChecked (tag : Str) : Except Fault ParseStep :=
  if tag = [] then .ok .stop
  else do
    let i ← spacesLoop tag (tag.length + 1) 0
    let tag ← sliceFrom tag i
    if tag = [] then .ok .stop
    else do
      let i ← keyLoop tag (tag.length + 1) 0
      let unpaired ← unpairedAt tag i
      if unpaired then .ok (.fail (.unpairedInput tag))
      else do
        let name ← sliceTo tag i
        let tag ← sliceFrom tag (i + 1)
        let i ← quotedLoop tag (tag.length + 1) 1
        if tag.length ≤ i then .ok (.fail (.unpairedName name tag))
        else do
          let quotedValue ← sliceTo tag (i + 1)
          let tag ← sliceFrom tag (i + 1)
          match strconv.Unquote quotedValue with
          | none => .ok (.fail .errSyntax)
          | some value => .ok (.entry ⟨name, value⟩ tag)

/-- The outer loop of `ParseStructTag`, checked. -/
def parseLoopChecked : Nat → Str → List Tag → Except Fault (List Tag)
  | 0, _, _ => .error (.error .outOfFuel)
  | fuel + 1, tag, out =>
    match parseStepChecked tag with
    | .error f => .error f
    | .ok .stop => .ok out
    | .ok (.fail err) => .error (.error err)
    | .ok (.entry t rest) => parseLoopChecked fuel rest (out ++ [t])

/-- The function `ParseStructTag`, checked. -/
def ParseStructTagChecked (tag : Str) : Except Fault (List Tag) :=
  parseLoopChecked (tag.length + 1) tag []

/-- The function `StructTagOf`, checked: `out[:len(out)-1]` under its guard. -/
def StructTagOfChecked (U : UnicodeTables) (tags : List Tag) : Except Fault Str :=
  let out := tags.foldl (fun buf tag => buf ++ tag.Flatten U ++ [0x20]) []
  if 0 < out.length then sliceToPred out else .ok out

/-- The statement `escaped = append(escaped, s[n:][:rn]...)` of `unescape`,
with `n` still zero. -/
def appendChunk (s escaped : Str) (rn : Nat) : Except Fault Str := do
  let n := 0
  let sn ← sliceFrom s n
  let chunk ← sliceTo sn rn
  .ok (escaped ++ chunk)

/-- The loop of `unescape`, checked. -/
def unescapeLoopChecked (s : Str) : Nat → Nat → Bool → Str → Except Fault (Str × Nat)
  | 0, _, _, _ => .error (.error .outOfFuel)
  | fuel + 1, i, escaping, escaped =>
    if i < s.length then do
      let si ← sliceFrom s i
      let rw := utf8.DecodeRuneInString si
      let r := rw.1
      let rn := rw.2
      if escaping then do
        let escaped ← if r = 0x27 then sliceToPred escaped else .ok escaped
        let escaped ← appendChunk s escaped rn
        unescapeLoopChecked s fuel (i + rn) false escaped
      else if r = 0x5C then do
        let escaped ← appendChunk s escaped rn
        unescapeLoopChecked s fuel (i + rn) true escaped
      else if r = 0x22 then do
        let escaped ← appendChunk s (escaped ++ [0x5C]) rn
        unescapeLoopChecked s fuel (i + rn) false escaped
      else if r = 0x27 then
        let escaped := escaped ++ [0x22]
        let i := i + 1
        match strconv.Unquote escaped with
        | none => .error (.error (.invalidEscaped s))
        | some out => .ok (out, i)
      else do
        let escaped ← appendChunk s escaped rn
        unescapeLoopChecked s fuel (i + rn) false escaped
    else .error (.error (.missingQuote s))

/-- The function `unescape`, checked: it starts with the index expression
`s[0]`. -/
def unescapeChecked (s : Str) : Except Fault (Str × Nat) := do
  let c ← indexAt s 0
  let i := if c = 0x27 then 1 else 0
  unescapeLoopChecked s (s.length + 1) i false [0x22]

/-- The function `readTagOption`, checked. -/
def readTagOptionChecked (U : UnicodeTables) (s : Str) : Except Fault (Str × Nat) :=
  if s.length = 0 then .error (.error .unexpectedEOF)
  else
    let r := (utf8.DecodeRuneInString s).1
    if r = 0x5F ∨ unicode.IsLetter U r = true then do
      let n := strings.trimLeftLen (identRune U) s
      let opt ← sliceTo s n
      .ok (opt, n)
    else if r = 0x27 then unescapeChecked s
    else .error (.error (.invalidCharacter s))

/-- The step "first, skip name" of `AddTagOption`, checked. -/
def skipNameChecked (U : UnicodeTables) (value : Str) : Except Fault Str :=
  if 0 < value.length ∧ ¬ strings.HasPrefix value [0x2C] = true then do
    let n := strings.trimLeftLen (fun r => !reservedRune r) value
    let n ← if n = 0 then (readTagOptionChecked U value).map (fun r => r.2) else .ok n
    sliceFrom value n
  else .ok value

/-- The condition `len(value) > 0 && value[0] == ':'`, evaluated from left to
right. -/
def colonAt (value : Str) : Except Fault Bool :=
  if 0 < value.length then do
    let c ← indexAt value 0
    .ok (decide (c = 0x3A))
  else .ok false

/-- One turn of the option loop of `AddTagOption`, checked. -/
def optionStepChecked (U : UnicodeTables) (option orig : Str) (value : Str) :
    Except Fault OptStep :=
  if 0 < value.length then do
    let c ← indexAt value 0
    if c ≠ 0x2C then .ok (.done (.error (.malformedOption orig)))
    else do
      let value ← sliceFrom value 1
      if value.length = 0 then .ok (.done (.error (.malformedOption orig)))
      else
        match readTagOptionChecked U value with
        | .error (.error err) => .ok (.done (.error err))
        | .error .outOfRange => .error .outOfRange
        | .ok (opt, n) => do
          let value ← sliceFrom value n
          let colon ← colonAt value
          if colon then
            if strings.HasPrefix option (opt ++ [0x3A]) then .ok (.done (.ok true))
            else do
              let value ← sliceFrom value 1
              match readTagOptionChecked U value with
              | .error (.error err) => .ok (.done (.error err))
              | .error .outOfRange => .error .outOfRange
              | .ok (_, n) => do
                let value ← sliceFrom value n
                if option = opt then .ok (.done (.ok true)) else .ok (.more value)
          else if option = opt then .ok (.done (.ok true))
          else .ok (.more value)
  else .ok (.done (.ok false))

/-- The option loop of `AddTagOption`, checked. -/
def optionLoopChecked (U : UnicodeTables) (option orig : Str) : Nat → Str → Except Fault Bool
  | 0, _ => .error (.error .outOfFuel)
  | fuel + 1, value =>
    match optionStepChecked U option orig value with
    | .error f => .error f
    | .ok (.done r) => Fault.lift r
    | .ok (.more rest) => optionLoopChecked U option orig fuel rest

/-- The body of the loop over `tags` for the entry with the key, checked. -/
def addToEntryChecked (U : UnicodeTables) (option : Str) (t : Tag) : Except Fault Tag := do
  let value ← skipNameChecked U t.Value
  let hasValue ← optionLoopChecked U option t.Value (value.length + 1) value
  if hasValue = false then
    .ok ⟨t.Key, (if strings.HasPrefix option [0x2C] = false then t.Value ++ [0x2C] else t.Value)
      ++ option⟩
  else .ok t

/-- The loop over `tags` of `AddTagOption`, checked; `tags[i]` is read under
the loop condition `i < len(tags)`. -/
def addLoopChecked (U : UnicodeTables) (tag option : Str) :
    List Tag → Except Fault (List Tag × Bool)
  | [] => .ok ([], false)
  | t :: rest =>
    if t.Key ≠ tag then do
      let r ← addLoopChecked U tag option rest
      .ok (t :: r.1, r.2)
    else do
      let t2 ← addToEntryChecked U option t
      .ok (t2 :: rest, true)

/-- The function `AddTagOption`, checked. -/
def AddTagOptionChecked (U : UnicodeTables) (t tag option : Str) : Except Fault Str := do
  let tags ← ParseStructTagChecked t
  let r ← addLoopChecked U tag option tags
  let tags := if r.2 = false then r.1 ++ [⟨tag, option⟩] else r.1
  StructTagOfChecked U tags

/-! # Theorems -/

/-! ## Bytes -/

@[simp] theorem byte_val (n : Nat) : (byte n).val = n % 256 := rfl

theorem byte_of_val (b : Byte) : byte b.val = b := by
  apply Fin.ext
  simp only [byte_val]
  omega

theorem byte_eq_iff (n : Nat) (b : Byte) : byte n = b ↔ n % 256 = b.val := by
  constructor
  · intro h
    rw [← h]
    rfl
  · intro h
    apply Fin.ext
    simpa using h

theorem Byte.eq_iff_val (a b : Byte) : a = b ↔ a.val = b.val := Fin.ext_iff

namespace utf8

/-! ## UTF-8 decoding and encoding -/

theorem decode_nil : DecodeRuneInString [] = (RuneError, 0) := rfl

theorem decode_ascii (b : Byte) (t : Str) (h : b.val < 0x80) :
    DecodeRuneInString (b :: t) = (b.val, 1) := by
  simp [DecodeRuneInString, h]

theorem decode_width_pos (s : Str) (h : s ≠ []) : 1 ≤ (DecodeRuneInString s).2 := by
  cases s with
  | nil => exact absurd rfl h
  | cons b t =>
    simp only [DecodeRuneInString]
    split_ifs <;> simp

theorem decode_width_le (s : Str) : (DecodeRuneInString s).2 ≤ s.length := by
  cases s with
  | nil => simp [DecodeRuneInString]
  | cons b t =>
    simp only [DecodeRuneInString]
    split_ifs <;> simp_all [seqSize] <;> split_ifs at * <;> omega

theorem decode_width_le_four (s : Str) : (DecodeRuneInString s).2 ≤ 4 := by
  cases s with
  | nil => simp [DecodeRuneInString]
  | cons b t =>
    simp only [DecodeRuneInString]
    split_ifs <;> simp

/-- A width of one with a rune other than `RuneError` is an ASCII byte. -/
theorem decode_width_one (s : Str) (h : (DecodeRuneInString s).2 = 1) :
    ∃ b t, s = b :: t ∧ ((DecodeRuneInString s).1 = RuneError ∨
      (b.val < 0x80 ∧ (DecodeRuneInString s).1 = b.val)) := by
  cases s with
  | nil => simp [DecodeRuneInString] at h
  | cons b t =>
    refine ⟨b, t, rfl, ?_⟩
    simp only [DecodeRuneInString] at h ⊢
    split_ifs at h ⊢ <;> simp_all

end utf8

namespace utf8

theorem seqSize_range (n : Nat) : 2 ≤ seqSize n ∧ seqSize n ≤ 4 := by
  simp only [seqSize]
  split_ifs <;> omega

theorem decode_two (b0 b1 : Byte) (t : Str) (h : leads 2 b0 b1) :
    DecodeRuneInString (b0 :: b1 :: t) = (b0.val % 32 * 64 + b1.val % 64, 2) := by
  obtain ⟨h1, h2, h3, h4, h5⟩ := h
  simp only [DecodeRuneInString, List.getD_cons_zero, List.length_cons, h3]
  rw [if_neg (by omega), if_neg (by omega), if_neg (by omega), if_neg (by omega),
    if_pos (by omega)]

theorem decode_three (b0 b1 b2 : Byte) (t : Str) (h : leads 3 b0 b1) (hc : cont b2) :
    DecodeRuneInString (b0 :: b1 :: b2 :: t)
      = (b0.val % 16 * 4096 + b1.val % 64 * 64 + b2.val % 64, 3) := by
  obtain ⟨h1, h2, h3, h4, h5⟩ := h
  obtain ⟨h6, h7⟩ := hc
  simp only [DecodeRuneInString, List.getD_cons_zero, List.getD_cons_succ, List.length_cons, h3]
  rw [if_neg (by omega), if_neg (by omega), if_neg (by omega), if_neg (by omega),
    if_neg (by omega), if_neg (by omega), if_pos (by omega)]

theorem decode_four (b0 b1 b2 b3 : Byte) (t : Str) (h : leads 4 b0 b1) (hc : cont b2)
    (hd : cont b3) :
    DecodeRuneInString (b0 :: b1 :: b2 :: b3 :: t)
      = (b0.val % 8 * 262144 + b1.val % 64 * 4096 + b2.val % 64 * 64 + b3.val % 64, 4) := by
  obtain ⟨h1, h2, h3, h4, h5⟩ := h
  obtain ⟨h6, h7⟩ := hc
  obtain ⟨h8, h9⟩ := hd
  simp only [DecodeRuneInString, List.getD_cons_zero, List.getD_cons_succ, List.length_cons, h3]
  rw [if_neg (by omega), if_neg (by omega), if_neg (by omega), if_neg (by omega),
    if_neg (by omega), if_neg (by omega), if_neg (by omega), if_neg (by omega)]

theorem decoded (s : Str) : Decoded s (DecodeRuneInString s).1 (DecodeRuneInString s).2 := by
  rcases s with _ | ⟨b0, t⟩
  · exact Decoded.empty
  by_cases h0 : b0.val < 0x80
  · rw [decode_ascii b0 t h0]
    exact Decoded.ascii b0 t h0
  have bad : ∀ t, Decoded (b0 :: t) RuneError 1 := fun t => Decoded.bad b0 t (by omega)
  by_cases h1 : b0.val < 0xC2 ∨ 0xF4 < b0.val
  · have : DecodeRuneInString (b0 :: t) = (RuneError, 1) := by
      simp only [DecodeRuneInString]
      rw [if_neg h0, if_pos h1]
    rw [this]
    exact bad t
  rcases t with _ | ⟨b1, t⟩
  · have : DecodeRuneInString [b0] = (RuneError, 1) := by
      simp only [DecodeRuneInString, List.length_singleton, seqSize]
      rw [if_neg h0, if_neg h1, if_pos (by split_ifs <;> omega)]
    rw [this]
    exact bad []
  by_cases h2 : b1.val < acceptLo b0.val ∨ acceptHi b0.val < b1.val
  · have : DecodeRuneInString (b0 :: b1 :: t) = (RuneError, 1) := by
      simp only [DecodeRuneInString, List.getD_cons_zero]
      rw [if_neg h0, if_neg h1]
      split_ifs <;> rfl
    rw [this]
    exact bad _
  by_cases s2 : seqSize b0.val = 2
  · have hl : leads 2 b0 b1 := ⟨by omega, by omega, s2, by omega, by omega⟩
    rw [decode_two b0 b1 t hl]
    exact Decoded.two b0 b1 t hl
  rcases t with _ | ⟨b2, t⟩
  · have : DecodeRuneInString [b0, b1] = (RuneError, 1) := by
      simp only [DecodeRuneInString, List.length_cons, List.length_nil]
      rw [if_neg h0, if_neg h1, if_pos (by simp only [seqSize] at s2 ⊢; split_ifs at s2 ⊢ <;> omega)]
    rw [this]
    exact bad _
  by_cases h3 : b2.val < 0x80 ∨ 0xBF < b2.val
  · have : DecodeRuneInString (b0 :: b1 :: b2 :: t) = (RuneError, 1) := by
      have := seqSize_range b0.val
      simp only [DecodeRuneInString, List.getD_cons_zero, List.getD_cons_succ, List.length_cons]
      rw [if_neg h0, if_neg h1]
      split_ifs <;> first | rfl | omega
    rw [this]
    exact bad _
  by_cases s3 : seqSize b0.val = 3
  · have hl : leads 3 b0 b1 := ⟨by omega, by omega, s3, by omega, by omega⟩
    have hc : cont b2 := ⟨by omega, by omega⟩
    rw [decode_three b0 b1 b2 t hl hc]
    exact Decoded.three b0 b1 b2 t hl hc
  have s4 : seqSize b0.val = 4 := by
    simp only [seqSize] at s2 s3 ⊢
    split_ifs at s2 s3 ⊢ <;> first | rfl | omega
  rcases t with _ | ⟨b3, t⟩
  · have : DecodeRuneInString [b0, b1, b2] = (RuneError, 1) := by
      simp only [DecodeRuneInString, List.length_cons, List.length_nil]
      rw [if_neg h0, if_neg h1, if_pos (by omega)]
    rw [this]
    exact bad _
  by_cases h4 : b3.val < 0x80 ∨ 0xBF < b3.val
  · have : DecodeRuneInString (b0 :: b1 :: b2 :: b3 :: t) = (RuneError, 1) := by
      simp only [DecodeRuneInString, List.getD_cons_zero, List.getD_cons_succ, List.length_cons]
      rw [if_neg h0, if_neg h1, if_neg (by omega), if_neg h2, if_neg (by omega), if_neg h3,
        if_neg (by omega), if_pos h4]
    rw [this]
    exact bad _
  have hl : leads 4 b0 b1 := ⟨by omega, by omega, s4, by omega, by omega⟩
  have hc2 : cont b2 := ⟨by omega, by omega⟩
  have hc3 : cont b3 := ⟨by omega, by omega⟩
  rw [decode_four b0 b1 b2 b3 t hl hc2 hc3]
  exact Decoded.four b0 b1 b2 b3 t hl hc2 hc3

end utf8

namespace utf8

/-- Encoding undoes decoding: a rune decoded from two or more bytes encodes to
those bytes. -/
theorem appendRune_decode (s : Str) (h : 2 ≤ (DecodeRuneInString s).2) :
    AppendRune (DecodeRuneInString s).1 = s.take (DecodeRuneInString s).2 := by
  have hd := decoded s
  generalize (DecodeRuneInString s).1 = r at hd h ⊢
  generalize (DecodeRuneInString s).2 = w at hd h ⊢
  cases hd with
  | empty => omega
  | ascii b t hb => omega
  | bad b t hb => omega
  | two b0 b1 t hl =>
    obtain ⟨h1, h2, h3, h4, h5⟩ := hl
    simp only [seqSize, acceptLo, acceptHi] at h3 h4 h5
    split_ifs at h3 h4 h5 <;> try omega
    all_goals
      simp only [AppendRune, List.take_succ_cons, List.take_zero]
      rw [if_neg (by omega), if_pos (by omega)]
      simp only [List.cons.injEq, byte_eq_iff, and_true]
      constructor <;> omega
  | three b0 b1 b2 t hl hc =>
    obtain ⟨h1, h2, h3, h4, h5⟩ := hl
    obtain ⟨h6, h7⟩ := hc
    simp only [seqSize, acceptLo, acceptHi] at h3 h4 h5
    split_ifs at h3 h4 h5 <;> try omega
    all_goals
      simp only [AppendRune, List.take_succ_cons, List.take_zero]
      rw [if_neg (by omega), if_neg (by omega), if_neg (by omega), if_pos (by omega)]
      simp only [List.cons.injEq, byte_eq_iff, and_true]
      refine ⟨?_, ?_, ?_⟩ <;> omega
  | four b0 b1 b2 b3 t hl hc hc2 =>
    obtain ⟨h1, h2, h3, h4, h5⟩ := hl
    obtain ⟨h6, h7⟩ := hc
    obtain ⟨h8, h9⟩ := hc2
    simp only [seqSize, acceptLo, acceptHi] at h3 h4 h5
    split_ifs at h3 h4 h5 <;> try omega
    all_goals
      simp only [AppendRune, List.take_succ_cons, List.take_zero]
      rw [if_neg (by omega), if_neg (by omega), if_neg (by omega), if_neg (by omega)]
      simp only [List.cons.injEq, byte_eq_iff, and_true]
      refine ⟨?_, ?_, ?_, ?_⟩ <;> omega

/-- A rune decoded from two or more bytes is a valid rune outside ASCII. -/
theorem decode_valid (s : Str) (h : 2 ≤ (DecodeRuneInString s).2) :
    0x80 ≤ (DecodeRuneInString s).1 ∧ ValidRune (DecodeRuneInString s).1 = true := by
  have hd := decoded s
  generalize (DecodeRuneInString s).1 = r at hd h ⊢
  generalize (DecodeRuneInString s).2 = w at hd h ⊢
  cases hd with
  | empty => omega
  | ascii b t hb => omega
  | bad b t hb => omega
  | two b0 b1 t hl =>
    obtain ⟨h1, h2, h3, h4, h5⟩ := hl
    simp only [seqSize, acceptLo, acceptHi] at h3 h4 h5
    simp only [ValidRune, Bool.or_eq_true, Bool.and_eq_true, decide_eq_true_eq]
    split_ifs at h3 h4 h5 <;> omega
  | three b0 b1 b2 t hl hc =>
    obtain ⟨h1, h2, h3, h4, h5⟩ := hl
    obtain ⟨h6, h7⟩ := hc
    simp only [seqSize, acceptLo, acceptHi] at h3 h4 h5
    simp only [ValidRune, Bool.or_eq_true, Bool.and_eq_true, decide_eq_true_eq]
    split_ifs at h3 h4 h5 <;> omega
  | four b0 b1 b2 b3 t hl hc hc2 =>
    obtain ⟨h1, h2, h3, h4, h5⟩ := hl
    obtain ⟨h6, h7⟩ := hc
    obtain ⟨h8, h9⟩ := hc2
    simp only [seqSize, acceptLo, acceptHi] at h3 h4 h5
    simp only [ValidRune, Bool.or_eq_true, Bool.and_eq_true, decide_eq_true_eq]
    split_ifs at h3 h4 h5 <;> omega

/-- A decoding of two or more bytes depends on those bytes only. -/
theorem decode_take_append (s x : Str) (h : 2 ≤ (DecodeRuneInString s).2) :
    DecodeRuneInString (s.take (DecodeRuneInString s).2 ++ x) = DecodeRuneInString s := by
  have hd := decoded s
  have he : DecodeRuneInString s = ((DecodeRuneInString s).1, (DecodeRuneInString s).2) := rfl
  rw [he]
  generalize (DecodeRuneInString s).1 = r at hd h ⊢
  generalize (DecodeRuneInString s).2 = w at hd h ⊢
  cases hd with
  | empty => omega
  | ascii b t hb => omega
  | bad b t hb => omega
  | two b0 b1 t hl => exact decode_two b0 b1 _ hl
  | three b0 b1 b2 t hl hc => exact decode_three b0 b1 b2 _ hl hc
  | four b0 b1 b2 b3 t hl hc hc2 => exact decode_four b0 b1 b2 b3 _ hl hc hc2

/-- The bytes of a multi-byte rune are all outside ASCII. -/
theorem decode_bytes_high (s : Str) (h : 2 ≤ (DecodeRuneInString s).2) :
    ∀ b ∈ s.take (DecodeRuneInString s).2, 0x80 ≤ b.val := by
  have hd := decoded s
  generalize (DecodeRuneInString s).1 = r at hd h ⊢
  generalize (DecodeRuneInString s).2 = w at hd h ⊢
  cases hd with
  | empty => omega
  | ascii b t hb => omega
  | bad b t hb => omega
  | two b0 b1 t hl =>
    obtain ⟨h1, h2, h3, h4, h5⟩ := hl
    simp only [seqSize, acceptLo, acceptHi] at h3 h4 h5
    intro b hb
    simp only [List.take_succ_cons, List.take_zero, List.mem_cons, List.mem_nil_iff,
      or_false] at hb
    rcases hb with rfl | rfl <;> split_ifs at h3 h4 h5 <;> omega
  | three b0 b1 b2 t hl hc =>
    obtain ⟨h1, h2, h3, h4, h5⟩ := hl
    obtain ⟨h6, h7⟩ := hc
    simp only [seqSize, acceptLo, acceptHi] at h3 h4 h5
    intro b hb
    simp only [List.take_succ_cons, List.take_zero, List.mem_cons, List.mem_nil_iff,
      or_false] at hb
    rcases hb with rfl | rfl | rfl <;> split_ifs at h3 h4 h5 <;> omega
  | four b0 b1 b2 b3 t hl hc hc2 =>
    obtain ⟨h1, h2, h3, h4, h5⟩ := hl
    obtain ⟨h6, h7⟩ := hc
    obtain ⟨h8, h9⟩ := hc2
    simp only [seqSize, acceptLo, acceptHi] at h3 h4 h5
    intro b hb
    simp only [List.take_succ_cons, List.take_zero, List.mem_cons, List.mem_nil_iff,
      or_false] at hb
    rcases hb with rfl | rfl | rfl | rfl <;> split_ifs at h3 h4 h5 <;> omega

end utf8

namespace utf8

theorem acceptLo_ge (n : Nat) : 0x80 ≤ acceptLo n := by
  simp only [acceptLo]
  split_ifs <;> omega

theorem leads_high {n : Nat} {b0 b1 : Byte} (h : leads n b0 b1) : 0x80 ≤ b1.val := by
  have := acceptLo_ge b0.val
  have := h.2.2.2.1
  omega

/-- A decoding is not changed by what follows an ASCII byte: appending an
ASCII byte and anything after it to a non-empty string leaves its first rune
as it is. -/
theorem decode_append_ascii (s : Str) (c : Byte) (x : Str) (hs : s ≠ []) (hc : c.val < 0x80) :
    DecodeRuneInString (s ++ c :: x) = DecodeRuneInString s := by
  have hd := decoded s
  have he : DecodeRuneInString s = ((DecodeRuneInString s).1, (DecodeRuneInString s).2) := rfl
  generalize (DecodeRuneInString s).1 = r at hd he
  generalize (DecodeRuneInString s).2 = w at hd he
  cases hd with
  | empty => exact absurd rfl hs
  | ascii b t hb => rw [List.cons_append, decode_ascii b _ hb, decode_ascii b _ hb]
  | two b0 b1 t hl => rw [he]; exact decode_two b0 b1 _ hl
  | three b0 b1 b2 t hl hc => rw [he]; exact decode_three b0 b1 b2 _ hl hc
  | four b0 b1 b2 b3 t hl hc hc2 => rw [he]; exact decode_four b0 b1 b2 b3 _ hl hc hc2
  | bad b t hb =>
    rw [he]
    have hd2 := decoded (b :: t ++ c :: x)
    have he2 : DecodeRuneInString (b :: t ++ c :: x)
        = ((DecodeRuneInString (b :: t ++ c :: x)).1, (DecodeRuneInString (b :: t ++ c :: x)).2) :=
      rfl
    rw [he2]
    generalize (DecodeRuneInString (b :: t ++ c :: x)).1 = r2 at hd2
    generalize (DecodeRuneInString (b :: t ++ c :: x)).2 = w2 at hd2
    generalize hE : b :: t ++ c :: x = e at hd2
    cases hd2 with
    | empty => simp at hE
    | ascii b2 t2 hb2 =>
      simp only [List.cons_append, List.cons.injEq] at hE
      obtain ⟨rfl, -⟩ := hE
      omega
    | bad b2 t2 hb2 => rfl
    | two b0 b1 t2 hl =>
      exfalso
      simp only [List.cons_append, List.cons.injEq] at hE
      obtain ⟨rfl, hE⟩ := hE
      have := leads_high hl
      rcases t with _ | ⟨c1, t⟩
      · simp only [List.nil_append, List.cons.injEq] at hE
        obtain ⟨rfl, -⟩ := hE
        omega
      · simp only [List.cons_append, List.cons.injEq] at hE
        obtain ⟨rfl, -⟩ := hE
        rw [decode_two _ _ _ hl] at he
        simp at he
    | three b0 b1 b2 t2 hl hc2 =>
      exfalso
      simp only [List.cons_append, List.cons.injEq] at hE
      obtain ⟨rfl, hE⟩ := hE
      have := leads_high hl
      have := hc2.1
      rcases t with _ | ⟨c1, _ | ⟨c2, t⟩⟩
      · simp only [List.nil_append, List.cons.injEq] at hE
        obtain ⟨rfl, -⟩ := hE
        omega
      · simp only [List.cons_append, List.nil_append, List.cons.injEq] at hE
        obtain ⟨rfl, rfl, -⟩ := hE
        omega
      · simp only [List.cons_append, List.cons.injEq] at hE
        obtain ⟨rfl, rfl, -⟩ := hE
        rw [decode_three _ _ _ _ hl hc2] at he
        simp at he
    | four b0 b1 b2 b3 t2 hl hc2 hc3 =>
      exfalso
      simp only [List.cons_append, List.cons.injEq] at hE
      obtain ⟨rfl, hE⟩ := hE
      have := leads_high hl
      have := hc2.1
      have := hc3.1
      rcases t with _ | ⟨c1, _ | ⟨c2, _ | ⟨c3, t⟩⟩⟩
      · simp only [List.nil_append, List.cons.injEq] at hE
        obtain ⟨rfl, -⟩ := hE
        omega
      · simp only [List.cons_append, List.nil_append, List.cons.injEq] at hE
        obtain ⟨rfl, rfl, -⟩ := hE
        omega
      · simp only [List.cons_append, List.nil_append, List.cons.injEq] at hE
        obtain ⟨rfl, rfl, rfl, -⟩ := hE
        omega
      · simp only [List.cons_append, List.cons.injEq] at hE
        obtain ⟨rfl, rfl, rfl, -⟩ := hE
        rw [decode_four _ _ _ _ _ hl hc2 hc3] at he
        simp at he

end utf8

namespace strconv

/-! ## Hexadecimal digits -/

theorem unhex_lowerhex (d : Nat) (h : d < 16) : unhex (lowerhex d) = some d := by
  simp only [unhex, lowerhex]
  by_cases hd : d < 10
  · rw [if_pos hd]
    simp only [byte_val]
    rw [if_pos (by omega)]
    congr 1
    omega
  · rw [if_neg hd]
    simp only [byte_val]
    rw [if_neg (by omega), if_pos (by omega)]
    congr 1
    omega

theorem lowerhex_plain (d : Nat) (h : d < 16) :
    lowerhex d ≠ 0x22 ∧ lowerhex d ≠ 0x5C := by
  simp only [lowerhex]
  split_ifs <;> constructor <;> rw [ne_eq, byte_eq_iff] <;> omega

theorem hexDigits_length (n r : Nat) : (hexDigits n r).length = n := by
  induction n with
  | zero => rfl
  | succ n ih => simp [hexDigits, ih]

theorem hexDigits_plain (n r : Nat) : ∀ b ∈ hexDigits n r, b ≠ 0x22 ∧ b ≠ 0x5C := by
  induction n with
  | zero => simp [hexDigits]
  | succ n ih =>
    intro b hb
    simp only [hexDigits, List.mem_cons] at hb
    rcases hb with rfl | hb
    · exact lowerhex_plain _ (Nat.mod_lt _ (by decide))
    · exact ih b hb

theorem readHex_hexDigits (n r : Nat) (rest : Str) (v : Nat) :
    readHex n (hexDigits n r ++ rest) v = some (v * 16 ^ n + r % 16 ^ n) := by
  induction n generalizing v with
  | zero => simp [readHex, hexDigits, Nat.mod_one]
  | succ n ih =>
    rw [hexDigits, List.cons_append, readHex, unhex_lowerhex _ (Nat.mod_lt _ (by decide))]
    simp only
    rw [ih, Nat.mod_pow_succ]
    congr 1
    ring

end strconv

namespace strconv

/-! ## One character of a quoted string -/

theorem unquoteChar_x (d : Nat) (hd : d < 256) (rest : Str) :
    UnquoteChar (0x5C :: 0x78 :: lowerhex (d / 16) :: lowerhex (d % 16) :: rest) 0x22
      = some (d, false, rest) := by
  have h := readHex_hexDigits 2 d rest 0
  simp only [hexDigits, pow_one, pow_zero, Nat.div_one, List.cons_append, List.nil_append] at h
  rw [Nat.mod_eq_of_lt (by omega : d / 16 < 16)] at h
  have h2 : d % 16 ^ 2 = d := Nat.mod_eq_of_lt (by norm_num; omega)
  rw [zero_mul, zero_add, h2] at h
  have e : UnquoteChar (0x5C :: 0x78 :: lowerhex (d / 16) :: lowerhex (d % 16) :: rest) 0x22
      = match readHex 2 (lowerhex (d / 16) :: lowerhex (d % 16) :: rest) 0 with
        | none => none
        | some v => some (v, false, rest) := rfl
  rw [e, h]

theorem unquoteChar_u (r : Nat) (hr : r < 0x10000) (hv : utf8.ValidRune r = true) (rest : Str) :
    UnquoteChar (0x5C :: 0x75 :: (hexDigits 4 r ++ rest)) 0x22 = some (r, true, rest) := by
  have h := readHex_hexDigits 4 r rest 0
  have h2 : r % 16 ^ 4 = r := Nat.mod_eq_of_lt (by norm_num; omega)
  rw [zero_mul, zero_add, h2] at h
  have hl : ¬ (hexDigits 4 r ++ rest).length < 4 := by
    rw [List.length_append, hexDigits_length]
    omega
  have hdrop : (hexDigits 4 r ++ rest).drop 4 = rest := by
    rw [List.drop_append_eq_append_drop, hexDigits_length]
    simp [List.drop_eq_nil_of_le, hexDigits_length]
  have e : UnquoteChar (0x5C :: 0x75 :: (hexDigits 4 r ++ rest)) 0x22
      = if (hexDigits 4 r ++ rest).length < 4 then none
        else match readHex 4 (hexDigits 4 r ++ rest) 0 with
          | none => none
          | some v => if ¬ utf8.ValidRune v = true then none
              else some (v, true, (hexDigits 4 r ++ rest).drop 4) := rfl
  rw [e, if_neg hl, h]
  simp only [hv, hdrop, not_true_eq_false, if_false]

theorem unquoteChar_U (r : Nat) (hr : r < 0x110000) (hv : utf8.ValidRune r = true) (rest : Str) :
    UnquoteChar (0x5C :: 0x55 :: (hexDigits 8 r ++ rest)) 0x22 = some (r, true, rest) := by
  have h := readHex_hexDigits 8 r rest 0
  have h2 : r % 16 ^ 8 = r := Nat.mod_eq_of_lt (by norm_num; omega)
  rw [zero_mul, zero_add, h2] at h
  have hl : ¬ (hexDigits 8 r ++ rest).length < 8 := by
    rw [List.length_append, hexDigits_length]
    omega
  have hdrop : (hexDigits 8 r ++ rest).drop 8 = rest := by
    rw [List.drop_append_eq_append_drop, hexDigits_length]
    simp [List.drop_eq_nil_of_le, hexDigits_length]
  have e : UnquoteChar (0x5C :: 0x55 :: (hexDigits 8 r ++ rest)) 0x22
      = if (hexDigits 8 r ++ rest).length < 8 then none
        else match readHex 8 (hexDigits 8 r ++ rest) 0 with
          | none => none
          | some v => if ¬ utf8.ValidRune v = true then none
              else some (v, true, (hexDigits 8 r ++ rest).drop 8) := rfl
  rw [e, if_neg hl, h]
  simp only [hv, hdrop, not_true_eq_false, if_false]

/-- A plain ASCII byte stands for itself. -/
theorem unquoteChar_plain (b : Byte) (rest : Str) (h1 : b.val < 0x80) (h2 : b ≠ 0x22)
    (h3 : b ≠ 0x5C) : UnquoteChar (b :: rest) 0x22 = some (b.val, false, rest) := by
  simp only [UnquoteChar]
  rw [if_neg (fun h => h2 h.1), if_neg (by omega), if_pos h3]

/-- A byte outside ASCII is decoded as a rune. -/
theorem unquoteChar_high (b : Byte) (t : Str) (h1 : 0x80 ≤ b.val) :
    UnquoteChar (b :: t) 0x22 = some ((utf8.DecodeRuneInString (b :: t)).1, true,
      (b :: t).drop (utf8.DecodeRuneInString (b :: t)).2) := by
  have : b ≠ 0x22 := by
    intro h
    rw [h] at h1
    exact absurd h1 (by decide)
  simp only [UnquoteChar]
  rw [if_neg (fun h => this h.1), if_pos h1]

end strconv

namespace strconv

theorem unquoted_ascii (b : Byte) (mb : Bool) (h : b.val < 0x80) : unquoted b.val mb = [b] := by
  simp only [unquoted, utf8.RuneSelf]
  rw [if_pos (Or.inl h), byte_of_val]

theorem isPrint_ascii (U : UnicodeTables) (r : Nat) (h : IsPrint U r = true) (hr : r < 0x80) :
    0x20 ≤ r ∧ r ≤ 0x7E := by
  simp only [IsPrint] at h
  rw [if_pos (by omega)] at h
  by_contra hn
  rw [if_neg hn, if_neg (by omega)] at h
  exact absurd h (by simp)

/-- What `strconv.Quote` writes for one rune, `strconv.UnquoteChar` reads back
as the bytes of that rune; the first byte written is neither a double quote nor
a newline. -/
theorem quoteChunk_spec (U : UnicodeTables) (b : Byte) (t rest : Str) :
    ∃ r mb c cs, quoteChunk U (b :: t) = c :: cs ∧ c ≠ 0x22 ∧ c ≠ 0x0A ∧
      UnquoteChar (quoteChunk U (b :: t) ++ rest) 0x22 = some (r, mb, rest) ∧
      unquoted r mb = (b :: t).take (utf8.DecodeRuneInString (b :: t)).2 := by
  by_cases hw : (utf8.DecodeRuneInString (b :: t)).2 = 1
  · obtain ⟨b2, t2, hs, hor⟩ := utf8.decode_width_one (b :: t) hw
    simp only [List.cons.injEq] at hs
    obtain ⟨rfl, rfl⟩ := hs
    rw [hw]
    rcases hor with hRE | ⟨hlt, hr⟩
    · have hc : quoteChunk U (b :: t)
          = [0x5C, 0x78, lowerhex (b.val / 16), lowerhex (b.val % 16)] := by
        simp only [quoteChunk, hw, hRE, List.headD_cons]
        rw [if_pos ⟨trivial, trivial⟩]
      refine ⟨b.val, false, 0x5C, _, hc, by decide, by decide, ?_, ?_⟩
      · rw [hc]
        exact unquoteChar_x b.val b.isLt rest
      · simp only [unquoted, or_true, if_true, byte_of_val, List.take_succ_cons, List.take_zero]
    · have hne : ¬ ((utf8.DecodeRuneInString (b :: t)).2 = 1
          ∧ (utf8.DecodeRuneInString (b :: t)).1 = utf8.RuneError) := by
        rw [hr]
        simp only [utf8.RuneError]
        omega
      have hc : quoteChunk U (b :: t) = appendEscapedRune U b.val := by
        simp only [quoteChunk]
        rw [if_neg hne, hr]
      have htake : (b :: t).take 1 = [b] := rfl
      rw [hc, htake]
      have hfin : ∀ mb c cs, appendEscapedRune U b.val = c :: cs → c ≠ 0x22 → c ≠ 0x0A →
          UnquoteChar (appendEscapedRune U b.val ++ rest) 0x22 = some (b.val, mb, rest) →
          ∃ r mb c cs, appendEscapedRune U b.val = c :: cs ∧ c ≠ 0x22 ∧ c ≠ 0x0A ∧
            UnquoteChar (appendEscapedRune U b.val ++ rest) 0x22 = some (r, mb, rest) ∧
            unquoted r mb = [b] :=
        fun mb c cs h1 h2 h3 h4 => ⟨b.val, mb, c, cs, h1, h2, h3, h4, unquoted_ascii b mb hlt⟩
      have special : ∀ (n : Nat) (e : Byte), b.val = n → appendEscapedRune U b.val = [0x5C, e] →
          UnquoteChar (0x5C :: e :: rest) 0x22 = some (n, false, rest) →
          ∃ r mb c cs, appendEscapedRune U b.val = c :: cs ∧ c ≠ 0x22 ∧ c ≠ 0x0A ∧
            UnquoteChar (appendEscapedRune U b.val ++ rest) 0x22 = some (r, mb, rest) ∧
            unquoted r mb = [b] := by
        intro n e hn he hu
        refine hfin false 0x5C [e] he (by decide) (by decide) ?_
        rw [he, hn]
        exact hu
      by_cases h1 : b.val = 0x22 ∨ b.val = 0x5C
      · rcases h1 with h1 | h1
        · exact special 0x22 0x22 h1 (by simp only [appendEscapedRune, h1]; rfl) rfl
        · exact special 0x5C 0x5C h1 (by simp only [appendEscapedRune, h1]; rfl) rfl
      by_cases h2 : IsPrint U b.val = true
      · have hp := isPrint_ascii U b.val h2 hlt
        have ha : appendEscapedRune U b.val = [b] := by
          simp only [appendEscapedRune]
          rw [if_neg h1, if_pos h2]
          simp only [utf8.AppendRune]
          rw [if_pos (by omega), byte_of_val]
        have hb22 : b ≠ 0x22 := fun h => h1 (Or.inl (by rw [h]; rfl))
        have hb5C : b ≠ 0x5C := fun h => h1 (Or.inr (by rw [h]; rfl))
        have hb0A : b ≠ 0x0A := by
          intro h
          rw [h] at hp
          exact absurd hp.1 (by decide)
        refine hfin false b [] ha hb22 hb0A ?_
        rw [ha]
        exact unquoteChar_plain b rest hlt hb22 hb5C
      have hunf : ∀ x, (if b.val = 0x07 then [0x5C, 0x61]
          else if b.val = 0x08 then [0x5C, 0x62]
          else if b.val = 0x0C then [0x5C, 0x66]
          else if b.val = 0x0A then [0x5C, 0x6E]
          else if b.val = 0x0D then [0x5C, 0x72]
          else if b.val = 0x09 then [0x5C, 0x74]
          else if b.val = 0x0B then [0x5C, 0x76]
          else if b.val < 0x20 ∨ b.val = 0x7F then
            [0x5C, 0x78, lowerhex (b.val % 256 / 16), lowerhex (b.val % 256 % 16)]
          else if ¬ utf8.ValidRune b.val then 0x5C :: 0x75 :: hexDigits 4 0xFFFD
          else if b.val < 0x10000 then 0x5C :: 0x75 :: hexDigits 4 b.val
          else 0x5C :: 0x55 :: hexDigits 8 b.val) = x → appendEscapedRune U b.val = x := by
        intro x hx
        simp only [appendEscapedRune]
        rw [if_neg h1, if_neg h2]
        exact hx
      by_cases h3 : b.val = 0x07
      · exact special 7 0x61 h3 (hunf _ (by rw [if_pos h3])) rfl
      by_cases h4 : b.val = 0x08
      · exact special 8 0x62 h4 (hunf _ (by rw [if_neg h3, if_pos h4])) rfl
      by_cases h5 : b.val = 0x0C
      · exact special 12 0x66 h5 (hunf _ (by rw [if_neg h3, if_neg h4, if_pos h5])) rfl
      by_cases h6 : b.val = 0x0A
      · exact special 10 0x6E h6 (hunf _ (by rw [if_neg h3, if_neg h4, if_neg h5, if_pos h6])) rfl
      by_cases h7 : b.val = 0x0D
      · exact special 13 0x72 h7
          (hunf _ (by rw [if_neg h3, if_neg h4, if_neg h5, if_neg h6, if_pos h7])) rfl
      by_cases h8 : b.val = 0x09
      · exact special 9 0x74 h8
          (hunf _ (by rw [if_neg h3, if_neg h4, if_neg h5, if_neg h6, if_neg h7, if_pos h8])) rfl
      by_cases h9 : b.val = 0x0B
      · exact special 11 0x76 h9
          (hunf _ (by rw [if_neg h3, if_neg h4, if_neg h5, if_neg h6, if_neg h7, if_neg h8,
            if_pos h9])) rfl
      have hmod : b.val % 256 = b.val := Nat.mod_eq_of_lt b.isLt
      by_cases h10 : b.val < 0x20 ∨ b.val = 0x7F
      · have ha := hunf _ (by rw [if_neg h3, if_neg h4, if_neg h5, if_neg h6, if_neg h7,
          if_neg h8, if_neg h9, if_pos h10, hmod])
        refine hfin false 0x5C _ ha (by decide) (by decide) ?_
        rw [ha]
        exact unquoteChar_x b.val b.isLt rest
      have hv : utf8.ValidRune b.val = true := by
        simp only [utf8.ValidRune, Bool.or_eq_true, decide_eq_true_eq]
        left
        omega
      have ha := hunf _ (by rw [if_neg h3, if_neg h4, if_neg h5, if_neg h6, if_neg h7,
          if_neg h8, if_neg h9, if_neg h10, if_neg (by simp [hv]), if_pos (by omega)])
      refine hfin true 0x5C _ ha (by decide) (by decide) ?_
      rw [ha]
      exact unquoteChar_u b.val (by omega) hv rest
  · have hw2 : 2 ≤ (utf8.DecodeRuneInString (b :: t)).2 := by
      have := utf8.decode_width_pos (b :: t) (by simp)
      omega
    obtain ⟨hge, hv⟩ := utf8.decode_valid (b :: t) hw2
    have henc := utf8.appendRune_decode (b :: t) hw2
    have hle := utf8.decode_width_le (b :: t)
    have hc : quoteChunk U (b :: t) = appendEscapedRune U (utf8.DecodeRuneInString (b :: t)).1 := by
      simp only [quoteChunk]
      rw [if_neg (fun h => hw h.1)]
    rw [hc]
    generalize hr : (utf8.DecodeRuneInString (b :: t)).1 = r at *
    have hur : unquoted r true = (b :: t).take (utf8.DecodeRuneInString (b :: t)).2 := by
      simp only [unquoted, utf8.RuneSelf]
      rw [if_neg (by simp; omega), henc]
    have h1 : ¬ (r = 0x22 ∨ r = 0x5C) := by omega
    by_cases h2 : IsPrint U r = true
    · have ha : appendEscapedRune U r = (b :: t).take (utf8.DecodeRuneInString (b :: t)).2 := by
        simp only [appendEscapedRune]
        rw [if_neg h1, if_pos h2, henc]
      obtain ⟨w, hwd⟩ : ∃ w, (utf8.DecodeRuneInString (b :: t)).2 = w + 1 :=
        ⟨(utf8.DecodeRuneInString (b :: t)).2 - 1, by omega⟩
      have hb : 0x80 ≤ b.val := by
        by_contra hlt
        rw [utf8.decode_ascii b t (by omega)] at hw
        exact hw rfl
      have hb22 : b ≠ 0x22 := by
        intro h
        rw [h] at hb
        exact absurd hb (by decide)
      have hb0A : b ≠ 0x0A := by
        intro h
        rw [h] at hb
        exact absurd hb (by decide)
      refine ⟨r, true, b, t.take w, ?_, hb22, hb0A, ?_, hur⟩
      · rw [ha, hwd, List.take_succ_cons]
      · rw [ha]
        have hdec := utf8.decode_take_append (b :: t) rest hw2
        rw [hwd, List.take_succ_cons, List.cons_append] at hdec ⊢
        rw [unquoteChar_high b _ hb, hdec, hr, hwd]
        simp only [List.drop_succ_cons]
        have : (t.take w).length = w := by
          rw [List.length_take]
          simp only [List.length_cons] at hle
          omega
        rw [List.drop_append_eq_append_drop, this, Nat.sub_self, List.drop_zero,
          List.drop_eq_nil_of_le (by omega), List.nil_append]
    · have hunf : ∀ x, (if r < 0x10000 then 0x5C :: 0x75 :: hexDigits 4 r
          else 0x5C :: 0x55 :: hexDigits 8 r) = x → appendEscapedRune U r = x := by
        intro x hx
        simp only [appendEscapedRune]
        rw [if_neg h1, if_neg h2, if_neg (by omega), if_neg (by omega), if_neg (by omega),
          if_neg (by omega), if_neg (by omega), if_neg (by omega), if_neg (by omega),
          if_neg (by omega), if_neg (by simp [hv])]
        exact hx
      have hmax : r < 0x110000 := by
        simp only [utf8.ValidRune, Bool.or_eq_true, Bool.and_eq_true, decide_eq_true_eq] at hv
        omega
      by_cases h3 : r < 0x10000
      · have ha := hunf _ (by rw [if_pos h3])
        refine ⟨r, true, 0x5C, _, ha, by decide, by decide, ?_, hur⟩
        rw [ha]
        exact unquoteChar_u r h3 hv rest
      · have ha := hunf _ (by rw [if_neg h3])
        refine ⟨r, true, 0x5C, _, ha, by decide, by decide, ?_, hur⟩
        rw [ha]
        exact unquoteChar_U r hmax hv rest

end strconv

namespace strings

theorem indexByte_split (s : Str) (c : Byte) (h : c ∈ s) :
    ∃ a t, s = a ++ c :: t ∧ c ∉ a ∧ IndexByte s c = some a.length := by
  induction s with
  | nil => simp at h
  | cons b rest ih =>
    by_cases hb : b = c
    · exact ⟨[], rest, by simp [hb], by simp, by simp [IndexByte, hb]⟩
    · have hc : c ∈ rest := by
        rcases List.mem_cons.mp h with h | h
        · exact absurd h.symm hb
        · exact h
      obtain ⟨a, t, hs, ha, hi⟩ := ih hc
      refine ⟨b :: a, t, by simp [hs], ?_, ?_⟩
      · intro hm
        rcases List.mem_cons.mp hm with h | h
        · exact hb h.symm
        · exact ha h
      · simp [IndexByte, hb, hi]

end strings

namespace strconv

/-! ## `strconv.Unquote` undoes `strconv.Quote` -/

theorem quoteLoop_succ (U : UnicodeTables) (fuel : Nat) (b : Byte) (t : Str) :
    quoteLoop U (fuel + 1) (b :: t) = quoteChunk U (b :: t)
      ++ quoteLoop U fuel ((b :: t).drop (utf8.DecodeRuneInString (b :: t)).2) := by
  have hrw : (if 0x80 ≤ b.val then utf8.DecodeRuneInString (b :: t) else (b.val, 1))
      = utf8.DecodeRuneInString (b :: t) := by
    by_cases h : 0x80 ≤ b.val
    · rw [if_pos h]
    · rw [if_neg h, utf8.decode_ascii b t (by omega)]
  simp only [quoteLoop, quoteChunk, hrw, List.headD_cons]
  split_ifs <;> rfl

theorem unquoteLoop_step (f : Nat) (c : Byte) (cs buf rem : Str) (r : Nat) (mb : Bool)
    (h1 : c ≠ 0x22) (h2 : c ≠ 0x0A) (h3 : UnquoteChar (c :: cs) 0x22 = some (r, mb, rem)) :
    unquoteLoop 0x22 (f + 1) (c :: cs) buf = unquoteLoop 0x22 f rem (buf ++ unquoted r mb) := by
  simp only [unquoteLoop, h3]
  rw [if_neg h1, if_neg h2, if_neg (by decide)]
  simp only [unquoted]
  split_ifs <;> rfl

theorem unquoteLoop_stop (f : Nat) (rest buf : Str) :
    unquoteLoop 0x22 (f + 1) (0x22 :: rest) buf = some (buf, 0x22 :: rest) := by
  simp [unquoteLoop]

theorem unquoteLoop_quoteLoop (U : UnicodeTables) (rest : Str) :
    ∀ (fuel : Nat) (s : Str), s.length ≤ fuel → ∀ (f : Nat) (buf : Str),
      (quoteLoop U fuel s).length < f →
      unquoteLoop 0x22 f (quoteLoop U fuel s ++ 0x22 :: rest) buf
        = some (buf ++ s, 0x22 :: rest) := by
  intro fuel
  induction fuel with
  | zero =>
    intro s hs f buf hf
    have : s = [] := List.eq_nil_of_length_eq_zero (by omega)
    subst this
    obtain ⟨f, rfl⟩ : ∃ g, f = g + 1 := ⟨f - 1, by omega⟩
    simp [quoteLoop, unquoteLoop_stop]
  | succ fuel ih =>
    intro s hs f buf hf
    obtain ⟨f, rfl⟩ : ∃ g, f = g + 1 := ⟨f - 1, by omega⟩
    rcases s with _ | ⟨b, t⟩
    · simp [quoteLoop, unquoteLoop_stop]
    · rw [quoteLoop_succ] at hf ⊢
      obtain ⟨r, mb, c, cs, hc, hc1, hc2, hu, hq⟩ := quoteChunk_spec U b t
        (quoteLoop U fuel ((b :: t).drop (utf8.DecodeRuneInString (b :: t)).2) ++ 0x22 :: rest)
      have hw := utf8.decode_width_pos (b :: t) (by simp)
      rw [List.append_assoc]
      rw [hc] at hu hf ⊢
      rw [List.cons_append] at hu ⊢
      rw [unquoteLoop_step f c _ buf _ r mb hc1 hc2 hu, ih, hq, List.append_assoc,
        List.take_append_drop]
      · simp only [List.length_drop, List.length_cons] at hs ⊢
        omega
      · simp only [List.length_append, List.length_cons] at hf
        omega

/-- On a valid UTF-8 string with no quote, backslash or newline, the loop of
`strconv.unquote` copies the string: the fast path of `unquote` agrees with
the slow one. -/
theorem unquoteLoop_valid (c : Str) :
    ∀ (fuel : Nat) (a : Str), a.length ≤ fuel → utf8.validLoop fuel a = true →
      (∀ x ∈ a, x ≠ 0x22 ∧ x ≠ 0x5C ∧ x ≠ 0x0A) → ∀ (f : Nat) (buf : Str), a.length < f →
      unquoteLoop 0x22 f (a ++ 0x22 :: c) buf = some (buf ++ a, 0x22 :: c) := by
  intro fuel
  induction fuel with
  | zero =>
    intro a ha hv hx f buf hf
    have : a = [] := List.eq_nil_of_length_eq_zero (by omega)
    subst this
    obtain ⟨f, rfl⟩ : ∃ g, f = g + 1 := ⟨f - 1, by omega⟩
    simp [unquoteLoop_stop]
  | succ fuel ih =>
    intro a ha hv hx f buf hf
    obtain ⟨f, rfl⟩ : ∃ g, f = g + 1 := ⟨f - 1, by omega⟩
    rcases a with _ | ⟨b, t⟩
    · simp [unquoteLoop_stop]
    · obtain ⟨hb1, hb2, hb3⟩ := hx b (List.mem_cons_self _ _)
      simp only [utf8.validLoop] at hv
      by_cases hlt : b.val < 0x80
      · rw [utf8.decode_ascii b t hlt] at hv
        simp only [utf8.RuneError, and_true, List.drop_succ_cons, List.drop_zero] at hv
        rw [if_neg (by omega)] at hv
        rw [List.cons_append, unquoteLoop_step f b _ buf _ b.val false hb1 hb3
          (unquoteChar_plain b _ hlt hb1 hb2), unquoted_ascii b false hlt,
          ih t (by simpa using ha) hv (fun x hx2 => hx x (List.mem_cons_of_mem _ hx2)) f _
            (by simpa using hf)]
        simp
      · have hw : 2 ≤ (utf8.DecodeRuneInString (b :: t)).2 := by
          by_contra hn
          have hw1 : (utf8.DecodeRuneInString (b :: t)).2 = 1 := by
            have := utf8.decode_width_pos (b :: t) (by simp)
            omega
          obtain ⟨b2, t2, hs, hor⟩ := utf8.decode_width_one (b :: t) hw1
          simp only [List.cons.injEq] at hs
          obtain ⟨rfl, rfl⟩ := hs
          rcases hor with h | h
          · rw [if_pos ⟨h, hw1⟩] at hv
            exact absurd hv (by simp)
          · exact hlt h.1
        rw [if_neg (fun h => by omega)] at hv
        have hdec := utf8.decode_append_ascii (b :: t) 0x22 c (by simp) (by decide)
        have henc := utf8.appendRune_decode (b :: t) hw
        obtain ⟨hge, -⟩ := utf8.decode_valid (b :: t) hw
        have hle := utf8.decode_width_le (b :: t)
        have hu := unquoteChar_high b (t ++ 0x22 :: c) (by omega)
        rw [← List.cons_append, hdec, List.drop_append_of_le_length hle] at hu
        have hu2 : UnquoteChar (b :: (t ++ 0x22 :: c)) 0x22 = some
            ((utf8.DecodeRuneInString (b :: t)).1, true,
              (b :: t).drop (utf8.DecodeRuneInString (b :: t)).2 ++ 0x22 :: c) := hu
        have hun : unquoted (utf8.DecodeRuneInString (b :: t)).1 true
            = (b :: t).take (utf8.DecodeRuneInString (b :: t)).2 := by
          simp only [unquoted, utf8.RuneSelf]
          rw [if_neg (by simp; omega), henc]
        rw [List.cons_append, unquoteLoop_step f b _ buf _ _ _ hb1 hb3 hu2, hun,
          ih _ _ hv (fun x hx2 => hx x (List.mem_of_mem_drop hx2)) f _ _, List.append_assoc,
          List.take_append_drop]
        · simp only [List.length_drop, List.length_cons] at ha ⊢
          omega
        · simp only [List.length_drop, List.length_cons] at hf ⊢
          omega

end strconv

namespace strconv

/-- On a double-quoted input the fast path of `strconv.unquote`, when taken,
returns what the slow path returns. -/
theorem unquote_eq_slow (body : Str) (h : (0x22 : Byte) ∈ body) :
    unquote (0x22 :: body) = unquoteSlow 0x22 body := by
  obtain ⟨a, t, hs, ha, hi⟩ := strings.indexByte_split body 0x22 h
  have hlen : ¬ (0x22 :: body).length < 2 := by
    rw [hs]
    simp only [List.length_cons, List.length_append]
    omega
  simp only [unquote]
  rw [if_neg hlen]
  simp only [hi]
  rw [if_pos (Or.inl trivial)]
  have e1 : ((0x22 :: body).take (a.length + 2 - 1)).drop 1 = a := by
    rw [hs]
    simp
  have e2 : (0x22 :: body).drop (a.length + 2) = t := by
    rw [hs]
    simp
  have e3 : (0x22 :: body).take (a.length + 2) = 0x22 :: (a ++ [0x22]) := by
    rw [hs]
    simp [List.take_append_eq_append_take]
  rw [e1, e2, e3, if_neg (by decide)]
  simp only [if_true]
  by_cases hc : (0x5C : Byte) ∉ 0x22 :: (a ++ [0x22]) ∧ (0x0A : Byte) ∉ 0x22 :: (a ++ [0x22])
      ∧ utf8.ValidString a = true
  · rw [if_pos hc]
    obtain ⟨h1, h2, h3⟩ := hc
    have hall : ∀ x ∈ a, x ≠ 0x22 ∧ x ≠ 0x5C ∧ x ≠ 0x0A := by
      intro x hx
      refine ⟨?_, ?_, ?_⟩
      · rintro rfl
        exact ha hx
      · rintro rfl
        exact h1 (by simp [hx])
      · rintro rfl
        exact h2 (by simp [hx])
    have := unquoteLoop_valid t a.length a (le_refl _) h3 hall body.length []
      (by rw [hs]; simp)
    simp only [unquoteSlow]
    rw [hs] at this ⊢
    rw [this]
    simp
  · rw [if_neg hc]

/-- The round trip of `strconv.Quote` and `strconv.Unquote`, for every string
of bytes and every print table. -/
theorem Unquote_Quote (U : UnicodeTables) (v : Str) : Unquote (Quote U v) = some v := by
  have hloop := unquoteLoop_quoteLoop U [] v.length v (le_refl _)
    (quoteLoop U v.length v ++ [0x22]).length [] (by simp)
  simp only [Unquote, Quote]
  rw [unquote_eq_slow _ (by simp)]
  simp only [unquoteSlow]
  rw [hloop]
  simp

end strconv

namespace utf8

theorem appendRune_high (r : Nat) (h : 0x7F < r) : ∀ x ∈ AppendRune r, 0x80 ≤ x.val := by
  intro x hx
  simp only [AppendRune] at hx
  rw [if_neg (by omega)] at hx
  split_ifs at hx <;>
    simp only [List.mem_cons, List.mem_nil_iff, or_false] at hx
  · rcases hx with rfl | rfl <;> simp only [byte_val] <;> omega
  · rcases hx with rfl | rfl | rfl <;> decide
  · rcases hx with rfl | rfl | rfl <;> simp only [byte_val] <;> omega
  · rcases hx with rfl | rfl | rfl | rfl <;> simp only [byte_val] <;> omega

end utf8

namespace strconv

theorem plainByte_of_high (x : Byte) (h : 0x80 ≤ x.val) : plainByte x := by
  constructor <;>
  · intro hx
    rw [hx] at h
    exact absurd h (by decide)

/-- What `strconv.Quote` writes for one rune is either a run of plain bytes or
a backslash, one more byte and a run of plain bytes. -/
theorem quoteChunk_shape (U : UnicodeTables) (s : Str) :
    (∀ x ∈ quoteChunk U s, plainByte x) ∨
      ∃ e ds, quoteChunk U s = 0x5C :: e :: ds ∧ ∀ x ∈ ds, plainByte x := by
  have hex2 : ∀ d, d < 256 → ∀ x ∈ [lowerhex (d / 16), lowerhex (d % 16)], plainByte x := by
    intro d hd x hx
    simp only [List.mem_cons, List.mem_nil_iff, or_false] at hx
    rcases hx with rfl | rfl
    · exact lowerhex_plain _ (by omega)
    · exact lowerhex_plain _ (by omega)
  have esc : ∀ (c : Str) (e : Byte) (ds : Str), c = 0x5C :: e :: ds → (∀ x ∈ ds, plainByte x) →
      ((∀ x ∈ c, plainByte x) ∨ ∃ e ds, c = 0x5C :: e :: ds ∧ ∀ x ∈ ds, plainByte x) :=
    fun c e ds hc hd => Or.inr ⟨e, ds, hc, hd⟩
  have none : ∀ x ∈ ([] : Str), plainByte x := by simp
  simp only [quoteChunk]
  by_cases h1 : (utf8.DecodeRuneInString s).2 = 1 ∧ (utf8.DecodeRuneInString s).1 = utf8.RuneError
  · rw [if_pos h1]
    exact esc _ 0x78 _ rfl (hex2 _ (s.headD 0).isLt)
  rw [if_neg h1]
  generalize (utf8.DecodeRuneInString s).1 = r
  simp only [appendEscapedRune]
  by_cases h2 : r = 0x22 ∨ r = 0x5C
  · rw [if_pos h2]
    exact esc _ (byte r) [] rfl none
  rw [if_neg h2]
  by_cases h3 : IsPrint U r = true
  · rw [if_pos h3]
    left
    by_cases hr : r ≤ 0x7F
    · simp only [utf8.AppendRune]
      rw [if_pos hr]
      intro x hx
      simp only [List.mem_cons, List.mem_nil_iff, or_false] at hx
      subst hx
      constructor <;> rw [ne_eq, byte_eq_iff] <;> omega
    · intro x hx
      exact plainByte_of_high x (utf8.appendRune_high r (by omega) x hx)
  rw [if_neg h3]
  by_cases h4 : r = 0x07
  · rw [if_pos h4]
    exact esc _ 0x61 [] rfl none
  rw [if_neg h4]
  by_cases h5 : r = 0x08
  · rw [if_pos h5]
    exact esc _ 0x62 [] rfl none
  rw [if_neg h5]
  by_cases h6 : r = 0x0C
  · rw [if_pos h6]
    exact esc _ 0x66 [] rfl none
  rw [if_neg h6]
  by_cases h7 : r = 0x0A
  · rw [if_pos h7]
    exact esc _ 0x6E [] rfl none
  rw [if_neg h7]
  by_cases h8 : r = 0x0D
  · rw [if_pos h8]
    exact esc _ 0x72 [] rfl none
  rw [if_neg h8]
  by_cases h9 : r = 0x09
  · rw [if_pos h9]
    exact esc _ 0x74 [] rfl none
  rw [if_neg h9]
  by_cases h10 : r = 0x0B
  · rw [if_pos h10]
    exact esc _ 0x76 [] rfl none
  rw [if_neg h10]
  by_cases h11 : r < 0x20 ∨ r = 0x7F
  · rw [if_pos h11]
    exact esc _ 0x78 _ rfl (hex2 _ (Nat.mod_lt _ (by decide)))
  rw [if_neg h11]
  by_cases h12 : ¬ utf8.ValidRune r = true
  · rw [if_pos h12]
    exact esc _ 0x75 _ rfl (hexDigits_plain 4 _)
  rw [if_neg h12]
  by_cases h13 : r < 0x10000
  · rw [if_pos h13]
    exact esc _ 0x75 _ rfl (hexDigits_plain 4 _)
  · rw [if_neg h13]
    exact esc _ 0x55 _ rfl (hexDigits_plain 8 _)

end strconv

/-! ## The scan of a quoted value -/

theorem scanQuoted_nil : scanQuoted [] = none := by
  rw [scanQuoted.eq_def]

theorem scanQuoted_quote (rest : Str) : scanQuoted (0x22 :: rest) = some 0 := by
  rw [scanQuoted.eq_def]
  simp

theorem scanQuoted_cons (b : Byte) (rest : Str) (h1 : b ≠ 0x22) (h2 : b ≠ 0x5C) :
    scanQuoted (b :: rest) = (scanQuoted rest).map (· + 1) := by
  rw [scanQuoted.eq_def]
  simp only
  rw [if_neg h1, if_neg h2]

theorem scanQuoted_backslash (e : Byte) (rest : Str) :
    scanQuoted (0x5C :: e :: rest) = (scanQuoted rest).map (· + 2) := rfl

theorem scanQuoted_backslash_end : scanQuoted [0x5C] = none := rfl

theorem scanQuoted_plain (a rest : Str) (h : ∀ x ∈ a, plainByte x) :
    scanQuoted (a ++ rest) = (scanQuoted rest).map (· + a.length) := by
  induction a with
  | nil => simp
  | cons b a ih =>
    obtain ⟨h1, h2⟩ := h b (List.mem_cons_self _ _)
    rw [List.cons_append, scanQuoted_cons b _ h1 h2,
      ih (fun x hx => h x (List.mem_cons_of_mem _ hx)), Option.map_map]
    congr 1

theorem scanQuoted_escape (e : Byte) (ds rest : Str) (h : ∀ x ∈ ds, plainByte x) :
    scanQuoted (0x5C :: e :: ds ++ rest) = (scanQuoted rest).map (· + (ds.length + 2)) := by
  rw [List.cons_append, List.cons_append, scanQuoted_backslash, scanQuoted_plain ds rest h,
    Option.map_map]
  congr 1

theorem scanQuoted_quoteLoop (U : UnicodeTables) (rest : Str) (fuel : Nat) (s : Str) :
    scanQuoted (strconv.quoteLoop U fuel s ++ 0x22 :: rest)
      = some (strconv.quoteLoop U fuel s).length := by
  induction fuel generalizing s with
  | zero => simp [strconv.quoteLoop, scanQuoted_quote]
  | succ fuel ih =>
    rcases s with _ | ⟨b, t⟩
    · simp [strconv.quoteLoop, scanQuoted_quote]
    · rw [strconv.quoteLoop_succ, List.append_assoc]
      rcases strconv.quoteChunk_shape U (b :: t) with h | ⟨e, ds, hc, h⟩
      · rw [scanQuoted_plain _ _ h, ih]
        simp only [Option.map_some', List.length_append]
        congr 1
        omega
      · rw [hc, scanQuoted_escape e ds _ h, ih]
        simp only [Option.map_some', List.length_append, List.length_cons]
        congr 1
        omega

/-- The scan of `ParseStructTag` over a value written by `strconv.Quote`
stops at its closing quote. -/
theorem scanQuoted_Quote (U : UnicodeTables) (v rest : Str) :
    scanQuoted ((strconv.Quote U v).drop 1 ++ rest) = some ((strconv.Quote U v).length - 2) := by
  simp only [strconv.Quote, List.drop_succ_cons, List.drop_zero, List.append_assoc,
    List.singleton_append, List.length_cons, List.length_append, List.length_nil]
  rw [scanQuoted_quoteLoop]
  congr 1

/-! ## The loop of `ParseStructTag` -/

theorem parseLoop_succ (fuel : Nat) (tag : Str) (out : List Tag) :
    parseLoop (fuel + 1) tag out =
      match parseStep tag with
      | .stop => .ok out
      | .fail err => .error err
      | .entry t rest => parseLoop fuel rest (out ++ [t]) := by
  simp only [parseLoop, parseStep]
  split_ifs <;> try rfl
  cases scanQuoted (List.drop 1 (List.drop (keyLen (skipSpaces tag) + 1) (skipSpaces tag))) with
  | none => rfl
  | some j =>
    simp only
    cases strconv.Unquote
      (List.take (j + 1 + 1) (List.drop (keyLen (skipSpaces tag) + 1) (skipSpaces tag))) with
    | none => rfl
    | some v => rfl

theorem skipSpaces_length (tag : Str) : (skipSpaces tag).length ≤ tag.length := by
  induction tag with
  | nil => simp [skipSpaces]
  | cons b rest ih =>
    simp only [skipSpaces]
    split_ifs
    · simp only [List.length_cons]
      omega
    · exact le_refl _

theorem parseStep_length (tag : Str) (t : Tag) (rest : Str) (h : parseStep tag = .entry t rest) :
    rest.length < tag.length := by
  simp only [parseStep] at h
  split_ifs at h with h1 h2 h3
  split at h
  · exact absurd h (by simp)
  · split at h
    · exact absurd h (by simp)
    · simp only [ParseStep.entry.injEq] at h
      obtain ⟨-, rfl⟩ := h
      have := skipSpaces_length tag
      simp only [List.length_drop]
      have : skipSpaces tag ≠ [] := h2
      have : 0 < (skipSpaces tag).length := List.length_pos.mpr this
      omega

theorem parseLoop_fuel (f : Nat) : ∀ (g : Nat) (tag : Str) (out : List Tag),
    tag.length < f → tag.length < g → parseLoop f tag out = parseLoop g tag out := by
  induction f with
  | zero => intro g tag out h; omega
  | succ f ih =>
    intro g tag out hf hg
    obtain ⟨g, rfl⟩ : ∃ g2, g = g2 + 1 := ⟨g - 1, by omega⟩
    rw [parseLoop_succ, parseLoop_succ]
    cases hs : parseStep tag with
    | stop => rfl
    | fail err => rfl
    | entry t rest =>
      have := parseStep_length tag t rest hs
      exact ih g rest _ (by omega) (by omega)

theorem parseFrom_eq (tag : Str) (out : List Tag) :
    parseFrom tag out =
      match parseStep tag with
      | .stop => .ok out
      | .fail err => .error err
      | .entry t rest => parseFrom rest (out ++ [t]) := by
  simp only [parseFrom]
  rw [parseLoop_succ]
  cases hs : parseStep tag with
  | stop => rfl
  | fail err => rfl
  | entry t rest =>
    have := parseStep_length tag t rest hs
    exact parseLoop_fuel _ _ _ _ (by omega) (by omega)

theorem ParseStructTag_eq (tag : Str) : ParseStructTag tag = parseFrom tag [] := rfl

theorem keyByte_iff (b : Byte) :
    keyByte b = true ↔ 0x20 < b.val ∧ b ≠ 0x3A ∧ b ≠ 0x22 ∧ b.val ≠ 0x7F := by
  simp [keyByte]

theorem keyLen_cons (b : Byte) (rest : Str) :
    keyLen (b :: rest) = if keyByte b = true then keyLen rest + 1 else 0 := by
  simp only [keyLen, keyByte_iff]

theorem keyLen_le (tag : Str) : keyLen tag ≤ tag.length := by
  induction tag with
  | nil => simp [keyLen]
  | cons b rest ih =>
    rw [keyLen_cons]
    split_ifs
    · simp only [List.length_cons]
      omega
    · omega

theorem keyLen_take (tag : Str) : ((tag.take (keyLen tag)).all keyByte) = true := by
  induction tag with
  | nil => simp [keyLen]
  | cons b rest ih =>
    rw [keyLen_cons]
    split_ifs with h
    · simp only [List.take_succ_cons, List.all_cons, h, Bool.true_and]
      exact ih
    · simp

theorem keyLen_append (k : Str) (c : Byte) (rest : Str) (hk : k.all keyByte = true)
    (hc : keyByte c = false) : keyLen (k ++ c :: rest) = k.length := by
  induction k with
  | nil =>
    rw [List.nil_append, keyLen_cons, hc]
    simp
  | cons b k ih =>
    simp only [List.all_cons, Bool.and_eq_true] at hk
    rw [List.cons_append, keyLen_cons, if_pos hk.1, ih hk.2, List.length_cons]

theorem validKey_iff (k : Str) : validKey k = true ↔ k ≠ [] ∧ k.all keyByte = true := by
  cases k <;> simp [validKey]

theorem skipSpaces_cons (b : Byte) (rest : Str) :
    skipSpaces (b :: rest) = if b = 0x20 then skipSpaces rest else b :: rest := by
  simp only [skipSpaces]

theorem skipSpaces_of_key (b : Byte) (rest : Str) (h : keyByte b = true) :
    skipSpaces (b :: rest) = b :: rest := by
  rw [skipSpaces_cons, if_neg]
  intro hb
  rw [keyByte_iff, hb] at h
  exact absurd h.1 (by decide)

theorem get?_append_at (a : Str) (c : Byte) (r : Str) : (a ++ c :: r).get? a.length = some c := by
  induction a with
  | nil => rfl
  | cons b a ih => simpa using ih

theorem get?_append_at_succ (a : Str) (c d : Byte) (r : Str) :
    (a ++ c :: d :: r).get? (a.length + 1) = some d := by
  induction a with
  | nil => rfl
  | cons b a ih => simpa using ih

/-- The turn of the loop on a well-formed entry: a valid key, a colon and a
quoted literal that the scan delimits and `strconv.Unquote` accepts. -/
theorem parseStep_entry (k q rest v : Str) (hk : validKey k = true) (hq : q.head? = some 0x22)
    (hlen : 2 ≤ q.length) (hscan : scanQuoted (q.drop 1 ++ rest) = some (q.length - 2))
    (hu : strconv.Unquote q = some v) :
    parseStep (k ++ 0x3A :: (q ++ rest)) = .entry ⟨k, v⟩ rest := by
  rw [validKey_iff] at hk
  obtain ⟨hne, hall⟩ := hk
  obtain ⟨b, k2, rfl⟩ : ∃ b k2, k = b :: k2 := by
    cases k with
    | nil => exact absurd rfl hne
    | cons b k2 => exact ⟨b, k2, rfl⟩
  obtain ⟨q2, rfl⟩ : ∃ q2, q = 0x22 :: q2 := by
    cases q with
    | nil => simp at hq
    | cons c q2 =>
      simp only [List.head?_cons, Option.some.injEq] at hq
      exact ⟨q2, by rw [hq]⟩
  have hb : keyByte b = true := by
    simp only [List.all_cons, Bool.and_eq_true] at hall
    exact hall.1
  have hkl : keyLen (b :: k2 ++ 0x3A :: (0x22 :: q2 ++ rest)) = (b :: k2).length :=
    keyLen_append _ _ _ hall (by decide)
  have hget1 : (b :: k2 ++ 0x3A :: (0x22 :: q2 ++ rest)).get? (b :: k2).length = some 0x3A :=
    get?_append_at _ _ _
  have hget2 : (b :: k2 ++ 0x3A :: (0x22 :: q2 ++ rest)).get? ((b :: k2).length + 1)
      = some 0x22 := get?_append_at_succ _ _ _ _
  have hdrop : (b :: k2 ++ 0x3A :: (0x22 :: q2 ++ rest)).drop ((b :: k2).length + 1)
      = 0x22 :: q2 ++ rest := by
    rw [List.drop_append_eq_append_drop, List.drop_eq_nil_of_le (by omega)]
    simp
  have htake : (b :: k2 ++ 0x3A :: (0x22 :: q2 ++ rest)).take (b :: k2).length = b :: k2 := by
    rw [List.take_append_eq_append_take]
    simp
  simp only [parseStep]
  rw [if_neg (by simp)]
  have hsk : skipSpaces (b :: k2 ++ 0x3A :: (0x22 :: q2 ++ rest))
      = b :: k2 ++ 0x3A :: (0x22 :: q2 ++ rest) := skipSpaces_of_key b _ hb
  rw [hsk, if_neg (by simp), hkl, hget1, hget2, hdrop, htake]
  rw [if_neg (by simp)]
  simp only [List.drop_succ_cons, List.drop_zero, List.length_cons] at hscan ⊢
  rw [List.cons_append, List.drop_succ_cons, List.drop_zero, hscan]
  simp only
  have e1 : q2.length + 1 - 2 + 1 + 1 = (0x22 :: q2).length := by
    simp only [List.length_cons] at hlen ⊢
    omega
  rw [e1, ← List.cons_append, List.take_left, List.drop_left, hu]

theorem parseStep_entry_Quote (U : UnicodeTables) (t : Tag) (rest : Str)
    (hk : validKey t.Key = true) :
    parseStep (t.Flatten U ++ rest) = .entry t rest := by
  have hq : (strconv.Quote U t.Value).head? = some 0x22 := rfl
  have hlen : 2 ≤ (strconv.Quote U t.Value).length := by
    simp [strconv.Quote]
  have := parseStep_entry t.Key (strconv.Quote U t.Value) rest t.Value hk hq hlen
    (scanQuoted_Quote U t.Value rest) (strconv.Unquote_Quote U t.Value)
  simp only [Tag.Flatten, List.append_assoc, List.cons_append]
  exact this

theorem skipSpaces_head (y : Str) (c : Byte) (z : Str) (h : skipSpaces y = c :: z) :
    c ≠ 0x20 := by
  induction y with
  | nil => simp [skipSpaces] at h
  | cons d y ih =>
    rw [skipSpaces_cons] at h
    split_ifs at h with hd
    · exact ih h
    · simp only [List.cons.injEq] at h
      rw [← h.1]
      exact hd

theorem skipSpaces_idem (y : Str) : skipSpaces (skipSpaces y) = skipSpaces y := by
  cases hc : skipSpaces y with
  | nil => rfl
  | cons c z => rw [skipSpaces_cons, if_neg (skipSpaces_head y c z hc)]

theorem parseStep_skip (y : Str) (hs : skipSpaces y ≠ []) :
    parseStep y = parseStep (skipSpaces y) := by
  have hy : y ≠ [] := by
    rintro rfl
    exact hs rfl
  simp only [parseStep]
  rw [if_neg hy, if_neg hs, if_neg hs, skipSpaces_idem, if_neg hs]

theorem parseStep_stop (y : Str) (hs : skipSpaces y = []) : parseStep y = .stop := by
  simp only [parseStep]
  by_cases hy : y = []
  · rw [if_pos hy]
  · rw [if_neg hy, if_pos hs]

theorem parseStep_space (x : Str) : parseStep (0x20 :: x) = parseStep x := by
  have h : skipSpaces (0x20 :: x) = skipSpaces x := by
    rw [skipSpaces_cons, if_pos rfl]
  by_cases hs : skipSpaces x = []
  · rw [parseStep_stop _ hs, parseStep_stop _ (h.trans hs)]
  · rw [parseStep_skip x hs, parseStep_skip (0x20 :: x) (by rw [h]; exact hs), h]

theorem parseStep_nil : parseStep [] = .stop := rfl

/-- The key of an entry that `ParseStructTag` reads is a valid key. -/
theorem parseStep_key (tag : Str) (t : Tag) (rest : Str) (h : parseStep tag = .entry t rest) :
    validKey t.Key = true := by
  simp only [parseStep] at h
  split_ifs at h with h1 h2 h3
  split at h
  · exact absurd h (by simp)
  · split at h
    · exact absurd h (by simp)
    · simp only [ParseStep.entry.injEq] at h
      obtain ⟨rfl, -⟩ := h
      rw [validKey_iff]
      refine ⟨?_, keyLen_take _⟩
      simp only [not_or, not_le, ne_eq, not_not] at h3
      intro hnil
      have := congrArg List.length hnil
      rw [List.length_take] at this
      simp only [List.length_nil] at this
      omega

/-! ## `StructTagOf` and the round trip -/

theorem joinTags_cons_cons (U : UnicodeTables) (t t2 : Tag) (ts : List Tag) :
    joinTags U (t :: t2 :: ts) = t.Flatten U ++ 0x20 :: joinTags U (t2 :: ts) := rfl

theorem joinTags_single (U : UnicodeTables) (t : Tag) : joinTags U [t] = t.Flatten U := rfl

theorem foldl_flatten (U : UnicodeTables) (tags : List Tag) (init : Str) :
    tags.foldl (fun buf tag => buf ++ tag.Flatten U ++ [0x20]) init
      = init ++ (tags.map (fun tag => tag.Flatten U ++ [0x20])).flatten := by
  induction tags generalizing init with
  | nil => simp
  | cons t ts ih =>
    rw [List.foldl_cons, ih]
    simp [List.append_assoc]

theorem join_flatten (U : UnicodeTables) (t : Tag) (ts : List Tag) :
    ((t :: ts).map (fun tag => tag.Flatten U ++ [0x20])).flatten = joinTags U (t :: ts) ++ [0x20] := by
  induction ts generalizing t with
  | nil => simp [joinTags]
  | cons t2 ts ih =>
    rw [List.map_cons, List.flatten_cons, ih t2, joinTags_cons_cons]
    simp [List.append_assoc]

theorem StructTagOf_eq (U : UnicodeTables) (tags : List Tag) :
    StructTagOf U tags = joinTags U tags := by
  cases tags with
  | nil => rfl
  | cons t ts =>
    simp only [StructTagOf]
    rw [foldl_flatten, List.nil_append, join_flatten]
    rw [if_pos (by simp)]
    simp

theorem parseFrom_nil (out : List Tag) : parseFrom [] out = .ok out := rfl

theorem parseFrom_space (x : Str) (out : List Tag) :
    parseFrom (0x20 :: x) out = parseFrom x out := by
  rw [parseFrom_eq, parseFrom_eq x, parseStep_space]

theorem parseFrom_joinTags (U : UnicodeTables) (tags : List Tag)
    (h : ∀ t ∈ tags, validKey t.Key = true) (out : List Tag) :
    parseFrom (joinTags U tags) out = .ok (out ++ tags) := by
  induction tags generalizing out with
  | nil => simp [joinTags, parseFrom_nil]
  | cons t ts ih =>
    have hk := h t (List.mem_cons_self _ _)
    cases ts with
    | nil =>
      have := parseStep_entry_Quote U t [] hk
      rw [List.append_nil] at this
      rw [joinTags_single, parseFrom_eq, this]
      simp [parseFrom_nil]
    | cons t2 ts =>
      rw [joinTags_cons_cons, parseFrom_eq, parseStep_entry_Quote U t _ hk]
      simp only
      rw [parseFrom_space, ih (fun x hx => h x (List.mem_cons_of_mem _ hx))]
      simp

/-- Parsing what `StructTagOf` writes gives the tags back, when their keys are
keys that `ParseStructTag` can read. -/
theorem ParseStructTag_StructTagOf (U : UnicodeTables) (tags : List Tag)
    (h : ∀ t ∈ tags, validKey t.Key = true) :
    ParseStructTag (StructTagOf U tags) = .ok tags := by
  rw [StructTagOf_eq, ParseStructTag_eq, parseFrom_joinTags U tags h]
  simp

theorem parseFrom_keys (n : Nat) : ∀ (tag : Str) (out tags : List Tag), tag.length ≤ n →
    parseFrom tag out = .ok tags → (∀ t ∈ out, validKey t.Key = true) →
    ∀ t ∈ tags, validKey t.Key = true := by
  induction n with
  | zero =>
    intro tag out tags hn hp ho
    have : tag = [] := List.eq_nil_of_length_eq_zero (by omega)
    subst this
    rw [parseFrom_nil] at hp
    simp only [Except.ok.injEq] at hp
    rw [← hp]
    exact ho
  | succ n ih =>
    intro tag out tags hn hp ho
    rw [parseFrom_eq] at hp
    cases hs : parseStep tag with
    | stop =>
      rw [hs] at hp
      simp only [Except.ok.injEq] at hp
      rw [← hp]
      exact ho
    | fail err =>
      rw [hs] at hp
      exact absurd hp (by simp)
    | entry t rest =>
      rw [hs] at hp
      have hl := parseStep_length tag t rest hs
      refine ih rest (out ++ [t]) tags (by omega) hp ?_
      intro x hx
      rcases List.mem_append.mp hx with hx | hx
      · exact ho x hx
      · simp only [List.mem_singleton] at hx
        rw [hx]
        exact parseStep_key tag t rest hs

/-- Every key that `ParseStructTag` returns is a valid key. -/
theorem ParseStructTag_keys (tag : Str) (tags : List Tag) (h : ParseStructTag tag = .ok tags) :
    ∀ t ∈ tags, validKey t.Key = true :=
  parseFrom_keys tag.length tag [] tags (le_refl _) h (by simp)

/-! ## The scans of `AddTagOption` and text appended after a comma -/

namespace strings

theorem trimLeftLoop_le (f : Nat → Bool) (fuel : Nat) (s : Str) :
    trimLeftLoop f fuel s ≤ s.length := by
  induction fuel generalizing s with
  | zero => simp [trimLeftLoop]
  | succ fuel ih =>
    cases s with
    | nil => simp [trimLeftLoop]
    | cons b t =>
      simp only [trimLeftLoop]
      split_ifs
      · have h1 := utf8.decode_width_le (b :: t)
        have h2 := ih ((b :: t).drop (utf8.DecodeRuneInString (b :: t)).2)
        rw [List.length_drop] at h2
        omega
      · omega

theorem trimLeftLen_le (f : Nat → Bool) (s : Str) : trimLeftLen f s ≤ s.length :=
  trimLeftLoop_le f _ s

/-- The trimmed length of `s` is not changed by an ASCII byte that does not
satisfy `f` and anything after it. -/
theorem trimLeftLoop_append (f : Nat → Bool) (c : Byte) (x : Str) (hc : c.val < 0x80)
    (hf : f c.val = false) (fuel : Nat) : ∀ (g : Nat) (s : Str), s.length ≤ fuel →
    s.length < g → trimLeftLoop f g (s ++ c :: x) = trimLeftLoop f fuel s := by
  induction fuel with
  | zero =>
    intro g s hs hg
    have : s = [] := List.eq_nil_of_length_eq_zero (by omega)
    subst this
    obtain ⟨g, rfl⟩ : ∃ g2, g = g2 + 1 := ⟨g - 1, by omega⟩
    simp only [List.nil_append, trimLeftLoop, utf8.decode_ascii c x hc, hf]
    simp
  | succ fuel ih =>
    intro g s hs hg
    obtain ⟨g, rfl⟩ : ∃ g2, g = g2 + 1 := ⟨g - 1, by omega⟩
    cases s with
    | nil =>
      simp only [List.nil_append, trimLeftLoop, utf8.decode_ascii c x hc, hf]
      simp
    | cons b t =>
      have hd := utf8.decode_append_ascii (b :: t) c x (by simp) hc
      have hle := utf8.decode_width_le (b :: t)
      have hpos := utf8.decode_width_pos (b :: t) (by simp)
      rw [List.cons_append]
      simp only [trimLeftLoop]
      rw [← List.cons_append, hd]
      split_ifs
      · rw [List.drop_append_of_le_length hle, ih]
        · simp only [List.length_drop, List.length_cons] at hs ⊢
          omega
        · simp only [List.length_drop, List.length_cons] at hg ⊢
          omega
      · rfl

theorem trimLeftLen_append (f : Nat → Bool) (c : Byte) (x : Str) (s : Str) (hc : c.val < 0x80)
    (hf : f c.val = false) : trimLeftLen f (s ++ c :: x) = trimLeftLen f s :=
  trimLeftLoop_append f c x hc hf s.length _ s (le_refl _) (by simp)

end strings

theorem take_append_of_le {α : Type} (a b : List α) (n : Nat) (h : n ≤ a.length) :
    (a ++ b).take n = a.take n := by
  rw [List.take_append_eq_append_take, Nat.sub_eq_zero_of_le h, List.take_zero, List.append_nil]

/-- A single-quoted token that `unescape` reads in `s` is read the same, with
the same length, when text follows `s` after an ASCII byte. -/
theorem unescapeLoop_append (s : Str) (c : Byte) (x : Str) (hc : c.val < 0x80) (fuel : Nat) :
    ∀ (g i : Nat) (escaping : Bool) (escaped : Str) (r : Str × Nat), fuel ≤ g →
      unescapeLoop s fuel i escaping escaped = .ok r →
      unescapeLoop (s ++ c :: x) g i escaping escaped = .ok r ∧ r.2 ≤ s.length := by
  induction fuel with
  | zero =>
    intro g i escaping escaped r hg h
    simp [unescapeLoop] at h
  | succ fuel ih =>
    intro g i escaping escaped r hg h
    obtain ⟨g, rfl⟩ : ∃ g2, g = g2 + 1 := ⟨g - 1, by omega⟩
    simp only [unescapeLoop] at h ⊢
    by_cases hi : i < s.length
    · rw [if_pos hi] at h
      rw [if_pos (by rw [List.length_append]; omega)]
      have hne : s.drop i ≠ [] := by
        intro hnil
        have := congrArg List.length hnil
        rw [List.length_drop] at this
        simp only [List.length_nil] at this
        omega
      have hd : utf8.DecodeRuneInString ((s ++ c :: x).drop i)
          = utf8.DecodeRuneInString (s.drop i) := by
        rw [List.drop_append_of_le_length (by omega)]
        exact utf8.decode_append_ascii _ c x hne hc
      have hle := utf8.decode_width_le (s.drop i)
      rw [List.length_drop] at hle
      have htake : ((s ++ c :: x).drop 0).take (utf8.DecodeRuneInString (s.drop i)).2
          = (s.drop 0).take (utf8.DecodeRuneInString (s.drop i)).2 := by
        rw [List.drop_zero, List.drop_zero]
        exact take_append_of_le _ _ _ (by omega)
      rw [hd, htake]
      split_ifs at h ⊢
      all_goals first
        | exact ih g _ _ _ r (by omega) h
        | (cases hu : strconv.Unquote (escaped ++ [0x22]) with
            | none =>
              rw [hu] at h
              simp at h
            | some out =>
              rw [hu] at h
              simp only [Except.ok.injEq] at h
              subst h
              exact ⟨rfl, by simp only; omega⟩)
    · rw [if_neg hi] at h
      simp at h

theorem unescape_append (s : Str) (c : Byte) (x : Str) (hc : c.val < 0x80) (hs : s ≠ [])
    (r : Str × Nat) (h : unescape s = .ok r) :
    unescape (s ++ c :: x) = .ok r ∧ r.2 ≤ s.length := by
  simp only [unescape] at h ⊢
  have hh : (s ++ c :: x).head? = s.head? := by
    cases s with
    | nil => exact absurd rfl hs
    | cons b t => rfl
  rw [hh]
  exact unescapeLoop_append s c x hc _ _ _ _ _ r (by simp) h

/-- A token that `readTagOption` reads in `s` is read the same when text
follows `s` after a comma or a colon. -/
theorem readTagOption_append (U : UnicodeTables) (s : Str) (c : Byte) (x : Str)
    (hc : c = 0x2C ∨ c = 0x3A) (r : Str × Nat) (h : readTagOption U s = .ok r) :
    readTagOption U (s ++ c :: x) = .ok r ∧ r.2 ≤ s.length := by
  have hlt : c.val < 0x80 := by
    rcases hc with rfl | rfl <;> decide
  have hf : identRune U c.val = false := by
    rcases hc with rfl | rfl <;> rfl
  have hs : s ≠ [] := by
    rintro rfl
    simp [readTagOption] at h
  simp only [readTagOption] at h ⊢
  rw [if_neg (by simpa using hs)] at h
  rw [if_neg (by simp), utf8.decode_append_ascii s c x hs hlt]
  split_ifs at h ⊢ with h1 h2
  · simp only [Except.ok.injEq] at h
    subst h
    have hle := strings.trimLeftLen_le (identRune U) s
    rw [strings.trimLeftLen_append _ c x s hlt hf, take_append_of_le _ _ _ hle]
    exact ⟨rfl, hle⟩
  · exact unescape_append s c x hlt hs r h

theorem hasPrefix_comma (value : Str) :
    strings.HasPrefix value [0x2C] = true ↔ value.head? = some 0x2C := by
  cases value with
  | nil => simp [strings.HasPrefix]
  | cons b t => simp [strings.HasPrefix]

/-- The name slot that `AddTagOption` skips in `a` is the one it skips when
text follows `a` after a comma. -/
theorem skipName_append (U : UnicodeTables) (a x rest : Str) (h : skipName U a = .ok rest) :
    skipName U (a ++ 0x2C :: x) = .ok (rest ++ 0x2C :: x) := by
  cases a with
  | nil =>
    simp only [skipName] at h
    simp only [List.length_nil, lt_self_iff_false, false_and, if_false, Except.ok.injEq] at h
    subst h
    simp only [skipName, List.nil_append, hasPrefix_comma, List.head?_cons, not_true_eq_false,
      and_false, if_false]
  | cons b t =>
    simp only [skipName] at h ⊢
    by_cases hb : b = 0x2C
    · subst hb
      simp only [hasPrefix_comma, List.cons_append, List.head?_cons, not_true_eq_false, and_false,
        if_false, Except.ok.injEq] at h ⊢
      rw [← h]
      rfl
    · have hcond : 0 < (b :: t).length ∧ ¬ strings.HasPrefix (b :: t) [0x2C] = true := by
        refine ⟨by simp, ?_⟩
        rw [hasPrefix_comma]
        simpa using hb
      have hcond2 : 0 < (b :: t ++ 0x2C :: x).length
          ∧ ¬ strings.HasPrefix (b :: t ++ 0x2C :: x) [0x2C] = true := by
        refine ⟨by simp, ?_⟩
        rw [hasPrefix_comma]
        simpa using hb
      rw [if_pos hcond] at h
      rw [if_pos hcond2, strings.trimLeftLen_append _ 0x2C x (b :: t) (by decide) rfl]
      have hle := strings.trimLeftLen_le (fun r => !reservedRune r) (b :: t)
      by_cases hn : strings.trimLeftLen (fun r => !reservedRune r) (b :: t) = 0
      · rw [if_pos hn] at h ⊢
        cases hr : readTagOption U (b :: t) with
        | error err =>
          rw [hr] at h
          simp at h
        | ok r =>
          rw [hr] at h
          obtain ⟨hr2, hle2⟩ := readTagOption_append U (b :: t) 0x2C x (Or.inl rfl) r hr
          rw [hr2]
          simp only [Except.ok.injEq] at h ⊢
          rw [← h, List.drop_append_of_le_length hle2]
      · rw [if_neg hn] at h ⊢
        simp only [Except.ok.injEq] at h ⊢
        rw [← h, List.drop_append_of_le_length hle]

/-! ## The option loop of `AddTagOption` -/

theorem optionStep_cons (U : UnicodeTables) (option orig : Str) (c : Byte) (value : Str) :
    optionStep U option orig (c :: value) =
      if c ≠ 0x2C then .done (.error (.malformedOption orig))
      else if value.length = 0 then .done (.error (.malformedOption orig))
      else
        match readTagOption U value with
        | .error err => .done (.error err)
        | .ok (opt, n) => afterToken U option opt (value.drop n) := by
  simp only [optionStep, afterToken, colonNext]

theorem optionLoop_succ (U : UnicodeTables) (option orig : Str) (fuel : Nat) (value : Str) :
    optionLoop U option orig (fuel + 1) value =
      match optionStep U option orig value with
      | .done r => r
      | .more rest => optionLoop U option orig fuel rest := by
  cases value with
  | nil => rfl
  | cons c value =>
    rw [optionStep_cons]
    simp only [optionLoop]
    by_cases hc : c ≠ 0x2C
    · rw [if_pos hc, if_pos hc]
    rw [if_neg hc, if_neg hc]
    by_cases hv : value.length = 0
    · rw [if_pos hv, if_pos hv]
    rw [if_neg hv, if_neg hv]
    cases readTagOption U value with
    | error err => rfl
    | ok r =>
      obtain ⟨opt, n⟩ := r
      simp only [afterToken, colonNext]
      by_cases hcol : 0 < (value.drop n).length ∧ (value.drop n).head? = some 0x3A
      · rw [if_pos hcol, if_pos hcol]
        by_cases hp : strings.HasPrefix option (opt ++ [0x3A]) = true
        · rw [if_pos hp, if_pos hp]
        rw [if_neg hp, if_neg hp]
        cases readTagOption U (List.drop 1 (List.drop n value)) with
        | error err => rfl
        | ok r2 =>
          obtain ⟨opt2, n2⟩ := r2
          simp only
          by_cases ho : option = opt
          · rw [if_pos ho, if_pos ho]
          · rw [if_neg ho, if_neg ho]
      · rw [if_neg hcol, if_neg hcol]
        by_cases ho : option = opt
        · rw [if_pos ho, if_pos ho]
        · rw [if_neg ho, if_neg ho]

theorem afterToken_length (U : UnicodeTables) (option opt value rest : Str)
    (h : afterToken U option opt value = .more rest) : rest.length ≤ value.length := by
  simp only [afterToken] at h
  by_cases hcol : colonNext value
  · rw [if_pos hcol] at h
    by_cases hp : strings.HasPrefix option (opt ++ [0x3A]) = true
    · rw [if_pos hp] at h
      exact absurd h (by simp)
    rw [if_neg hp] at h
    cases hr : readTagOption U (value.drop 1) with
    | error err =>
      rw [hr] at h
      exact absurd h (by simp)
    | ok r2 =>
      obtain ⟨opt2, n2⟩ := r2
      rw [hr] at h
      simp only at h
      by_cases ho : option = opt
      · rw [if_pos ho] at h
        exact absurd h (by simp)
      · rw [if_neg ho] at h
        simp only [OptStep.more.injEq] at h
        rw [← h]
        simp only [List.length_drop]
        omega
  · rw [if_neg hcol] at h
    by_cases ho : option = opt
    · rw [if_pos ho] at h
      exact absurd h (by simp)
    · rw [if_neg ho] at h
      simp only [OptStep.more.injEq] at h
      rw [← h]

theorem optionStep_length (U : UnicodeTables) (option orig value rest : Str)
    (h : optionStep U option orig value = .more rest) : rest.length < value.length := by
  cases value with
  | nil => simp [optionStep] at h
  | cons c value =>
    rw [optionStep_cons] at h
    by_cases hc : c ≠ 0x2C
    · rw [if_pos hc] at h
      exact absurd h (by simp)
    rw [if_neg hc] at h
    by_cases hv : value.length = 0
    · rw [if_pos hv] at h
      exact absurd h (by simp)
    rw [if_neg hv] at h
    cases hr : readTagOption U value with
    | error err =>
      rw [hr] at h
      exact absurd h (by simp)
    | ok r =>
      obtain ⟨opt, n⟩ := r
      rw [hr] at h
      simp only at h
      have := afterToken_length U option opt _ rest h
      simp only [List.length_drop, List.length_cons] at this ⊢
      omega

theorem optionLoop_fuel (U : UnicodeTables) (option orig : Str) (f : Nat) :
    ∀ (g : Nat) (value : Str), value.length < f → value.length < g →
      optionLoop U option orig f value = optionLoop U option orig g value := by
  induction f with
  | zero => intro g value h; omega
  | succ f ih =>
    intro g value hf hg
    obtain ⟨g, rfl⟩ : ∃ g2, g = g2 + 1 := ⟨g - 1, by omega⟩
    rw [optionLoop_succ, optionLoop_succ]
    cases hs : optionStep U option orig value with
    | done r => rfl
    | more rest =>
      have := optionStep_length U option orig value rest hs
      exact ih g rest (by omega) (by omega)

theorem optionScan_eq (U : UnicodeTables) (option orig value : Str) :
    optionScan U option orig value =
      match optionStep U option orig value with
      | .done r => r
      | .more rest => optionScan U option orig rest := by
  simp only [optionScan]
  rw [optionLoop_succ]
  cases hs : optionStep U option orig value with
  | done r => rfl
  | more rest =>
    have := optionStep_length U option orig value rest hs
    exact optionLoop_fuel U option orig _ _ _ (by omega) (by omega)

theorem addToEntry_eq (U : UnicodeTables) (option : Str) (t : Tag) :
    addToEntry U option t =
      match scanValue U option t.Value with
      | .error err => .error err
      | .ok hasValue =>
        if hasValue = false then
          .ok ⟨t.Key, (if strings.HasPrefix option [0x2C] = false then t.Value ++ [0x2C]
            else t.Value) ++ option⟩
        else .ok t := by
  simp only [addToEntry, scanValue, optionScan]
  cases skipName U t.Value with
  | error err => rfl
  | ok value => rfl

theorem colonNext_append (v x : Str) : colonNext (v ++ 0x2C :: x) ↔ colonNext v := by
  cases v with
  | nil => simp [colonNext]
  | cons d w => simp [colonNext]

theorem afterToken_append (U : UnicodeTables) (option opt value x : Str)
    (hok : ∀ err, afterToken U option opt value ≠ .done (.error err)) :
    afterToken U option opt (value ++ 0x2C :: x) =
      match afterToken U option opt value with
      | .done r => .done r
      | .more rest => .more (rest ++ 0x2C :: x) := by
  simp only [afterToken] at hok ⊢
  by_cases hcol : colonNext value
  · rw [if_pos hcol] at hok ⊢
    rw [if_pos ((colonNext_append value x).mpr hcol)]
    by_cases hp : strings.HasPrefix option (opt ++ [0x3A]) = true
    · rw [if_pos hp, if_pos hp]
    rw [if_neg hp] at hok ⊢
    rw [if_neg hp]
    have h1 : 1 ≤ value.length := hcol.1
    rw [List.drop_append_of_le_length h1]
    cases hr : readTagOption U (value.drop 1) with
    | error err =>
      rw [hr] at hok
      exact absurd rfl (hok _)
    | ok r2 =>
      obtain ⟨opt2, n2⟩ := r2
      obtain ⟨hr4, hle4⟩ := readTagOption_append U _ 0x2C x (Or.inl rfl) (opt2, n2) hr
      rw [hr4]
      simp only at hle4 ⊢
      by_cases ho : option = opt
      · rw [if_pos ho, if_pos ho]
      · rw [if_neg ho, if_neg ho, List.drop_append_of_le_length hle4]
  · rw [if_neg hcol]
    rw [if_neg (fun h => hcol ((colonNext_append value x).mp h))]
    by_cases ho : option = opt
    · rw [if_pos ho, if_pos ho]
    · rw [if_neg ho, if_neg ho]

/-- One turn of the option loop on `a` is the same turn when text follows `a`
after a comma, unless the turn on `a` ends in an error. -/
theorem optionStep_append (U : UnicodeTables) (option orig orig2 a x : Str) (hne : a ≠ [])
    (hok : ∀ err, optionStep U option orig a ≠ .done (.error err)) :
    optionStep U option orig2 (a ++ 0x2C :: x) =
      match optionStep U option orig a with
      | .done r => .done r
      | .more rest => .more (rest ++ 0x2C :: x) := by
  obtain ⟨c, value, rfl⟩ : ∃ c value, a = c :: value := by
    cases a with
    | nil => exact absurd rfl hne
    | cons c value => exact ⟨c, value, rfl⟩
  rw [List.cons_append, optionStep_cons]
  rw [optionStep_cons] at hok ⊢
  by_cases hc : c ≠ 0x2C
  · rw [if_pos hc] at hok
    exact absurd rfl (hok _)
  rw [if_neg hc] at hok ⊢
  rw [if_neg hc]
  by_cases hv : value.length = 0
  · rw [if_pos hv] at hok
    exact absurd rfl (hok _)
  rw [if_neg hv] at hok ⊢
  rw [if_neg (by simp)]
  cases hr : readTagOption U value with
  | error err =>
    rw [hr] at hok
    exact absurd rfl (hok _)
  | ok r =>
    obtain ⟨opt, n⟩ := r
    obtain ⟨hr2, hle⟩ := readTagOption_append U value 0x2C x (Or.inl rfl) (opt, n) hr
    rw [hr] at hok
    rw [hr2]
    simp only at hok hle ⊢
    rw [List.drop_append_of_le_length hle]
    exact afterToken_append U option opt _ x hok

theorem optionStep_nil (U : UnicodeTables) (option orig : Str) :
    optionStep U option orig [] = .done (.ok false) := rfl

theorem afterToken_false (U : UnicodeTables) (option opt value : Str) :
    afterToken U option opt value ≠ .done (.ok false) := by
  simp only [afterToken]
  by_cases hcol : colonNext value
  · rw [if_pos hcol]
    by_cases hp : strings.HasPrefix option (opt ++ [0x3A]) = true
    · rw [if_pos hp]
      simp
    rw [if_neg hp]
    cases readTagOption U (value.drop 1) with
    | error err => simp
    | ok r2 =>
      obtain ⟨opt2, n2⟩ := r2
      simp only
      by_cases ho : option = opt
      · rw [if_pos ho]
        simp
      · rw [if_neg ho]
        simp
  · rw [if_neg hcol]
    by_cases ho : option = opt
    · rw [if_pos ho]
      simp
    · rw [if_neg ho]
      simp

theorem optionStep_false (U : UnicodeTables) (option orig a : Str)
    (h : optionStep U option orig a = .done (.ok false)) : a = [] := by
  cases a with
  | nil => rfl
  | cons c value =>
    exfalso
    rw [optionStep_cons] at h
    by_cases hc : c ≠ 0x2C
    · rw [if_pos hc] at h
      simp at h
    rw [if_neg hc] at h
    by_cases hv : value.length = 0
    · rw [if_pos hv] at h
      simp at h
    rw [if_neg hv] at h
    cases hr : readTagOption U value with
    | error err =>
      rw [hr] at h
      simp at h
    | ok r =>
      obtain ⟨opt, n⟩ := r
      rw [hr] at h
      exact afterToken_false U option opt _ h

/-- The option loop on `a` followed by a comma and more text: a match found in
`a` is found, and when `a` is scanned to its end without a match the loop goes
on at the comma. -/
theorem optionScan_append (U : UnicodeTables) (option orig orig2 x : Str) (n : Nat) :
    ∀ (a : Str) (b : Bool), a.length ≤ n → optionScan U option orig a = .ok b →
      optionScan U option orig2 (a ++ 0x2C :: x) =
        if b = true then .ok true else optionScan U option orig2 (0x2C :: x) := by
  induction n with
  | zero =>
    intro a b hn h
    have : a = [] := List.eq_nil_of_length_eq_zero (by omega)
    subst this
    rw [optionScan_eq, optionStep_nil] at h
    simp only [Except.ok.injEq] at h
    subst h
    simp
  | succ n ih =>
    intro a b hn h
    by_cases hne : a = []
    · subst hne
      rw [optionScan_eq, optionStep_nil] at h
      simp only [Except.ok.injEq] at h
      subst h
      simp
    rw [optionScan_eq] at h
    have hok : ∀ err, optionStep U option orig a ≠ .done (.error err) := by
      intro err he
      rw [he] at h
      simp at h
    rw [optionScan_eq U option orig2 (a ++ 0x2C :: x),
      optionStep_append U option orig orig2 a x hne hok]
    cases hs : optionStep U option orig a with
    | done r =>
      rw [hs] at h
      simp only at h ⊢
      subst h
      cases b with
      | true => rfl
      | false => exact absurd (optionStep_false U option orig a hs) hne
    | more rest =>
      rw [hs] at h
      simp only at h ⊢
      have := optionStep_length U option orig a rest hs
      exact ih rest b (by omega) h

/-- The scan of a value `a` followed by a comma and more text. -/
theorem scanValue_append (U : UnicodeTables) (option a x : Str) (b : Bool)
    (h : scanValue U option a = .ok b) :
    scanValue U option (a ++ 0x2C :: x) =
      if b = true then .ok true else optionScan U option (a ++ 0x2C :: x) (0x2C :: x) := by
  simp only [scanValue] at h ⊢
  cases hs : skipName U a with
  | error err =>
    rw [hs] at h
    simp at h
  | ok rest =>
    rw [hs] at h
    rw [skipName_append U a x rest hs]
    simp only at h ⊢
    exact optionScan_append U option a _ x rest.length rest b (le_refl _) h

/-! ## Identifiers and the tokens the option loop reads -/

theorem identifier_iff (U : UnicodeTables) (p : Str) :
    identifier U p = true ↔ p ≠ [] ∧
      ((utf8.DecodeRuneInString p).1 = 0x5F ∨ unicode.IsLetter U (utf8.DecodeRuneInString p).1 = true)
      ∧ strings.trimLeftLen (identRune U) p = p.length := by
  cases p <;> simp [identifier, and_assoc]

theorem readTagOption_identifier (U : UnicodeTables) (p : Str) (h : identifier U p = true) :
    readTagOption U p = .ok (p, p.length) := by
  rw [identifier_iff] at h
  obtain ⟨hne, hfirst, hlen⟩ := h
  simp only [readTagOption]
  rw [if_neg (by simpa using hne), if_pos hfirst, hlen, List.take_length]

theorem readTagOption_identifier_append (U : UnicodeTables) (p : Str) (c : Byte) (x : Str)
    (h : identifier U p = true) (hc : c = 0x2C ∨ c = 0x3A) :
    readTagOption U (p ++ c :: x) = .ok (p, p.length) :=
  (readTagOption_append U p c x hc _ (readTagOption_identifier U p h)).1

theorem identifier_ne_nil (U : UnicodeTables) (p : Str) (h : identifier U p = true) : p ≠ [] :=
  ((identifier_iff U p).mp h).1

theorem hasPrefix_append (p x : Str) : strings.HasPrefix (p ++ x) p = true := by
  simp [strings.HasPrefix]

theorem hasPrefix_colon (p rest : Str) :
    strings.HasPrefix (p ++ 0x3A :: rest) (p ++ [0x3A]) = true := by
  have := hasPrefix_append (p ++ [0x3A]) rest
  simpa using this

/-- The turn of the option loop at a token `p:...` when the candidate option
starts with `p:`: the option is found. -/
theorem optionStep_colon (U : UnicodeTables) (option orig p sec : Str)
    (hp : identifier U p = true) (ho : strings.HasPrefix option (p ++ [0x3A]) = true) :
    optionStep U option orig (0x2C :: (p ++ 0x3A :: sec)) = .done (.ok true) := by
  rw [optionStep_cons, if_neg (by simp), if_neg (by simp),
    readTagOption_identifier_append U p 0x3A sec hp (Or.inr rfl)]
  simp only [List.drop_left, afterToken]
  rw [if_pos ⟨by simp, rfl⟩, if_pos ho]

/-- The turn of the option loop at a token `p` that ends the value or is
followed by a comma, when the candidate option is `p`: the option is found. -/
theorem optionStep_same (U : UnicodeTables) (orig p tail : Str) (hp : identifier U p = true)
    (ht : tail = [] ∨ tail.head? = some 0x2C) :
    optionStep U p orig (0x2C :: (p ++ tail)) = .done (.ok true) := by
  have hne := identifier_ne_nil U p hp
  have hr : readTagOption U (p ++ tail) = .ok (p, p.length) := by
    rcases ht with rfl | ht
    · rw [List.append_nil]
      exact readTagOption_identifier U p hp
    · cases tail with
      | nil => simp at ht
      | cons c x =>
        simp only [List.head?_cons, Option.some.injEq] at ht
        exact readTagOption_identifier_append U p c x hp (Or.inl ht)
  have hcol : ¬ colonNext tail := by
    rcases ht with rfl | ht
    · simp [colonNext]
    · intro h
      rw [h.2] at ht
      exact absurd ht (by decide)
  have hlen : ¬ (p ++ tail).length = 0 := by
    intro h
    exact hne (List.append_eq_nil.mp (List.eq_nil_of_length_eq_zero h)).1
  rw [optionStep_cons, if_neg (by simp), if_neg hlen, hr]
  simp only [List.drop_left, afterToken]
  rw [if_neg hcol]
  simp

/-! ## The loop over the tags -/

theorem addLoop_absent (U : UnicodeTables) (tag option : Str) (tags : List Tag)
    (h : ∀ t ∈ tags, t.Key ≠ tag) : addLoop U tag option tags = .ok (tags, false) := by
  induction tags with
  | nil => rfl
  | cons t ts ih =>
    simp only [addLoop]
    rw [if_pos (h t (List.mem_cons_self _ _)), ih (fun x hx => h x (List.mem_cons_of_mem _ hx))]

theorem addLoop_first (U : UnicodeTables) (tag option : Str) (pre : List Tag) (e : Tag)
    (post : List Tag) (hpre : ∀ t ∈ pre, t.Key ≠ tag) (he : e.Key = tag) :
    addLoop U tag option (pre ++ e :: post) =
      match addToEntry U option e with
      | .error err => .error err
      | .ok e2 => .ok (pre ++ e2 :: post, true) := by
  induction pre with
  | nil =>
    simp only [List.nil_append, addLoop]
    rw [if_neg (by simpa using he)]
  | cons t ts ih =>
    have ih2 := ih (fun x hx => hpre x (List.mem_cons_of_mem _ hx))
    rw [List.cons_append, addLoop, if_pos (hpre t (List.mem_cons_self _ _)), ih2]
    cases addToEntry U option e with
    | error err => rfl
    | ok e2 => rfl

/-- The tags either have no entry with the key or split at the first one. -/
theorem first_entry (tag : Str) (tags : List Tag) :
    (∀ t ∈ tags, t.Key ≠ tag) ∨
      ∃ pre e post, tags = pre ++ e :: post ∧ (∀ t ∈ pre, t.Key ≠ tag) ∧ e.Key = tag := by
  induction tags with
  | nil => exact Or.inl (by simp)
  | cons t ts ih =>
    by_cases ht : t.Key = tag
    · exact Or.inr ⟨[], t, ts, rfl, by simp, ht⟩
    · rcases ih with h | ⟨pre, e, post, h1, h2, h3⟩
      · left
        intro x hx
        rcases List.mem_cons.mp hx with rfl | hx
        · exact ht
        · exact h x hx
      · refine Or.inr ⟨t :: pre, e, post, by rw [h1]; rfl, ?_, h3⟩
        intro x hx
        rcases List.mem_cons.mp hx with rfl | hx
        · exact ht
        · exact h2 x hx

/-- What `AddTagOption` returns when the tag parses and the scan of the first
entry with the key finds the option: the tags as they are. -/
theorem AddTagOption_found (U : UnicodeTables) (t tag option : Str) (pre : List Tag) (e : Tag)
    (post : List Tag) (hparse : ParseStructTag t = .ok (pre ++ e :: post))
    (hpre : ∀ x ∈ pre, x.Key ≠ tag) (he : e.Key = tag)
    (hscan : scanValue U option e.Value = .ok true) :
    AddTagOption U t tag option = .ok (StructTagOf U (pre ++ e :: post)) := by
  simp only [AddTagOption, hparse]
  rw [addLoop_first U tag option pre e post hpre he, addToEntry_eq, hscan]
  rfl

/-- What `AddTagOption` returns when the tag parses and the scan of the first
entry with the key ends without finding the option: the option is appended to
that entry, after a comma unless it starts with one. -/
theorem AddTagOption_appended (U : UnicodeTables) (t tag option : Str) (pre : List Tag) (e : Tag)
    (post : List Tag) (hparse : ParseStructTag t = .ok (pre ++ e :: post))
    (hpre : ∀ x ∈ pre, x.Key ≠ tag) (he : e.Key = tag)
    (hscan : scanValue U option e.Value = .ok false) :
    AddTagOption U t tag option = .ok (StructTagOf U (pre ++
      ⟨e.Key, (if strings.HasPrefix option [0x2C] = false then e.Value ++ [0x2C] else e.Value)
        ++ option⟩ :: post)) := by
  simp only [AddTagOption, hparse]
  rw [addLoop_first U tag option pre e post hpre he, addToEntry_eq, hscan]
  rfl

theorem AddTagOption_absent (U : UnicodeTables) (t tag option : Str) (tags : List Tag)
    (hparse : ParseStructTag t = .ok tags) (h : ∀ x ∈ tags, x.Key ≠ tag) :
    AddTagOption U t tag option = .ok (StructTagOf U (tags ++ [⟨tag, option⟩])) := by
  simp only [AddTagOption, hparse]
  rw [addLoop_absent U tag option tags h]
  rfl

/-- The ways `AddTagOption` succeeds on a tag that parses to `tags`. -/
theorem AddTagOption_ok_cases (U : UnicodeTables) (t tag option r : Str) (tags : List Tag)
    (h : AddTagOption U t tag option = .ok r) (hparse : ParseStructTag t = .ok tags) :
    ((∀ x ∈ tags, x.Key ≠ tag) ∧ r = StructTagOf U (tags ++ [⟨tag, option⟩])) ∨
      ∃ pre e post, tags = pre ++ e :: post ∧ (∀ x ∈ pre, x.Key ≠ tag) ∧ e.Key = tag ∧
        ((scanValue U option e.Value = .ok true ∧ r = StructTagOf U tags) ∨
          (scanValue U option e.Value = .ok false ∧
            r = StructTagOf U (pre ++ ⟨e.Key,
              (if strings.HasPrefix option [0x2C] = false then e.Value ++ [0x2C] else e.Value)
                ++ option⟩ :: post))) := by
  rcases first_entry tag tags with habs | ⟨pre, e, post, hsplit, hpre, he⟩
  · left
    rw [AddTagOption_absent U t tag option tags hparse habs] at h
    simp only [Except.ok.injEq] at h
    exact ⟨habs, h.symm⟩
  · right
    refine ⟨pre, e, post, hsplit, hpre, he, ?_⟩
    subst hsplit
    cases hs : scanValue U option e.Value with
    | error err =>
      simp only [AddTagOption, hparse] at h
      rw [addLoop_first U tag option pre e post hpre he, addToEntry_eq, hs] at h
      simp at h
    | ok b =>
      cases b with
      | true =>
        rw [AddTagOption_found U t tag option pre e post hparse hpre he hs] at h
        simp only [Except.ok.injEq] at h
        exact Or.inl ⟨rfl, h.symm⟩
      | false =>
        rw [AddTagOption_appended U t tag option pre e post hparse hpre he hs] at h
        simp only [Except.ok.injEq] at h
        exact Or.inr ⟨rfl, h.symm⟩

theorem AddTagOption_parses (U : UnicodeTables) (t tag option r : Str)
    (h : AddTagOption U t tag option = .ok r) : ∃ tags, ParseStructTag t = .ok tags := by
  cases hp : ParseStructTag t with
  | error err =>
    simp [AddTagOption, hp] at h
  | ok tags => exact ⟨tags, rfl⟩

/-- An identifier does not start with a comma. -/
theorem identifier_no_comma (U : UnicodeTables) (p x : Str) (h : identifier U p = true) :
    strings.HasPrefix (p ++ x) [0x2C] = false := by
  rw [identifier_iff] at h
  obtain ⟨hne, hfirst, -⟩ := h
  cases p with
  | nil => exact absurd rfl hne
  | cons b t =>
    by_contra hc
    rw [Bool.not_eq_false, hasPrefix_comma] at hc
    simp only [List.cons_append, List.head?_cons, Option.some.injEq] at hc
    subst hc
    rw [utf8.decode_ascii _ _ (by decide)] at hfirst
    have h1 : ((0x2C : Byte).val = 0x5F) = False := by decide
    have h2 : unicode.IsLetter U (0x2C : Byte).val = false := rfl
    simp only [h1, h2, false_or] at hfirst
    exact absurd hfirst (by simp)

theorem get?_splice {α : Type} (pre post : List α) (e e2 : α) (i : Nat) (hi : i ≠ pre.length) :
    (pre ++ e2 :: post).get? i = (pre ++ e :: post).get? i := by
  induction pre generalizing i with
  | nil =>
    cases i with
    | zero => exact absurd rfl hi
    | succ i => rfl
  | cons a pre ih =>
    cases i with
    | zero => rfl
    | succ i =>
      simp only [List.cons_append, List.get?_cons_succ]
      exact ih i (by simpa using hi)

theorem get?_middle {α : Type} (pre post : List α) (e : α) :
    (pre ++ e :: post).get? pre.length = some e := by
  induction pre with
  | nil => rfl
  | cons a pre ih => simpa using ih

theorem keys_splice (pre post : List Tag) (e e2 : Tag) (h : e2.Key = e.Key)
    (hk : ∀ x ∈ pre ++ e :: post, validKey x.Key = true) :
    ∀ x ∈ pre ++ e2 :: post, validKey x.Key = true := by
  intro x hx
  rcases List.mem_append.mp hx with hx | hx
  · exact hk x (List.mem_append_left _ hx)
  · rcases List.mem_cons.mp hx with rfl | hx
    · rw [h]
      exact hk e (List.mem_append_right _ (List.mem_cons_self _ _))
    · exact hk x (List.mem_append_right _ (List.mem_cons_of_mem _ hx))

/-! ## The option tokens of a value -/

theorem unescapeLoop_pos (s : Str) (fuel : Nat) : ∀ (i : Nat) (escaping : Bool) (escaped : Str)
    (r : Str × Nat), unescapeLoop s fuel i escaping escaped = .ok r → 1 ≤ r.2 := by
  induction fuel with
  | zero =>
    intro i escaping escaped r h
    simp [unescapeLoop] at h
  | succ fuel ih =>
    intro i escaping escaped r h
    simp only [unescapeLoop] at h
    by_cases hi : i < s.length
    · rw [if_pos hi] at h
      split_ifs at h
      all_goals first
        | exact ih _ _ _ r h
        | (cases hu : strconv.Unquote (escaped ++ [0x22]) with
            | none =>
              rw [hu] at h
              simp at h
            | some out =>
              rw [hu] at h
              simp only [Except.ok.injEq] at h
              subst h
              simp)
    · rw [if_neg hi] at h
      simp at h

/-- A token that does not start with a single quote is returned as its text. -/
theorem readTagOption_plain (U : UnicodeTables) (s opt : Str) (n : Nat)
    (h : readTagOption U s = .ok (opt, n)) (hq : (s.take n).head? ≠ some 0x27) :
    opt = s.take n := by
  simp only [readTagOption] at h
  by_cases hs : s.length = 0
  · rw [if_pos hs] at h
    simp at h
  rw [if_neg hs] at h
  by_cases h1 : (utf8.DecodeRuneInString s).1 = 0x5F
      ∨ unicode.IsLetter U (utf8.DecodeRuneInString s).1 = true
  · rw [if_pos h1] at h
    simp only [Except.ok.injEq, Prod.mk.injEq] at h
    rw [← h.1, h.2]
  · rw [if_neg h1] at h
    by_cases h2 : (utf8.DecodeRuneInString s).1 = 0x27
    · rw [if_pos h2] at h
      exfalso
      have hn : 1 ≤ n := unescapeLoop_pos s _ _ _ _ (opt, n) h
      cases s with
      | nil => exact hs rfl
      | cons b t =>
        have hb : b = 0x27 := by
          by_cases hlt : b.val < 0x80
          · rw [utf8.decode_ascii b t hlt] at h2
            exact Fin.ext h2
          · exfalso
            by_cases hw : (utf8.DecodeRuneInString (b :: t)).2 = 1
            · obtain ⟨b2, t2, hs2, hor⟩ := utf8.decode_width_one (b :: t) hw
              simp only [List.cons.injEq] at hs2
              obtain ⟨rfl, rfl⟩ := hs2
              rcases hor with h3 | h3
              · rw [h3] at h2
                exact absurd h2 (by decide)
              · exact hlt h3.1
            · have hw2 : 2 ≤ (utf8.DecodeRuneInString (b :: t)).2 := by
                have := utf8.decode_width_pos (b :: t) (by simp)
                omega
              have := (utf8.decode_valid (b :: t) hw2).1
              omega
        obtain ⟨m, rfl⟩ : ∃ m, n = m + 1 := ⟨n - 1, by omega⟩
        rw [List.take_succ_cons, List.head?_cons, hb] at hq
        exact hq rfl
    · rw [if_neg h2] at h
      simp at h

/-- When no token of a value is single-quoted, equals the candidate option or,
carrying a secondary value, is a prefix of it up to the colon, the option loop
ends without finding the option. -/
theorem optionLoop_of_tokens (U : UnicodeTables) (option orig : Str) (fuel : Nat) :
    ∀ (value : Str) (toks : List OptToken), tokenLoop U orig fuel value = .ok toks →
      (∀ tok ∈ toks, tok.ident.head? ≠ some 0x27 ∧ tok.ident ≠ option ∧
        (tok.secondary.isSome = true → strings.HasPrefix option (tok.ident ++ [0x3A]) = false)) →
      optionLoop U option orig fuel value = .ok false := by
  induction fuel with
  | zero =>
    intro value toks h
    simp [tokenLoop] at h
  | succ fuel ih =>
    intro value toks h htoks
    cases value with
    | nil => rfl
    | cons c value =>
      rw [optionLoop_succ, optionStep_cons]
      simp only [tokenLoop] at h
      by_cases hc : c ≠ 0x2C
      · rw [if_pos hc] at h
        simp at h
      rw [if_neg hc] at h ⊢
      by_cases hv : value.length = 0
      · rw [if_pos hv] at h
        simp at h
      rw [if_neg hv] at h ⊢
      cases hr : readTagOption U value with
      | error err =>
        rw [hr] at h
        simp at h
      | ok r =>
        obtain ⟨opt, n⟩ := r
        rw [hr] at h
        simp only at h ⊢
        simp only [afterToken]
        by_cases hcol : colonNext (value.drop n)
        · rw [if_pos hcol] at h ⊢
          cases hr2 : readTagOption U ((value.drop n).drop 1) with
          | error err =>
            rw [hr2] at h
            simp at h
          | ok r2 =>
            obtain ⟨opt2, m⟩ := r2
            rw [hr2] at h
            simp only at h ⊢
            cases hrec : tokenLoop U orig fuel (((value.drop n).drop 1).drop m) with
            | error err =>
              rw [hrec] at h
              simp at h
            | ok toks2 =>
              rw [hrec] at h
              simp only [Except.ok.injEq] at h
              subst h
              obtain ⟨hq, hne, hpre⟩ := htoks _ (List.mem_cons_self _ _)
              have hopt := readTagOption_plain U value opt n hr hq
              rw [hopt, if_neg (by rw [hpre rfl]; simp), if_neg (fun h => hne h.symm)]
              exact ih _ toks2 hrec (fun tok htok => htoks tok (List.mem_cons_of_mem _ htok))
        · rw [if_neg hcol] at h ⊢
          cases hrec : tokenLoop U orig fuel (value.drop n) with
          | error err =>
            rw [hrec] at h
            simp at h
          | ok toks2 =>
            rw [hrec] at h
            simp only [Except.ok.injEq] at h
            subst h
            obtain ⟨hq, hne, -⟩ := htoks _ (List.mem_cons_self _ _)
            have hopt := readTagOption_plain U value opt n hr hq
            rw [hopt, if_neg (fun h => hne h.symm)]
            exact ih _ toks2 hrec (fun tok htok => htoks tok (List.mem_cons_of_mem _ htok))

theorem scanValue_of_tokens (U : UnicodeTables) (option value : Str) (toks : List OptToken)
    (h : optionTokens U value = .ok toks)
    (htoks : ∀ tok ∈ toks, tok.ident.head? ≠ some 0x27 ∧ tok.ident ≠ option ∧
      (tok.secondary.isSome = true → strings.HasPrefix option (tok.ident ++ [0x3A]) = false)) :
    scanValue U option value = .ok false := by
  simp only [optionTokens] at h
  simp only [scanValue, optionScan]
  cases hs : skipName U value with
  | error err =>
    rw [hs] at h
    simp at h
  | ok rest =>
    rw [hs] at h
    exact optionLoop_of_tokens U option value _ rest toks h htoks

/-! ## Parsing a tag followed by more text -/

theorem skipSpaces_append_of_ne (pre x : Str) (h : skipSpaces pre ≠ []) :
    skipSpaces (pre ++ x) = skipSpaces pre ++ x := by
  induction pre with
  | nil => exact absurd rfl h
  | cons b pre ih =>
    rw [List.cons_append, skipSpaces_cons, skipSpaces_cons]
    rw [skipSpaces_cons] at h
    by_cases hb : b = 0x20
    · rw [if_pos hb] at h ⊢
      rw [if_pos hb]
      exact ih h
    · rw [if_neg hb, if_neg hb]
      rfl

theorem skipSpaces_append_of_nil (pre x : Str) (h : skipSpaces pre = []) :
    skipSpaces (pre ++ x) = skipSpaces x := by
  induction pre with
  | nil => rfl
  | cons b pre ih =>
    rw [skipSpaces_cons] at h
    by_cases hb : b = 0x20
    · rw [if_pos hb] at h
      rw [List.cons_append, skipSpaces_cons, if_pos hb]
      exact ih h
    · rw [if_neg hb] at h
      exact absurd h (by simp)

theorem keyLen_append_of_lt (tag x : Str) (h : keyLen tag < tag.length) :
    keyLen (tag ++ x) = keyLen tag := by
  induction tag with
  | nil => simp at h
  | cons b tag ih =>
    rw [List.cons_append, keyLen_cons, keyLen_cons]
    rw [keyLen_cons] at h
    by_cases hb : keyByte b = true
    · rw [if_pos hb] at h ⊢
      rw [if_pos hb, ih (by simpa using h)]
    · rw [if_neg hb, if_neg hb]

theorem get?_append_of_lt (a x : Str) (i : Nat) (h : i < a.length) :
    (a ++ x).get? i = a.get? i := by
  rw [List.get?_eq_getElem?, List.get?_eq_getElem?, List.getElem?_append_left h]

theorem scanQuoted_append_aux (x : Str) (n : Nat) : ∀ (a : Str) (j : Nat), a.length ≤ n →
    scanQuoted a = some j → scanQuoted (a ++ x) = some j ∧ j < a.length := by
  induction n with
  | zero =>
    intro a j hn h
    have : a = [] := List.eq_nil_of_length_eq_zero (by omega)
    subst this
    rw [scanQuoted_nil] at h
    exact absurd h (by simp)
  | succ n ih =>
    intro a j hn h
    cases a with
    | nil =>
      rw [scanQuoted_nil] at h
      exact absurd h (by simp)
    | cons b rest =>
      by_cases h1 : b = 0x22
      · subst h1
        rw [scanQuoted_quote] at h
        rw [List.cons_append, scanQuoted_quote]
        simp only [Option.some.injEq] at h
        subst h
        exact ⟨rfl, by simp⟩
      by_cases h2 : b = 0x5C
      · subst h2
        cases rest with
        | nil =>
          rw [scanQuoted_backslash_end] at h
          exact absurd h (by simp)
        | cons e rest2 =>
          rw [scanQuoted_backslash] at h
          rw [List.cons_append, List.cons_append, scanQuoted_backslash]
          cases hs : scanQuoted rest2 with
          | none =>
            rw [hs] at h
            exact absurd h (by simp)
          | some j2 =>
            rw [hs] at h
            simp only [Option.map_some', Option.some.injEq] at h
            obtain ⟨h3, h4⟩ := ih rest2 j2 (by simp only [List.length_cons] at hn; omega) hs
            rw [h3]
            simp only [Option.map_some', Option.some.injEq, List.length_cons]
            exact ⟨h, by omega⟩
      · rw [scanQuoted_cons b rest h1 h2] at h
        rw [List.cons_append, scanQuoted_cons b _ h1 h2]
        cases hs : scanQuoted rest with
        | none =>
          rw [hs] at h
          exact absurd h (by simp)
        | some j2 =>
          rw [hs] at h
          simp only [Option.map_some', Option.some.injEq] at h
          obtain ⟨h3, h4⟩ := ih rest j2 (by simp only [List.length_cons] at hn; omega) hs
          rw [h3]
          simp only [Option.map_some', Option.some.injEq, List.length_cons]
          exact ⟨h, by omega⟩

theorem scanQuoted_append (a x : Str) (j : Nat) (h : scanQuoted a = some j) :
    scanQuoted (a ++ x) = some j ∧ j < a.length :=
  scanQuoted_append_aux x a.length a j (le_refl _) h

/-- The turn of the loop of `ParseStructTag` on a tag, after its leading
spaces: a tag that does not start with a space and is not empty. -/
theorem parseStep_ready (tag : Str) (hne : tag ≠ []) (hsp : skipSpaces tag = tag) :
    parseStep tag =
      if keyLen tag = 0 ∨ tag.length ≤ keyLen tag + 1 ∨ tag.get? (keyLen tag) ≠ some 0x3A
          ∨ tag.get? (keyLen tag + 1) ≠ some 0x22 then
        .fail (.unpairedInput tag)
      else
        match scanQuoted ((tag.drop (keyLen tag + 1)).drop 1) with
        | none => .fail (.unpairedName (tag.take (keyLen tag)) (tag.drop (keyLen tag + 1)))
        | some j =>
          match strconv.Unquote ((tag.drop (keyLen tag + 1)).take (j + 1 + 1)) with
          | none => .fail .errSyntax
          | some value =>
            .entry ⟨tag.take (keyLen tag), value⟩ ((tag.drop (keyLen tag + 1)).drop (j + 1 + 1)) := by
  simp only [parseStep]
  rw [if_neg hne, hsp, if_neg hne]

theorem parseStep_append_ready (tag x : Str) (t : Tag) (rest : Str) (hne : tag ≠ [])
    (hsp : skipSpaces tag = tag) (h : parseStep tag = .entry t rest) :
    parseStep (tag ++ x) = .entry t (rest ++ x) := by
  have hne2 : tag ++ x ≠ [] := by
    intro hnil
    exact hne (List.append_eq_nil.mp hnil).1
  have hsp2 : skipSpaces (tag ++ x) = tag ++ x := by
    rw [skipSpaces_append_of_ne tag x (by rw [hsp]; exact hne), hsp]
  rw [parseStep_ready tag hne hsp] at h
  rw [parseStep_ready (tag ++ x) hne2 hsp2]
  by_cases hc : keyLen tag = 0 ∨ tag.length ≤ keyLen tag + 1 ∨ tag.get? (keyLen tag) ≠ some 0x3A
      ∨ tag.get? (keyLen tag + 1) ≠ some 0x22
  · rw [if_pos hc] at h
    exact absurd h (by simp)
  rw [if_neg hc] at h
  simp only [not_or, not_le, ne_eq, not_not] at hc
  obtain ⟨hc1, hc2, hc3, hc4⟩ := hc
  have hk : keyLen (tag ++ x) = keyLen tag := keyLen_append_of_lt tag x (by omega)
  rw [hk, get?_append_of_lt tag x _ (by omega), get?_append_of_lt tag x _ (by omega),
    if_neg (by
      simp only [not_or, not_le, ne_eq, not_not, List.length_append]
      exact ⟨hc1, by omega, hc3, hc4⟩)]
  rw [List.drop_append_of_le_length (by omega), take_append_of_le _ _ _ (by omega)]
  have hd1 : 1 ≤ (tag.drop (keyLen tag + 1)).length := by
    rw [List.length_drop]
    omega
  rw [List.drop_append_of_le_length hd1]
  cases hs : scanQuoted ((tag.drop (keyLen tag + 1)).drop 1) with
  | none =>
    rw [hs] at h
    exact absurd h (by simp)
  | some j =>
    rw [hs] at h
    obtain ⟨hs2, hj⟩ := scanQuoted_append _ x j hs
    rw [hs2]
    simp only at h ⊢
    have hj2 : j + 1 + 1 ≤ (tag.drop (keyLen tag + 1)).length := by
      rw [List.length_drop] at hj
      omega
    rw [take_append_of_le _ _ _ hj2, List.drop_append_of_le_length hj2]
    cases hu : strconv.Unquote ((tag.drop (keyLen tag + 1)).take (j + 1 + 1)) with
    | none =>
      rw [hu] at h
      exact absurd h (by simp)
    | some value =>
      rw [hu] at h
      simp only [ParseStep.entry.injEq] at h
      obtain ⟨rfl, rfl⟩ := h
      rfl

theorem parseStep_append (tag x : Str) (t : Tag) (rest : Str)
    (h : parseStep tag = .entry t rest) : parseStep (tag ++ x) = .entry t (rest ++ x) := by
  by_cases hs : skipSpaces tag = []
  · rw [parseStep_stop tag hs] at h
    exact absurd h (by simp)
  · rw [parseStep_skip tag hs] at h
    have hs2 : skipSpaces (tag ++ x) ≠ [] := by
      rw [skipSpaces_append_of_ne tag x hs]
      intro hnil
      exact hs (List.append_eq_nil.mp hnil).1
    rw [parseStep_skip (tag ++ x) hs2, skipSpaces_append_of_ne tag x hs]
    exact parseStep_append_ready (skipSpaces tag) x t rest hs (skipSpaces_idem tag) h

theorem parseFrom_spaces (pre x : Str) (out : List Tag) (h : skipSpaces pre = []) :
    parseFrom (pre ++ x) out = parseFrom x out := by
  induction pre with
  | nil => rfl
  | cons b pre ih =>
    rw [skipSpaces_cons] at h
    by_cases hb : b = 0x20
    · rw [if_pos hb] at h
      rw [List.cons_append, hb, parseFrom_space]
      exact ih h
    · rw [if_neg hb] at h
      exact absurd h (by simp)

/-- Parsing a tag that parses, followed by more text, goes on with that text
and the entries of the tag. -/
theorem parseFrom_append (x : Str) (n : Nat) : ∀ (pre : Str) (out tags : List Tag),
    pre.length ≤ n → parseFrom pre out = .ok tags →
    parseFrom (pre ++ x) out = parseFrom x tags := by
  induction n with
  | zero =>
    intro pre out tags hn h
    have : pre = [] := List.eq_nil_of_length_eq_zero (by omega)
    subst this
    rw [parseFrom_nil] at h
    simp only [Except.ok.injEq] at h
    rw [h]
    rfl
  | succ n ih =>
    intro pre out tags hn h
    rw [parseFrom_eq] at h
    cases hs : parseStep pre with
    | stop =>
      rw [hs] at h
      simp only [Except.ok.injEq] at h
      subst h
      by_cases hsk : skipSpaces pre = []
      · exact parseFrom_spaces pre x out hsk
      · exfalso
        have hne : pre ≠ [] := by
          rintro rfl
          exact hsk rfl
        rw [parseStep_skip pre hsk, parseStep_ready _ hsk (skipSpaces_idem pre)] at hs
        split_ifs at hs
        cases hq : scanQuoted (List.drop 1 (List.drop (keyLen (skipSpaces pre) + 1)
            (skipSpaces pre))) with
        | none =>
          rw [hq] at hs
          simp at hs
        | some j =>
          rw [hq] at hs
          simp only at hs
          cases hu : strconv.Unquote (List.take (j + 1 + 1) (List.drop
              (keyLen (skipSpaces pre) + 1) (skipSpaces pre))) with
          | none =>
            rw [hu] at hs
            simp at hs
          | some v =>
            rw [hu] at hs
            simp at hs
    | fail err =>
      rw [hs] at h
      exact absurd h (by simp)
    | entry t rest =>
      rw [hs] at h
      simp only at h
      have hl := parseStep_length pre t rest hs
      rw [parseFrom_eq (pre ++ x), parseStep_append pre x t rest hs]
      exact ih rest _ tags (by omega) h

theorem ParseStructTag_append (pre x : Str) (tags : List Tag)
    (h : ParseStructTag pre = .ok tags) : ParseStructTag (pre ++ x) = parseFrom x tags :=
  parseFrom_append x pre.length pre [] tags (le_refl _) h

/-! ## The claims -/

/-- C2: parse/serialize round trip.  For every string `s` on which
`ParseStructTag` succeeds with the entry list `es`, `ParseStructTag` succeeds on
`StructTagOf es` and returns exactly `es`: the same keys, the same decoded
values, the same order. -/
theorem C2_parse_serialize_round_trip (U : UnicodeTables) (s : Str) (es : List Tag)
    (h : ParseStructTag s = .ok es) : ParseStructTag (StructTagOf U es) = .ok es :=
  ParseStructTag_StructTagOf U es (ParseStructTag_keys s es h)

/-- C2 at a tag whose serialized text differs from it in spacing and quoting. -/
theorem C2_parse_serialize_round_trip_witness :
    ParseStructTag (ascii "  a:\"x\\u0041\"   b:\"\"") = .ok [⟨ascii "a", ascii "xA"⟩, ⟨ascii "b", []⟩]
      ∧ StructTagOf latin1Tables [⟨ascii "a", ascii "xA"⟩, ⟨ascii "b", []⟩] = ascii "a:\"xA\" b:\"\""
      ∧ ParseStructTag (StructTagOf latin1Tables [⟨ascii "a", ascii "xA"⟩, ⟨ascii "b", []⟩])
        = .ok [⟨ascii "a", ascii "xA"⟩, ⟨ascii "b", []⟩] :=
  ⟨by decide, by decide,
    C2_parse_serialize_round_trip latin1Tables (ascii "  a:\"x\\u0041\"   b:\"\"") _ (by decide)⟩

/-- C6: new entry when the key is missing.  For every tag `t` on which
`ParseStructTag` succeeds with entries `es`, none of which has key `k`, and
every option `o`, `AddTagOption t k o` succeeds and returns
`StructTagOf (es ++ [Tag{Key: k, Value: o}])`: the entries keep their order and
the new entry, whose value is the option text verbatim, goes at the end. -/
theorem C6_new_entry_when_key_missing (U : UnicodeTables) (t k o : Str) (es : List Tag)
    (h : ParseStructTag t = .ok es) (hk : ∀ e ∈ es, e.Key ≠ k) :
    AddTagOption U t k o = .ok (StructTagOf U (es ++ [⟨k, o⟩])) :=
  AddTagOption_absent U t k o es h hk

/-- C6 at the tag `json:"foo"`, the key `bar` and the option `,baz`. -/
theorem C6_new_entry_when_key_missing_witness :
    ParseStructTag (ascii "json:\"foo\"") = .ok [⟨ascii "json", ascii "foo"⟩]
      ∧ AddTagOption latin1Tables (ascii "json:\"foo\"") (ascii "bar") (ascii ",baz")
        = .ok (StructTagOf latin1Tables ([⟨ascii "json", ascii "foo"⟩] ++ [⟨ascii "bar", ascii ",baz"⟩]))
      ∧ StructTagOf latin1Tables ([⟨ascii "json", ascii "foo"⟩] ++ [⟨ascii "bar", ascii ",baz"⟩])
        = ascii "json:\"foo\" bar:\",baz\"" :=
  ⟨by decide,
    C6_new_entry_when_key_missing latin1Tables (ascii "json:\"foo\"") (ascii "bar") (ascii ",baz")
      [⟨ascii "json", ascii "foo"⟩] (by decide) (by decide),
    by decide⟩

/-- The value of an entry with the key, after `AddTagOption`: the value it had,
followed by nothing or by text that starts with a comma. -/
theorem AddTagOption_value_suffix (U : UnicodeTables) (t k o r : Str) (es : List Tag) (i : Nat)
    (v : Str) (h : AddTagOption U t k o = .ok r) (hp : ParseStructTag t = .ok es)
    (hi : es.get? i = some ⟨k, v⟩) :
    ∃ es2 w, ParseStructTag r = .ok es2 ∧ es2.get? i = some ⟨k, v ++ w⟩ ∧
      (w = [] ∨ w.head? = some 0x2C) := by
  have hkeys := ParseStructTag_keys t es hp
  rcases AddTagOption_ok_cases U t k o r es h hp with ⟨habs, -⟩ | ⟨pre, e, post, hs, hpre, he, hr⟩
  · exact absurd rfl (habs _ (List.get?_mem hi))
  · subst hs
    rcases hr with ⟨-, hr⟩ | ⟨-, hr⟩
    · refine ⟨pre ++ e :: post, [], ?_, by simpa using hi, Or.inl rfl⟩
      rw [hr]
      exact ParseStructTag_StructTagOf U _ hkeys
    · have hparse := ParseStructTag_StructTagOf U (pre ++ ⟨e.Key,
          (if strings.HasPrefix o [0x2C] = false then e.Value ++ [0x2C] else e.Value) ++ o⟩ :: post)
        (keys_splice pre post e _ rfl hkeys)
      by_cases hip : i = pre.length
      · subst hip
        rw [get?_middle] at hi
        simp only [Option.some.injEq] at hi
        subst hi
        by_cases hc : strings.HasPrefix o [0x2C] = false
        · refine ⟨_, 0x2C :: o, by rw [hr]; exact hparse, ?_, Or.inr rfl⟩
          rw [get?_middle, if_pos hc]
          simp
        · refine ⟨_, o, by rw [hr]; exact hparse, ?_, Or.inr ?_⟩
          · rw [get?_middle, if_neg hc]
          · rw [Bool.not_eq_false, hasPrefix_comma] at hc
            exact hc
      · refine ⟨_, [], by rw [hr]; exact hparse, ?_, Or.inl rfl⟩
        rw [get?_splice pre post e _ i hip, List.append_nil]
        exact hi

/-- The name slot of a value is the name slot of the value followed by text
that starts with a comma. -/
theorem skipName_suffix (U : UnicodeTables) (v w rest : Str)
    (hw : w = [] ∨ w.head? = some 0x2C) (h : skipName U v = .ok rest) :
    skipName U (v ++ w) = .ok (rest ++ w) := by
  rcases hw with rfl | hw
  · rw [List.append_nil, List.append_nil]
    exact h
  · cases w with
    | nil => simp at hw
    | cons c x =>
      simp only [List.head?_cons, Option.some.injEq] at hw
      subst hw
      exact skipName_append U v x rest h

/-- C7: name-slot preservation.  For every `t`, `k`, `o` such that
`AddTagOption t k o` succeeds with `r`, and every entry of `ParseStructTag t`
with key `k` and value `v`, at index `i`: `ParseStructTag r` succeeds and its
entry at index `i` has key `k` and a value `v ++ w` that starts with the whole
of `v`, where `w` is empty or starts with a comma.  So the name slot is not
altered: whatever `AddTagOption` skips as the name of `v`, leaving `rest`, it
skips as the name of `v ++ w`, leaving `rest ++ w`. -/
theorem C7_name_slot_preserved (U : UnicodeTables) (t k o r : Str) (es : List Tag) (i : Nat)
    (v : Str) (h : AddTagOption U t k o = .ok r) (hp : ParseStructTag t = .ok es)
    (hi : es.get? i = some ⟨k, v⟩) :
    ∃ es2 w, ParseStructTag r = .ok es2 ∧ es2.get? i = some ⟨k, v ++ w⟩ ∧
      (w = [] ∨ w.head? = some 0x2C) ∧
      ∀ rest, skipName U v = .ok rest → skipName U (v ++ w) = .ok (rest ++ w) := by
  obtain ⟨es2, w, h1, h2, h3⟩ := AddTagOption_value_suffix U t k o r es i v h hp hi
  exact ⟨es2, w, h1, h2, h3, fun rest hr => skipName_suffix U v w rest h3 hr⟩

/-- C7 at the tag `json:"foo" bar:",foo"`, the key `bar` and the option `baz`. -/
theorem C7_name_slot_preserved_witness :
    AddTagOption latin1Tables (ascii "json:\"foo\" bar:\"nm,foo\"") (ascii "bar") (ascii "baz")
        = .ok (ascii "json:\"foo\" bar:\"nm,foo,baz\"")
      ∧ ∃ es2 w, ParseStructTag (ascii "json:\"foo\" bar:\"nm,foo,baz\"") = .ok es2 ∧
        es2.get? 1 = some ⟨ascii "bar", ascii "nm,foo" ++ w⟩ ∧ (w = [] ∨ w.head? = some 0x2C) ∧
        ∀ rest, skipName latin1Tables (ascii "nm,foo") = .ok rest →
          skipName latin1Tables (ascii "nm,foo" ++ w) = .ok (rest ++ w) :=
  ⟨by decide,
    C7_name_slot_preserved latin1Tables (ascii "json:\"foo\" bar:\"nm,foo\"") (ascii "bar")
      (ascii "baz") _ [⟨ascii "json", ascii "foo"⟩, ⟨ascii "bar", ascii "nm,foo"⟩] 1
      (ascii "nm,foo") (by decide) (by decide) (by decide)⟩

/-- C8, as stated, fails when the key is not one `ParseStructTag` can read:
with the key `a:"" b`, absent from `json:"foo"`, `AddTagOption` succeeds, and
its result parses to two more entries than the input, with the keys `a` and
`b`. -/
theorem C8_counterexample :
    AddTagOption latin1Tables (ascii "json:\"foo\"") (ascii "a:\"\" b") (ascii "x")
        = .ok (ascii "json:\"foo\" a:\"\" b:\"x\"")
      ∧ ParseStructTag (ascii "json:\"foo\"") = .ok [⟨ascii "json", ascii "foo"⟩]
      ∧ ParseStructTag (ascii "json:\"foo\" a:\"\" b:\"x\"")
        = .ok [⟨ascii "json", ascii "foo"⟩, ⟨ascii "a", []⟩, ⟨ascii "b", ascii "x"⟩] := by
  decide

/-- C8, amended: other entries are untouched.  For every `t`, `o` and every key
`k` that `ParseStructTag` can read (not empty, and without a space, a control
character, a colon, a double quote or DEL), if `AddTagOption t k o` succeeds
with `r` then `ParseStructTag r` succeeds, its keys are the keys of
`ParseStructTag t` in the same order, or those followed by the one new entry
`k`, `o`, and every entry other than the first one whose key is `k`, later
entries with key `k` included, has exactly its original value. -/
theorem C8_other_entries_untouched (U : UnicodeTables) (t k o r : Str) (es : List Tag)
    (hk : validKey k = true) (h : AddTagOption U t k o = .ok r) (hp : ParseStructTag t = .ok es) :
    ∃ es2, ParseStructTag r = .ok es2 ∧
      (es2.map Tag.Key = es.map Tag.Key ∨ es2 = es ++ [⟨k, o⟩]) ∧
      ∀ i e, es.get? i = some e →
        (e.Key ≠ k ∨ ∃ j e1, j < i ∧ es.get? j = some e1 ∧ e1.Key = k) →
        es2.get? i = some e := by
  have hkeys := ParseStructTag_keys t es hp
  rcases AddTagOption_ok_cases U t k o r es h hp with ⟨habs, hr⟩ | ⟨pre, e, post, hs, hpre, he, hr⟩
  · refine ⟨es ++ [⟨k, o⟩], ?_, Or.inr rfl, ?_⟩
    · rw [hr]
      refine ParseStructTag_StructTagOf U _ ?_
      intro x hx
      rcases List.mem_append.mp hx with hx | hx
      · exact hkeys x hx
      · simp only [List.mem_singleton] at hx
        rw [hx]
        exact hk
    · intro i e hi _
      have hlt : i < es.length := by
        by_contra hn
        rw [List.get?_eq_none.mpr (by omega)] at hi
        exact absurd hi (by simp)
      rw [List.get?_eq_getElem?] at hi ⊢
      rw [List.getElem?_append_left hlt]
      exact hi
  · subst hs
    have frame : ∀ e2 : Tag, ∀ i e0, (pre ++ e :: post).get? i = some e0 →
        (e0.Key ≠ k ∨ ∃ j e1, j < i ∧ (pre ++ e :: post).get? j = some e1 ∧ e1.Key = k) →
        (pre ++ e2 :: post).get? i = some e0 := by
      intro e2 i e0 hi hcond
      by_cases hip : i = pre.length
      · exfalso
        subst hip
        rw [get?_middle] at hi
        simp only [Option.some.injEq] at hi
        subst hi
        rcases hcond with hne | ⟨j, e1, hj, hje, hk1⟩
        · exact hne he
        · rw [List.get?_eq_getElem?, List.getElem?_append_left hj] at hje
          exact hpre e1 (List.getElem?_mem hje) hk1
      · rw [get?_splice pre post e e2 i hip]
        exact hi
    rcases hr with ⟨-, hr⟩ | ⟨-, hr⟩
    · refine ⟨pre ++ e :: post, ?_, Or.inl rfl, frame e⟩
      rw [hr]
      exact ParseStructTag_StructTagOf U _ hkeys
    · refine ⟨pre ++ ⟨e.Key, (if strings.HasPrefix o [0x2C] = false then e.Value ++ [0x2C]
          else e.Value) ++ o⟩ :: post, ?_, Or.inl ?_, frame _⟩
      · rw [hr]
        exact ParseStructTag_StructTagOf U _ (keys_splice pre post e _ rfl hkeys)
      · simp

/-- C8 (amended) at the tag `a:"x" b:"n" b:"m"`, the key `b` and the option `o`. -/
theorem C8_other_entries_untouched_witness :
    validKey (ascii "b") = true
      ∧ AddTagOption latin1Tables (ascii "a:\"x\" b:\"n\" b:\"m\"") (ascii "b") (ascii "o")
        = .ok (ascii "a:\"x\" b:\"n,o\" b:\"m\"")
      ∧ ∃ es2, ParseStructTag (ascii "a:\"x\" b:\"n,o\" b:\"m\"") = .ok es2 ∧
        (es2.map Tag.Key = [ascii "a", ascii "b", ascii "b"] ∨ es2
          = [⟨ascii "a", ascii "x"⟩, ⟨ascii "b", ascii "n"⟩, ⟨ascii "b", ascii "m"⟩]
            ++ [⟨ascii "b", ascii "o"⟩]) ∧
        ∀ i e, [(⟨ascii "a", ascii "x"⟩ : Tag), ⟨ascii "b", ascii "n"⟩,
            ⟨ascii "b", ascii "m"⟩].get? i = some e →
          (e.Key ≠ ascii "b" ∨ ∃ j e1, j < i ∧ [(⟨ascii "a", ascii "x"⟩ : Tag),
            ⟨ascii "b", ascii "n"⟩, ⟨ascii "b", ascii "m"⟩].get? j = some e1
            ∧ e1.Key = ascii "b") →
          es2.get? i = some e :=
  ⟨by decide, by decide,
    C8_other_entries_untouched latin1Tables (ascii "a:\"x\" b:\"n\" b:\"m\"") (ascii "b")
      (ascii "o") _ [⟨ascii "a", ascii "x"⟩, ⟨ascii "b", ascii "n"⟩, ⟨ascii "b", ascii "m"⟩]
      (by decide) (by decide) (by decide)⟩

/-- C1, as stated, fails in two ways.  When the key is absent the option
becomes the value of a new entry, and inserting it again appends it to that
entry (`bar:"baz"` becomes `bar:"baz,baz"`); and an option written with a
leading comma is never found in the option list, so it is appended again. -/
theorem C1_counterexample :
    (AddTagOption latin1Tables (ascii "json:\"foo\"") (ascii "bar") (ascii "baz")
        = .ok (ascii "json:\"foo\" bar:\"baz\"")
      ∧ AddTagOption latin1Tables (ascii "json:\"foo\" bar:\"baz\"") (ascii "bar") (ascii "baz")
        = .ok (ascii "json:\"foo\" bar:\"baz,baz\""))
    ∧ (AddTagOption latin1Tables (ascii "json:\"foo\"") (ascii "json") (ascii ",omitzero")
        = .ok (ascii "json:\"foo,omitzero\"")
      ∧ AddTagOption latin1Tables (ascii "json:\"foo,omitzero\"") (ascii "json") (ascii ",omitzero")
        = .ok (ascii "json:\"foo,omitzero,omitzero\"")) := by
  decide

/-- C1, amended: option insertion is idempotent when the key is present and
the option is an identifier or an identifier followed by a colon and more text.
For every tag `t` that has an entry with key `k`, and every option `o` that is
an identifier `p` or `p:rest`, if `AddTagOption t k o` succeeds with result `r`
then `AddTagOption r k o` also succeeds and returns exactly `r`. -/
theorem C1_insertion_idempotent (U : UnicodeTables) (t k o p rest r : Str) (es : List Tag)
    (h : AddTagOption U t k o = .ok r) (hparse : ParseStructTag t = .ok es)
    (hkey : ∃ e ∈ es, e.Key = k) (hp : identifier U p = true)
    (ho : o = p ∨ o = p ++ 0x3A :: rest) :
    AddTagOption U r k o = .ok r := by
  have hkeys := ParseStructTag_keys t es hparse
  rcases AddTagOption_ok_cases U t k o r es h hparse with
    ⟨habs, -⟩ | ⟨pre, e, post, hs, hpre, he, hr⟩
  · obtain ⟨e, he, hek⟩ := hkey
    exact absurd hek (habs e he)
  · subst hs
    rcases hr with ⟨hscan, hr⟩ | ⟨hscan, hr⟩
    · have hparse2 : ParseStructTag r = .ok (pre ++ e :: post) := by
        rw [hr]
        exact ParseStructTag_StructTagOf U _ hkeys
      rw [AddTagOption_found U r k o pre e post hparse2 hpre he hscan, hr]
    · have hcomma : strings.HasPrefix o [0x2C] = false := by
        rcases ho with rfl | rfl
        · have := identifier_no_comma U o [] hp
          rwa [List.append_nil] at this
        · exact identifier_no_comma U p _ hp
      rw [if_pos hcomma] at hr
      have hparse2 : ParseStructTag r
          = .ok (pre ++ ⟨e.Key, e.Value ++ [0x2C] ++ o⟩ :: post) := by
        rw [hr]
        exact ParseStructTag_StructTagOf U _ (keys_splice pre post e _ rfl hkeys)
      have hscan2 : scanValue U o (e.Value ++ [0x2C] ++ o) = .ok true := by
        rw [List.append_assoc, List.singleton_append, scanValue_append U o e.Value o false hscan]
        simp only [Bool.false_eq_true, if_false]
        rw [optionScan_eq]
        rcases ho with rfl | rfl
        · have := optionStep_same U (e.Value ++ 0x2C :: o) o [] hp (Or.inl rfl)
          rw [List.append_nil] at this
          rw [this]
        · rw [optionStep_colon U _ _ p rest hp (hasPrefix_colon p rest)]
      rw [AddTagOption_found U r k o pre ⟨e.Key, e.Value ++ [0x2C] ++ o⟩ post hparse2 hpre he
        hscan2, hr]

/-- C1 (amended) at the tag `json:"foo"`, the key `json` and the option `omitempty`. -/
theorem C1_insertion_idempotent_witness :
    AddTagOption latin1Tables (ascii "json:\"foo\"") (ascii "json") (ascii "omitempty")
        = .ok (ascii "json:\"foo,omitempty\"")
      ∧ AddTagOption latin1Tables (ascii "json:\"foo,omitempty\"") (ascii "json")
        (ascii "omitempty") = .ok (ascii "json:\"foo,omitempty\"") :=
  ⟨by decide,
    C1_insertion_idempotent latin1Tables (ascii "json:\"foo\"") (ascii "json") (ascii "omitempty")
      (ascii "omitempty") [] _ [⟨ascii "json", ascii "foo"⟩] (by decide) (by decide)
      ⟨_, List.mem_cons_self _ _, rfl⟩ (by decide) (Or.inl rfl)⟩

/-- The scan of a value in which a token `p:...` follows a part that scans
without error, for a candidate option that starts with `p:`: the option is
found. -/
theorem scanValue_colon_token (U : UnicodeTables) (o head p sec : Str)
    (hp : identifier U p = true) (ho : strings.HasPrefix o (p ++ [0x3A]) = true)
    (hhead : ∃ b, scanValue U o head = .ok b) :
    scanValue U o (head ++ 0x2C :: (p ++ 0x3A :: sec)) = .ok true := by
  obtain ⟨b, hb⟩ := hhead
  rw [scanValue_append U o head _ b hb]
  cases b with
  | true => rfl
  | false =>
    simp only [Bool.false_eq_true, if_false]
    rw [optionScan_eq, optionStep_colon U o _ p sec hp ho]

/-- The scan of a value in which a token `p`, ending the value or followed by a
comma, follows a part that scans without error, for the candidate option `p`:
the option is found. -/
theorem scanValue_same_token (U : UnicodeTables) (head p tail : Str)
    (hp : identifier U p = true) (ht : tail = [] ∨ tail.head? = some 0x2C)
    (hhead : ∃ b, scanValue U p head = .ok b) :
    scanValue U p (head ++ 0x2C :: (p ++ tail)) = .ok true := by
  obtain ⟨b, hb⟩ := hhead
  rw [scanValue_append U p head _ b hb]
  cases b with
  | true => rfl
  | false =>
    simp only [Bool.false_eq_true, if_false]
    rw [optionScan_eq, optionStep_same U _ p tail hp ht]

/-- C3: prefix-aware dedup.  For every tag `t` that parses, whose first entry
with key `k` has a value `head,p:sec` in which an option token with the
identifier `p` is followed by a colon and a secondary value, the name slot and
the tokens before it (`head`) scanning without error, and for every candidate
option `p:rest`: `AddTagOption t k p:rest` succeeds and returns
`StructTagOf (ParseStructTag t)`, every entry unchanged and the existing
secondary value kept. -/
theorem C3_prefix_aware_dedup (U : UnicodeTables) (t k head p sec rest : Str)
    (pre post : List Tag)
    (hparse : ParseStructTag t = .ok (pre ++ ⟨k, head ++ 0x2C :: (p ++ 0x3A :: sec)⟩ :: post))
    (hpre : ∀ x ∈ pre, x.Key ≠ k) (hp : identifier U p = true)
    (hhead : ∃ b, scanValue U (p ++ 0x3A :: rest) head = .ok b) :
    AddTagOption U t k (p ++ 0x3A :: rest)
      = .ok (StructTagOf U (pre ++ ⟨k, head ++ 0x2C :: (p ++ 0x3A :: sec)⟩ :: post)) :=
  AddTagOption_found U t k _ pre _ post hparse hpre rfl
    (scanValue_colon_token U _ head p sec hp (hasPrefix_colon p rest) hhead)

/-- C3 at the tag `json:",format:fizzbuzz"`, the key `json` and the option
`format:booboo`: the tag is returned as it is. -/
theorem C3_prefix_aware_dedup_witness :
    StructTagOf latin1Tables ([] ++ ⟨ascii "json", [] ++ 0x2C :: (ascii "format" ++ 0x3A ::
        ascii "fizzbuzz")⟩ :: []) = ascii "json:\",format:fizzbuzz\""
      ∧ AddTagOption latin1Tables (ascii "json:\",format:fizzbuzz\"") (ascii "json")
        (ascii "format" ++ 0x3A :: ascii "booboo")
        = .ok (StructTagOf latin1Tables ([] ++ ⟨ascii "json", [] ++ 0x2C :: (ascii "format"
          ++ 0x3A :: ascii "fizzbuzz")⟩ :: [])) :=
  ⟨by decide,
    C3_prefix_aware_dedup latin1Tables (ascii "json:\",format:fizzbuzz\"") (ascii "json") []
      (ascii "format") (ascii "fizzbuzz") (ascii "booboo") [] [] (by decide) (by decide)
      (by decide) ⟨false, by decide⟩⟩

/-- C4, as stated, fails for a single-quoted token: the value `,'abc'` holds
the token `'abc'`, which `readTagOption` reads in full, and yet adding the
option `'abc'` appends it a second time.  The option is compared with what
`readTagOption` returns for the token, not with the text of the token. -/
theorem C4_counterexample :
    ParseStructTag (ascii "json:\",'abc'\"") = .ok [⟨ascii "json", [] ++ 0x2C :: ascii "'abc'"⟩]
      ∧ (∃ opt, readTagOption latin1Tables (ascii "'abc'") = .ok (opt, (ascii "'abc'").length))
      ∧ scanValue latin1Tables (ascii "'abc'") [] = .ok false
      ∧ AddTagOption latin1Tables (ascii "json:\",'abc'\"") (ascii "json") (ascii "'abc'")
        = .ok (ascii "json:\",'abc','abc'\"") :=
  ⟨by decide, ⟨ascii "'''", by decide⟩, by decide, by decide⟩

/-- C4, amended: verbatim dedup of identifier tokens.  For every tag `t` that
parses, whose first entry with key `k` has a value in which a token equal to
the candidate option `o` follows a part `head` (the name slot and the tokens
before) that scans without error, when the token is an identifier `p` that ends
the value or is followed by a comma, or an identifier followed by a colon and
a secondary value, `p:sec`: `AddTagOption t k o` succeeds and returns
`StructTagOf (ParseStructTag t)`, with no duplicate of `o`. -/
theorem C4_verbatim_dedup (U : UnicodeTables) (t k o head p sec tail : Str)
    (pre post : List Tag)
    (hparse : ParseStructTag t = .ok (pre ++ ⟨k, head ++ 0x2C :: (o ++ tail)⟩ :: post))
    (hpre : ∀ x ∈ pre, x.Key ≠ k) (hp : identifier U p = true)
    (ho : (o = p ∧ (tail = [] ∨ tail.head? = some 0x2C)) ∨ o = p ++ 0x3A :: sec)
    (hhead : ∃ b, scanValue U o head = .ok b) :
    AddTagOption U t k o = .ok (StructTagOf U (pre ++ ⟨k, head ++ 0x2C :: (o ++ tail)⟩ :: post)) := by
  refine AddTagOption_found U t k _ pre _ post hparse hpre rfl ?_
  rcases ho with ⟨rfl, ht⟩ | rfl
  · exact scanValue_same_token U head o tail hp ht hhead
  · have := scanValue_colon_token U (p ++ 0x3A :: sec) head p (sec ++ tail) hp
      (hasPrefix_colon p sec) hhead
    simpa using this

/-- C4 (amended) at the tag `json:",omitzero"`, the key `json` and the option
`omitzero`: the tag is returned as it is. -/
theorem C4_verbatim_dedup_witness :
    StructTagOf latin1Tables ([] ++ ⟨ascii "json", [] ++ 0x2C :: (ascii "omitzero" ++ [])⟩ :: [])
        = ascii "json:\",omitzero\""
      ∧ AddTagOption latin1Tables (ascii "json:\",omitzero\"") (ascii "json") (ascii "omitzero")
        = .ok (StructTagOf latin1Tables ([] ++ ⟨ascii "json", [] ++ 0x2C :: (ascii "omitzero"
          ++ [])⟩ :: [])) :=
  ⟨by decide,
    C4_verbatim_dedup latin1Tables (ascii "json:\",omitzero\"") (ascii "json") (ascii "omitzero")
      [] (ascii "omitzero") [] [] [] [] (by decide) (by decide) (by decide)
      (Or.inl ⟨rfl, Or.inl rfl⟩) ⟨false, by decide⟩⟩

/-- C5, as stated, fails in two ways.  The option `a` is taken to be present in
the value `,a:b`, whose one token `a:b` is not equal to `a` and whose
identifier `a` gives no prefix `a:` of the option: the option is compared with
the identifier of a token that carries a secondary value.  And the option `'''`
is taken to be present in the value `,'abc'`, whose one token is `'abc'`. -/
theorem C5_counterexample :
    (ParseStructTag (ascii "json:\",a:b\"") = .ok [⟨ascii "json", ascii ",a:b"⟩]
      ∧ optionTokens latin1Tables (ascii ",a:b") = .ok [⟨ascii "a", some (ascii "b")⟩]
      ∧ OptToken.text ⟨ascii "a", some (ascii "b")⟩ ≠ ascii "a"
      ∧ strings.HasPrefix (ascii "a") (ascii "a" ++ [0x3A]) = false
      ∧ AddTagOption latin1Tables (ascii "json:\",a:b\"") (ascii "json") (ascii "a")
        = .ok (ascii "json:\",a:b\""))
    ∧ (ParseStructTag (ascii "json:\",'abc'\"") = .ok [⟨ascii "json", ascii ",'abc'"⟩]
      ∧ optionTokens latin1Tables (ascii ",'abc'") = .ok [⟨ascii "'abc'", none⟩]
      ∧ OptToken.text ⟨ascii "'abc'", none⟩ ≠ ascii "'''"
      ∧ AddTagOption latin1Tables (ascii "json:\",'abc'\"") (ascii "json") (ascii "'''")
        = .ok (ascii "json:\",'abc'\"")) := by
  decide

/-- C5, amended: append when absent.  For every tag `t` that parses, whose
first entry with key `k` has a value `v` whose name slot and option tokens all
scan without error, none of the tokens being single-quoted: if no token has an
identifier equal to the candidate `o`, and no token carrying a secondary value
has an identifier `p` with `o` starting with `p:`, then `AddTagOption t k o`
returns `StructTagOf` of the parsed entries with the value of the first
`k`-entry replaced by `v + "," + o`, or by `v + o` when `o` itself begins with a
comma. -/
theorem C5_append_when_absent (U : UnicodeTables) (t k o v : Str) (pre post : List Tag)
    (toks : List OptToken) (hparse : ParseStructTag t = .ok (pre ++ ⟨k, v⟩ :: post))
    (hpre : ∀ x ∈ pre, x.Key ≠ k) (htoks : optionTokens U v = .ok toks)
    (hplain : ∀ tok ∈ toks, tok.ident.head? ≠ some 0x27)
    (habsent : ∀ tok ∈ toks, tok.ident ≠ o ∧
      (tok.secondary.isSome = true → strings.HasPrefix o (tok.ident ++ [0x3A]) = false)) :
    AddTagOption U t k o = .ok (StructTagOf U (pre ++
      ⟨k, (if strings.HasPrefix o [0x2C] = false then v ++ [0x2C] else v) ++ o⟩ :: post)) :=
  AddTagOption_appended U t k o pre ⟨k, v⟩ post hparse hpre rfl
    (scanValue_of_tokens U o v toks htoks
      (fun tok htok => ⟨hplain tok htok, (habsent tok htok).1, (habsent tok htok).2⟩))

/-- C5 (amended) at the tag `json:"foo" bar:",foo,fmt:x"`, the key `bar` and
the option `baz`. -/
theorem C5_append_when_absent_witness :
    AddTagOption latin1Tables (ascii "json:\"foo\" bar:\",foo,fmt:x\"") (ascii "bar") (ascii "baz")
        = .ok (StructTagOf latin1Tables ([⟨ascii "json", ascii "foo"⟩] ++
          ⟨ascii "bar", (if strings.HasPrefix (ascii "baz") [0x2C] = false
            then ascii ",foo,fmt:x" ++ [0x2C] else ascii ",foo,fmt:x") ++ ascii "baz"⟩ :: []))
      ∧ StructTagOf latin1Tables ([⟨ascii "json", ascii "foo"⟩] ++
          ⟨ascii "bar", (if strings.HasPrefix (ascii "baz") [0x2C] = false
            then ascii ",foo,fmt:x" ++ [0x2C] else ascii ",foo,fmt:x") ++ ascii "baz"⟩ :: [])
        = ascii "json:\"foo\" bar:\",foo,fmt:x,baz\"" :=
  ⟨C5_append_when_absent latin1Tables (ascii "json:\"foo\" bar:\",foo,fmt:x\"") (ascii "bar")
      (ascii "baz") (ascii ",foo,fmt:x") [⟨ascii "json", ascii "foo"⟩] []
      [⟨ascii "foo", none⟩, ⟨ascii "fmt", some (ascii "x")⟩] (by decide) (by decide) (by decide)
      (by decide) (by decide),
    by decide⟩

/-- C9, as stated, fails for an invalid escape sequence: in `a:"\z"` the scan
finds the quoted value, `strconv.Unquote` rejects it, and the error returned is
the error of `strconv.Unquote`, which does not wrap `ErrUnpairedKey` and
carries no remainder. -/
theorem C9_counterexample :
    scanQuoted (ascii "\\z\"") = some 2
      ∧ strconv.Unquote (ascii "\"\\z\"") = none
      ∧ ParseStructTag (ascii "a:\"\\z\"") = .error .errSyntax
      ∧ TagError.errSyntax.wrapsErrUnpairedKey = false := by
  decide

/-- C9, amended: parse failure kinds.  `ParseStructTag` fails on every input
in which, after a text `pre` of zero or more well-formed entries, the next
entry `bad` has no colon after its key, or has a colon not immediately
followed by a double quote, or has an unterminated quoted value, or has a
quoted value that `strconv.Unquote` rejects (an invalid escape sequence).  In
the first two cases the error wraps `ErrUnpairedKey` and carries the remainder
`bad`; in the third it wraps `ErrUnpairedKey` and carries the key and the
remainder from the opening quote; in the fourth it is the syntax error of
`strconv.Unquote`, which does not wrap `ErrUnpairedKey`.  No entry list is
returned with an error. -/
theorem C9_parse_failure_kinds (pre bad : Str) (es : List Tag)
    (hpre : ParseStructTag pre = .ok es) (hne : bad ≠ []) (hsp : bad.head? ≠ some 0x20) :
    (bad.get? (keyLen bad) ≠ some 0x3A →
      ParseStructTag (pre ++ bad) = .error (.unpairedInput bad)
        ∧ (TagError.unpairedInput bad).wrapsErrUnpairedKey = true) ∧
    (bad.get? (keyLen bad + 1) ≠ some 0x22 →
      ParseStructTag (pre ++ bad) = .error (.unpairedInput bad)
        ∧ (TagError.unpairedInput bad).wrapsErrUnpairedKey = true) ∧
    (∀ key body, validKey key = true → bad = key ++ 0x3A :: 0x22 :: body →
      scanQuoted body = none →
      ParseStructTag (pre ++ bad) = .error (.unpairedName key (0x22 :: body))
        ∧ (TagError.unpairedName key (0x22 :: body)).wrapsErrUnpairedKey = true) ∧
    (∀ key q rest, validKey key = true → bad = key ++ 0x3A :: (q ++ rest) →
      q.head? = some 0x22 → 2 ≤ q.length → scanQuoted (q.drop 1 ++ rest) = some (q.length - 2) →
      strconv.Unquote q = none →
      ParseStructTag (pre ++ bad) = .error .errSyntax
        ∧ TagError.errSyntax.wrapsErrUnpairedKey = false) := by
  have hskip : skipSpaces bad = bad := by
    cases bad with
    | nil => exact absurd rfl hne
    | cons b t =>
      rw [skipSpaces_cons, if_neg]
      intro hb
      rw [hb] at hsp
      exact hsp rfl
  have hstep := parseStep_ready bad hne hskip
  have hfail : ∀ err, parseStep bad = .fail err → ParseStructTag (pre ++ bad) = .error err := by
    intro err he
    rw [ParseStructTag_append pre bad es hpre, parseFrom_eq, he]
  refine ⟨?_, ?_, ?_, ?_⟩
  · intro h
    refine ⟨hfail _ ?_, rfl⟩
    rw [hstep, if_pos (Or.inr (Or.inr (Or.inl h)))]
  · intro h
    refine ⟨hfail _ ?_, rfl⟩
    rw [hstep, if_pos (Or.inr (Or.inr (Or.inr h)))]
  · intro key body hk hb hs
    refine ⟨hfail _ ?_, rfl⟩
    rw [validKey_iff] at hk
    have hkl : keyLen bad = key.length := by
      rw [hb]
      exact keyLen_append key 0x3A _ hk.2 (by decide)
    have hpos : 0 < key.length := List.length_pos.mpr hk.1
    rw [hstep, hkl, hb, get?_append_at, get?_append_at_succ, if_neg (by
      simp only [not_or, not_le, ne_eq, not_not, List.length_append, List.length_cons]
      exact ⟨by omega, by omega, trivial, trivial⟩)]
    have hd : (key ++ 0x3A :: 0x22 :: body).drop (key.length + 1) = 0x22 :: body := by
      rw [List.drop_append_eq_append_drop, List.drop_eq_nil_of_le (by omega)]
      simp
    rw [hd, List.drop_succ_cons, List.drop_zero, hs, List.take_left]
  · intro key q rest hk hb hq hlen hs hu
    refine ⟨hfail _ ?_, rfl⟩
    obtain ⟨q2, rfl⟩ : ∃ q2, q = 0x22 :: q2 := by
      cases q with
      | nil => simp at hq
      | cons c q2 =>
        simp only [List.head?_cons, Option.some.injEq] at hq
        exact ⟨q2, by rw [hq]⟩
    rw [validKey_iff] at hk
    have hkl : keyLen bad = key.length := by
      rw [hb]
      exact keyLen_append key 0x3A _ hk.2 (by decide)
    have hpos : 0 < key.length := List.length_pos.mpr hk.1
    rw [hstep, hkl, hb, List.cons_append, get?_append_at, get?_append_at_succ, if_neg (by
      simp only [not_or, not_le, ne_eq, not_not, List.length_append, List.length_cons]
      exact ⟨by omega, by omega, trivial, trivial⟩)]
    have hd : (key ++ 0x3A :: 0x22 :: (q2 ++ rest)).drop (key.length + 1)
        = 0x22 :: (q2 ++ rest) := by
      rw [List.drop_append_eq_append_drop, List.drop_eq_nil_of_le (by omega)]
      simp
    simp only [List.drop_succ_cons, List.drop_zero, List.length_cons] at hs
    rw [hd, List.drop_succ_cons, List.drop_zero, hs]
    simp only
    have e1 : q2.length + 1 - 2 + 1 + 1 = (0x22 :: q2).length := by
      simp only [List.length_cons] at hlen ⊢
      omega
    rw [e1, ← List.cons_append, List.take_left, hu]

/-- C9 (amended) after the well-formed entry `a:"b"` and a space: a key with no
colon, a colon followed by no quote, an unterminated quoted value and an
invalid escape sequence. -/
theorem C9_parse_failure_kinds_witness :
    ParseStructTag (ascii "a:\"b\" " ++ ascii "key") = .error (.unpairedInput (ascii "key"))
      ∧ ParseStructTag (ascii "a:\"b\" " ++ ascii "key:val")
        = .error (.unpairedInput (ascii "key:val"))
      ∧ ParseStructTag (ascii "a:\"b\" " ++ ascii "key:\"abc")
        = .error (.unpairedName (ascii "key") (0x22 :: ascii "abc"))
      ∧ ParseStructTag (ascii "a:\"b\" " ++ ascii "key:\"\\z\" x:\"y\"") = .error .errSyntax :=
  ⟨((C9_parse_failure_kinds (ascii "a:\"b\" ") (ascii "key") [⟨ascii "a", ascii "b"⟩]
      (by decide) (by decide) (by decide)).1 (by decide)).1,
    ((C9_parse_failure_kinds (ascii "a:\"b\" ") (ascii "key:val") [⟨ascii "a", ascii "b"⟩]
      (by decide) (by decide) (by decide)).2.1 (by decide)).1,
    ((C9_parse_failure_kinds (ascii "a:\"b\" ") (ascii "key:\"abc") [⟨ascii "a", ascii "b"⟩]
      (by decide) (by decide) (by decide)).2.2.1 (ascii "key") (ascii "abc") (by decide)
      (by decide) (by decide)).1,
    ((C9_parse_failure_kinds (ascii "a:\"b\" ") (ascii "key:\"\\z\" x:\"y\"")
      [⟨ascii "a", ascii "b"⟩] (by decide) (by decide) (by decide)).2.2.2 (ascii "key")
      (ascii "\"\\z\"") (ascii " x:\"y\"") (by decide) (by decide) (by decide) (by decide)
      (by decide) (by decide)).1⟩

/-- C10 at the failing input `'abc'`: `readTagOption` returns the length 5 of
the token, and for its content the three bytes `'''`, not `abc`.  In the loop
of `unescape` the bytes appended at each step are `s[n:][:rn]`, where the
result `n` is still zero, so they are taken from the start of `s` and not from
the index `i` of the loop. -/
theorem C10_single_quoted_token_at_abc :
    readTagOption latin1Tables (ascii "'abc'") = .ok (ascii "'''", 5)
      ∧ readTagOption latin1Tables (ascii "'abc'") ≠ .ok (ascii "abc", 5) := by
  decide

/-! ### The walk of `MutateTag` -/

theorem nesting_struct (name : Str) (fields : List StructField) :
    (GoType.struct name fields).nesting = nestingFields fields + 1 := by
  rw [GoType.nesting]

theorem nestingFields_cons (f : StructField) (fs : List StructField) :
    nestingFields (f :: fs) = max (nestingField f) (nestingFields fs) := by
  rw [nestingFields]

theorem kind_struct_iff (t : GoType) :
    t.Kind = .Struct ↔ ∃ name fields, t = .struct name fields := by
  cases t <;> simp [GoType.Kind]

theorem kind_pointer_iff (t : GoType) :
    t.Kind = .Pointer ↔ ∃ elem, t = .pointer elem := by
  cases t <;> simp [GoType.Kind]

theorem kind_pointer (elem : GoType) : (GoType.pointer elem).Kind = .Pointer := rfl

theorem elem_pointer (elem : GoType) : (GoType.pointer elem).Elem = some elem := rfl

theorem nestingField_struct (f : StructField) (h : f.Typ.Kind = .Struct) :
    nestingField f = f.Typ.nesting := by
  obtain ⟨n, p, t, tg, a⟩ := f
  obtain ⟨name, fields, ht⟩ := (kind_struct_iff _).1 h
  simp only at ht
  subst ht
  rw [nestingField]
  intro elem he
  cases he

theorem nestingField_pointer (f : StructField) (e : GoType) (h : f.Typ = .pointer e) :
    nestingField f = e.nesting := by
  obtain ⟨n, p, t, tg, a⟩ := f
  simp only at h
  subst h
  rw [nestingField]

theorem nestingField_le (f : StructField) (fs : List StructField) (h : f ∈ fs) :
    nestingField f ≤ nestingFields fs := by
  induction fs with
  | nil => cases h
  | cons g gs ih =>
    rw [nestingFields_cons]
    rcases List.mem_cons.1 h with rfl | h
    · exact le_max_left _ _
    · exact le_trans (ih h) (le_max_right _ _)

/-- Whatever the recursive call gives, the loop body copies the name, the
package path and the embedded flag, and takes the annotation from the mutator
applied to the field as it was. -/
theorem mutateField_ok (skip : Skipper) (mutate : TagMutator)
    (recurse : GoType → Except Abort GoType) (f g : StructField)
    (h : mutateField skip mutate recurse f = .ok g) :
    g.Name = f.Name ∧ g.PkgPath = f.PkgPath ∧ g.Anonymous = f.Anonymous ∧ g.Tag = mutate f := by
  unfold mutateField at h
  simp only at h
  split at h
  · cases h
  · injection h with h
    subst h
    exact ⟨rfl, rfl, rfl, rfl⟩

theorem mutateField_skip (skip : Skipper) (mutate : TagMutator)
    (recurse : GoType → Except Abort GoType) (f : StructField) (h : skip f.Typ = true) :
    mutateField skip mutate recurse f =
      .ok { Name := f.Name, PkgPath := f.PkgPath, Typ := f.Typ, Tag := mutate f,
            Anonymous := f.Anonymous } := by
  unfold mutateField
  simp [h]

theorem mutateField_struct (skip : Skipper) (mutate : TagMutator)
    (recurse : GoType → Except Abort GoType) (f : StructField) (typ : GoType)
    (h : skip f.Typ = false) (hk : f.Typ.Kind = .Struct) (hr : recurse f.Typ = .ok typ) :
    mutateField skip mutate recurse f =
      .ok { Name := f.Name, PkgPath := f.PkgPath, Typ := typ, Tag := mutate f,
            Anonymous := f.Anonymous } := by
  unfold mutateField
  simp [h, hk, hr]

theorem mutateField_pointer (skip : Skipper) (mutate : TagMutator)
    (recurse : GoType → Except Abort GoType) (f : StructField) (elem typ : GoType)
    (h : skip f.Typ = false) (hp : f.Typ = .pointer elem) (hk : elem.Kind = .Struct)
    (hr : recurse elem = .ok typ) :
    mutateField skip mutate recurse f =
      .ok { Name := f.Name, PkgPath := f.PkgPath, Typ := PointerTo typ, Tag := mutate f,
            Anonymous := f.Anonymous } := by
  unfold mutateField
  rw [hp] at h
  simp [h, hp, kind_pointer, elem_pointer, hk, hr]

theorem mutateField_other (skip : Skipper) (mutate : TagMutator)
    (recurse : GoType → Except Abort GoType) (f : StructField)
    (hk : f.Typ.Kind ≠ .Struct) (hp : ∀ elem, f.Typ = .pointer elem → elem.Kind ≠ .Struct) :
    mutateField skip mutate recurse f =
      .ok { Name := f.Name, PkgPath := f.PkgPath, Typ := f.Typ, Tag := mutate f,
            Anonymous := f.Anonymous } := by
  unfold mutateField
  by_cases hs : skip f.Typ = true
  · simp [hs]
  · by_cases hptr : f.Typ.Kind = .Pointer
    · obtain ⟨elem, he⟩ := (kind_pointer_iff _).1 hptr
      have := hp elem he
      simp [hs, he, kind_pointer, elem_pointer, this]
    · simp [hs, hk, hptr]

theorem mutateFields_nil (skip : Skipper) (mutate : TagMutator)
    (recurse : GoType → Except Abort GoType) :
    mutateFields skip mutate recurse [] = .ok [] := rfl

theorem mutateFields_cons_ok (skip : Skipper) (mutate : TagMutator)
    (recurse : GoType → Except Abort GoType) (f g : StructField) (fs gs : List StructField)
    (hf : mutateField skip mutate recurse f = .ok g)
    (hfs : mutateFields skip mutate recurse fs = .ok gs) :
    mutateFields skip mutate recurse (f :: fs) = .ok (g :: gs) := by
  rw [mutateFields, hf]
  simp only [hfs]

theorem mutateFields_cons_inv (skip : Skipper) (mutate : TagMutator)
    (recurse : GoType → Except Abort GoType) (f : StructField) (fs out : List StructField)
    (h : mutateFields skip mutate recurse (f :: fs) = .ok out) :
    ∃ g gs, out = g :: gs ∧ mutateField skip mutate recurse f = .ok g ∧
      mutateFields skip mutate recurse fs = .ok gs := by
  rw [mutateFields] at h
  cases hf : mutateField skip mutate recurse f with
  | error e => rw [hf] at h; cases h
  | ok g =>
    rw [hf] at h
    simp only at h
    cases hfs : mutateFields skip mutate recurse fs with
    | error e => rw [hfs] at h; cases h
    | ok gs =>
      rw [hfs] at h
      simp only at h
      injection h with h
      exact ⟨g, gs, h.symm, rfl, rfl⟩

/-- The loop gives one output field for each field, in order. -/
theorem mutateFields_get (skip : Skipper) (mutate : TagMutator)
    (recurse : GoType → Except Abort GoType) (fs out : List StructField)
    (h : mutateFields skip mutate recurse fs = .ok out) :
    out.length = fs.length ∧
      ∀ i f, fs.get? i = some f →
        ∃ g, out.get? i = some g ∧ mutateField skip mutate recurse f = .ok g := by
  induction fs generalizing out with
  | nil =>
    rw [mutateFields_nil] at h
    injection h with h
    subst h
    exact ⟨rfl, fun i f hi => by simp at hi⟩
  | cons f fs ih =>
    obtain ⟨g, gs, rfl, hf, hfs⟩ := mutateFields_cons_inv skip mutate recurse f fs out h
    obtain ⟨hl, hget⟩ := ih gs hfs
    refine ⟨by simp [hl], fun i f1 hi => ?_⟩
    cases i with
    | zero =>
      simp only [List.get?_cons_zero, Option.some.injEq] at hi
      subst hi
      exact ⟨g, rfl, hf⟩
    | succ i =>
      simp only [List.get?_cons_succ] at hi
      obtain ⟨g1, hg1, hm⟩ := hget i f1 hi
      exact ⟨g1, by simpa using hg1, hm⟩

/-- The loop succeeds when its body succeeds on every field. -/
theorem mutateFields_ok (skip : Skipper) (mutate : TagMutator)
    (recurse : GoType → Except Abort GoType) (fs : List StructField)
    (h : ∀ f ∈ fs, ∃ g, mutateField skip mutate recurse f = .ok g) :
    ∃ out, mutateFields skip mutate recurse fs = .ok out := by
  induction fs with
  | nil => exact ⟨[], rfl⟩
  | cons f fs ih =>
    obtain ⟨g, hg⟩ := h f (List.mem_cons_self _ _)
    obtain ⟨gs, hgs⟩ := ih (fun f1 h1 => h f1 (List.mem_cons_of_mem _ h1))
    exact ⟨g :: gs, mutateFields_cons_ok skip mutate recurse f g fs gs hg hgs⟩

/-- The loop gives the same fields with a recursive call that agrees with the
first one wherever the first one succeeds. -/
theorem mutateField_congr (skip : Skipper) (mutate : TagMutator)
    (r1 r2 : GoType → Except Abort GoType) (hr : ∀ t r, r1 t = .ok r → r2 t = .ok r)
    (f g : StructField) (h : mutateField skip mutate r1 f = .ok g) :
    mutateField skip mutate r2 f = .ok g := by
  by_cases hs : skip f.Typ = true
  · rw [mutateField_skip _ _ _ _ hs] at h ⊢
    exact h
  · have hs : skip f.Typ = false := by simpa using hs
    by_cases hk : f.Typ.Kind = .Struct
    · cases h1 : r1 f.Typ with
      | error e =>
        unfold mutateField at h
        simp [hs, hk, h1] at h
      | ok typ =>
        rw [mutateField_struct _ _ _ _ typ hs hk h1] at h
        rw [mutateField_struct _ _ _ _ typ hs hk (hr _ _ h1)]
        exact h
    · by_cases hp : ∃ elem, f.Typ = .pointer elem ∧ elem.Kind = .Struct
      · obtain ⟨elem, he, hek⟩ := hp
        cases h1 : r1 elem with
        | error e =>
          unfold mutateField at h
          rw [he] at hs
          simp [hs, he, kind_pointer, elem_pointer, hek, h1] at h
        | ok typ =>
          rw [mutateField_pointer _ _ _ _ elem typ hs he hek h1] at h
          rw [mutateField_pointer _ _ _ _ elem typ hs he hek (hr _ _ h1)]
          exact h
      · have hp2 : ∀ elem, f.Typ = .pointer elem → elem.Kind ≠ .Struct :=
          fun elem he hek => hp ⟨elem, he, hek⟩
        rw [mutateField_other _ _ _ _ hk hp2] at h ⊢
        exact h

theorem mutateFields_congr (skip : Skipper) (mutate : TagMutator)
    (r1 r2 : GoType → Except Abort GoType) (hr : ∀ t r, r1 t = .ok r → r2 t = .ok r)
    (fs out : List StructField) (h : mutateFields skip mutate r1 fs = .ok out) :
    mutateFields skip mutate r2 fs = .ok out := by
  induction fs generalizing out with
  | nil => exact h
  | cons f fs ih =>
    obtain ⟨g, gs, rfl, hf, hfs⟩ := mutateFields_cons_inv skip mutate r1 f fs out h
    exact mutateFields_cons_ok skip mutate r2 f g fs gs
      (mutateField_congr skip mutate r1 r2 hr f g hf) (ih gs hfs)

/-- The loop body gives the same field with two recursive calls that agree on
the struct it enters. -/
theorem mutateField_ext (skip : Skipper) (mutate : TagMutator)
    (r1 r2 : GoType → Except Abort GoType) (f : StructField)
    (hs : f.Typ.Kind = .Struct → r1 f.Typ = r2 f.Typ)
    (hp : ∀ elem, f.Typ = .pointer elem → elem.Kind = .Struct → r1 elem = r2 elem) :
    mutateField skip mutate r1 f = mutateField skip mutate r2 f := by
  by_cases hsk : skip f.Typ = true
  · rw [mutateField_skip _ _ _ _ hsk, mutateField_skip _ _ _ _ hsk]
  · have hsk : skip f.Typ = false := by simpa using hsk
    by_cases hk : f.Typ.Kind = .Struct
    · unfold mutateField
      simp only [hsk, hk, hs hk]
      simp only [Bool.not_false, if_true]
    · by_cases hpt : ∃ elem, f.Typ = .pointer elem ∧ elem.Kind = .Struct
      · obtain ⟨elem, he, hek⟩ := hpt
        have hr := hp elem he hek
        unfold mutateField
        rw [he] at hsk
        simp only [he, hsk, kind_pointer, elem_pointer, hek, hr]
        simp +decide only [Bool.not_false, if_true, if_false]
      · have hp2 : ∀ elem, f.Typ = .pointer elem → elem.Kind ≠ .Struct :=
          fun elem he hek => hpt ⟨elem, he, hek⟩
        rw [mutateField_other _ _ _ _ hk hp2, mutateField_other _ _ _ _ hk hp2]

theorem mutateFields_ext (skip : Skipper) (mutate : TagMutator)
    (r1 r2 : GoType → Except Abort GoType) (fs : List StructField)
    (hs : ∀ f ∈ fs, f.Typ.Kind = .Struct → r1 f.Typ = r2 f.Typ)
    (hp : ∀ f ∈ fs, ∀ elem, f.Typ = .pointer elem → elem.Kind = .Struct → r1 elem = r2 elem) :
    mutateFields skip mutate r1 fs = mutateFields skip mutate r2 fs := by
  induction fs with
  | nil => rfl
  | cons f fs ih =>
    rw [mutateFields, mutateFields,
      mutateField_ext skip mutate r1 r2 f (hs f (List.mem_cons_self _ _))
        (hp f (List.mem_cons_self _ _)),
      ih (fun g hg => hs g (List.mem_cons_of_mem _ hg))
        (fun g hg => hp g (List.mem_cons_of_mem _ hg))]

/-- An error of the loop body is a panic or the error of the recursive call
on the struct it enters. -/
theorem mutateField_error_inv (skip : Skipper) (mutate : TagMutator)
    (r : GoType → Except Abort GoType) (f : StructField) (e : Abort)
    (h : mutateField skip mutate r f = .error e) :
    (f.Typ.Kind = .Struct ∧ r f.Typ = .error e) ∨
      ∃ elem, f.Typ = .pointer elem ∧ elem.Kind = .Struct ∧ r elem = .error e := by
  by_cases hsk : skip f.Typ = true
  · rw [mutateField_skip _ _ _ _ hsk] at h
    cases h
  · have hsk : skip f.Typ = false := by simpa using hsk
    by_cases hk : f.Typ.Kind = .Struct
    · left
      refine ⟨hk, ?_⟩
      cases hr : r f.Typ with
      | ok typ =>
        rw [mutateField_struct _ _ _ _ typ hsk hk hr] at h
        cases h
      | error e2 =>
        unfold mutateField at h
        simp only [hsk, hk, hr] at h
        simp only [Bool.not_false, if_true] at h
        injection h with h
        rw [h]
    · by_cases hpt : ∃ elem, f.Typ = .pointer elem ∧ elem.Kind = .Struct
      · obtain ⟨elem, he, hek⟩ := hpt
        right
        refine ⟨elem, he, hek, ?_⟩
        cases hr : r elem with
        | ok typ =>
          rw [mutateField_pointer _ _ _ _ elem typ hsk he hek hr] at h
          cases h
        | error e2 =>
          unfold mutateField at h
          rw [he] at hsk
          simp only [he, hsk, kind_pointer, elem_pointer, hek, hr] at h
          simp +decide only [Bool.not_false, if_true, if_false] at h
          injection h with h
          rw [h]
      · have hp2 : ∀ elem, f.Typ = .pointer elem → elem.Kind ≠ .Struct :=
          fun elem he hek => hpt ⟨elem, he, hek⟩
        rw [mutateField_other _ _ _ _ hk hp2] at h
        cases h

theorem mutateFields_error_inv (skip : Skipper) (mutate : TagMutator)
    (r : GoType → Except Abort GoType) (fs : List StructField) (e : Abort)
    (h : mutateFields skip mutate r fs = .error e) :
    ∃ f ∈ fs, (f.Typ.Kind = .Struct ∧ r f.Typ = .error e) ∨
      ∃ elem, f.Typ = .pointer elem ∧ elem.Kind = .Struct ∧ r elem = .error e := by
  induction fs with
  | nil => cases h
  | cons f fs ih =>
    rw [mutateFields] at h
    cases hf : mutateField skip mutate r f with
    | error e2 =>
      rw [hf] at h
      simp only at h
      injection h with h
      subst h
      exact ⟨f, List.mem_cons_self _ _, mutateField_error_inv skip mutate r f e2 hf⟩
    | ok g =>
      rw [hf] at h
      simp only at h
      cases hfs : mutateFields skip mutate r fs with
      | error e2 =>
        rw [hfs] at h
        simp only at h
        injection h with h
        subst h
        obtain ⟨f1, hf1, hcase⟩ := ih hfs
        exact ⟨f1, List.mem_cons_of_mem _ hf1, hcase⟩
      | ok gs =>
        rw [hfs] at h
        cases h

/-! ### `reflect.StructOf` -/

theorem StructOf_ok_inv (R : Reflect) (fields : List StructField) (t : GoType)
    (h : StructOf R fields = .ok t) : t = .struct [] fields := by
  unfold StructOf at h
  split_ifs at h
  injection h with h
  exact h.symm

theorem StructOf_nil (R : Reflect) : StructOf R [] = .ok (.struct [] []) := by
  unfold StructOf
  rw [if_neg (by simp), if_neg (by simp [R.refuses_nil])]

theorem StructOf_cases (R : Reflect) (fields : List StructField) :
    StructOf R fields = .ok (.struct [] fields) ∨ StructOf R fields = .error .panic := by
  unfold StructOf
  split_ifs
  · exact Or.inr rfl
  · exact Or.inr rfl
  · exact Or.inl rfl

/-- An embedded field with a package path makes `reflect.StructOf` panic. -/
theorem StructOf_embedded (R : Reflect) (fields : List StructField) (f : StructField)
    (hf : f ∈ fields) (ha : f.Anonymous = true) (hp : f.PkgPath ≠ []) :
    StructOf R fields = .error .panic := by
  unfold StructOf
  rw [if_pos]
  rw [List.any_eq_true]
  refine ⟨f, hf, ?_⟩
  cases hpk : f.PkgPath with
  | nil => exact absurd hpk hp
  | cons b t => simp [ha]

/-! ### `MutateTag` and its loop -/

theorem mutateOne_eq (R : Reflect) (skip : Skipper) (mutate : TagMutator) (f : StructField) :
    mutateOne R f skip mutate
      = mutateField skip mutate (fun t => MutateTag R t skip mutate) f := by
  obtain ⟨name, pkg, typ, tag, anon⟩ := f
  cases typ with
  | pointer elem =>
    rw [mutateOne]
    unfold mutateField
    simp only [kind_pointer, elem_pointer]
    by_cases hs : skip (.pointer elem) = true
    · simp [hs]
    · have hs : skip (.pointer elem) = false := by simpa using hs
      by_cases hk : elem.Kind = .Struct
      · simp only [hs, hk]
        simp +decide only [Bool.not_false, if_true, if_false]
      · simp +decide [hs, hk]
  | scalar n =>
    rw [mutateOne]
    · unfold mutateField
      simp +decide [GoType.Kind]
    · intro elem h
      cases h
  | iface n =>
    rw [mutateOne]
    · unfold mutateField
      simp +decide [GoType.Kind]
    · intro elem h
      cases h
  | slice e =>
    rw [mutateOne]
    · unfold mutateField
      simp +decide [GoType.Kind]
    · intro elem h
      cases h
  | map k e =>
    rw [mutateOne]
    · unfold mutateField
      simp +decide [GoType.Kind]
    · intro elem h
      cases h
  | struct n fs =>
    rw [mutateOne]
    · unfold mutateField
      simp +decide [GoType.Kind]
    · intro elem h
      cases h

theorem mutateLoop_eq (R : Reflect) (skip : Skipper) (mutate : TagMutator)
    (fs : List StructField) :
    mutateLoop R fs skip mutate
      = mutateFields skip mutate (fun t => MutateTag R t skip mutate) fs := by
  induction fs with
  | nil =>
    rw [mutateLoop]
    rfl
  | cons f fs ih =>
    rw [mutateLoop, mutateFields, mutateOne_eq, ih]

theorem MutateTag_struct_ok (R : Reflect) (skip : Skipper) (mutate : TagMutator) (name : Str)
    (fields out : List StructField)
    (h : mutateFields skip mutate (fun t => MutateTag R t skip mutate) fields = .ok out) :
    MutateTag R (.struct name fields) skip mutate = StructOf R out := by
  rw [MutateTag, mutateLoop_eq, h]

theorem MutateTag_struct_error (R : Reflect) (skip : Skipper) (mutate : TagMutator) (name : Str)
    (fields : List StructField) (e : Abort)
    (h : mutateFields skip mutate (fun t => MutateTag R t skip mutate) fields = .error e) :
    MutateTag R (.struct name fields) skip mutate = .error e := by
  rw [MutateTag, mutateLoop_eq, h]

/-- On a type that is not a struct `MutateTag` panics (in `rt.NumField()`). -/
theorem MutateTag_not_struct (R : Reflect) (skip : Skipper) (mutate : TagMutator) (rt : GoType)
    (h : rt.Kind ≠ .Struct) : MutateTag R rt skip mutate = .error .panic := by
  cases rt with
  | struct n fs => exact absurd rfl h
  | scalar n => rw [MutateTag]; intro n fs h; cases h
  | iface n => rw [MutateTag]; intro n fs h; cases h
  | slice e => rw [MutateTag]; intro n fs h; cases h
  | map k e => rw [MutateTag]; intro n fs h; cases h
  | pointer e => rw [MutateTag]; intro n fs h; cases h

/-- A call of `MutateTag` that returns a type was made on a struct; the type
is the unnamed struct of the fields its loop gives, which `reflect.StructOf`
accepts. -/
theorem MutateTag_ok_inv (R : Reflect) (skip : Skipper) (mutate : TagMutator) (rt t : GoType)
    (h : MutateTag R rt skip mutate = .ok t) :
    ∃ name fields out, rt = .struct name fields ∧ t = .struct [] out ∧
      mutateFields skip mutate (fun t => MutateTag R t skip mutate) fields = .ok out := by
  by_cases hk : rt.Kind = .Struct
  · obtain ⟨name, fields, rfl⟩ := (kind_struct_iff _).1 hk
    cases hm : mutateFields skip mutate (fun t => MutateTag R t skip mutate) fields with
    | error e =>
      rw [MutateTag_struct_error R skip mutate name fields e hm] at h
      cases h
    | ok out =>
      rw [MutateTag_struct_ok R skip mutate name fields out hm] at h
      exact ⟨name, fields, out, rfl, StructOf_ok_inv R out t h, hm⟩
  · rw [MutateTag_not_struct R skip mutate rt hk] at h
    cases h

theorem MutateTagWithin_zero (R : Reflect) (skip : Skipper) (mutate : TagMutator) (rt : GoType) :
    MutateTagWithin R skip mutate 0 rt = .error .tooDeep := by
  rw [MutateTagWithin]

theorem MutateTagWithin_struct_ok (R : Reflect) (skip : Skipper) (mutate : TagMutator) (d : Nat)
    (name : Str) (fields out : List StructField)
    (h : mutateFields skip mutate (MutateTagWithin R skip mutate d) fields = .ok out) :
    MutateTagWithin R skip mutate (d + 1) (.struct name fields) = StructOf R out := by
  rw [MutateTagWithin]
  simp only [GoType.Fields, h]

theorem MutateTagWithin_struct_error (R : Reflect) (skip : Skipper) (mutate : TagMutator)
    (d : Nat) (name : Str) (fields : List StructField) (e : Abort)
    (h : mutateFields skip mutate (MutateTagWithin R skip mutate d) fields = .error e) :
    MutateTagWithin R skip mutate (d + 1) (.struct name fields) = .error e := by
  rw [MutateTagWithin]
  simp only [GoType.Fields, h]

/-- The nesting depth bounds the depth of the calls: on a struct type, a bound
of at least the nesting depth gives what `MutateTag` gives. -/
theorem MutateTagWithin_eq (R : Reflect) (skip : Skipper) (mutate : TagMutator) (d : Nat) :
    ∀ rt, rt.Kind = .Struct → rt.nesting ≤ d →
      MutateTagWithin R skip mutate d rt = MutateTag R rt skip mutate := by
  induction d with
  | zero =>
    intro rt hk hn
    obtain ⟨name, fields, rfl⟩ := (kind_struct_iff _).1 hk
    rw [nesting_struct] at hn
    omega
  | succ d ih =>
    intro rt hk hn
    obtain ⟨name, fields, rfl⟩ := (kind_struct_iff _).1 hk
    rw [nesting_struct] at hn
    have hfs : nestingFields fields ≤ d := by omega
    have hext : mutateFields skip mutate (MutateTagWithin R skip mutate d) fields
        = mutateFields skip mutate (fun t => MutateTag R t skip mutate) fields := by
      refine mutateFields_ext skip mutate _ _ fields ?_ ?_
      · intro f hf hks
        have hle := nestingField_le f fields hf
        rw [nestingField_struct f hks] at hle
        exact ih f.Typ hks (by omega)
      · intro f hf elem he hek
        have hle := nestingField_le f fields hf
        rw [nestingField_pointer f elem he] at hle
        exact ih elem hek (by omega)
    cases hm : mutateFields skip mutate (fun t => MutateTag R t skip mutate) fields with
    | error e =>
      rw [MutateTag_struct_error R skip mutate name fields e hm,
        MutateTagWithin_struct_error R skip mutate d name fields e (by rw [hext, hm])]
    | ok out =>
      rw [MutateTag_struct_ok R skip mutate name fields out hm,
        MutateTagWithin_struct_ok R skip mutate d name fields out (by rw [hext, hm])]

/-- No call of `MutateTag` ends for want of depth: it gives a type or it
panics. -/
theorem MutateTag_cases (R : Reflect) (skip : Skipper) (mutate : TagMutator) (d : Nat) :
    ∀ rt : GoType, rt.nesting ≤ d →
      (∃ t, MutateTag R rt skip mutate = .ok t) ∨ MutateTag R rt skip mutate = .error .panic := by
  induction d with
  | zero =>
    intro rt hn
    by_cases hk : rt.Kind = .Struct
    · obtain ⟨name, fields, rfl⟩ := (kind_struct_iff _).1 hk
      rw [nesting_struct] at hn
      omega
    · exact Or.inr (MutateTag_not_struct R skip mutate rt hk)
  | succ d ih =>
    intro rt hn
    by_cases hk : rt.Kind = .Struct
    · obtain ⟨name, fields, rfl⟩ := (kind_struct_iff _).1 hk
      rw [nesting_struct] at hn
      cases hm : mutateFields skip mutate (fun t => MutateTag R t skip mutate) fields with
      | error e =>
        right
        rw [MutateTag_struct_error R skip mutate name fields e hm]
        obtain ⟨f, hf, hcase⟩ := mutateFields_error_inv skip mutate _ fields e hm
        have hle := nestingField_le f fields hf
        rcases hcase with ⟨hks, hr⟩ | ⟨elem, he, hek, hr⟩
        · rw [nestingField_struct f hks] at hle
          rcases ih f.Typ (by omega) with ⟨t, ht⟩ | hp
          · rw [ht] at hr
            cases hr
          · rw [hp] at hr
            exact hr.symm
        · rw [nestingField_pointer f elem he] at hle
          rcases ih elem (by omega) with ⟨t, ht⟩ | hp
          · rw [ht] at hr
            cases hr
          · rw [hp] at hr
            exact hr.symm
      | ok out =>
        rw [MutateTag_struct_ok R skip mutate name fields out hm]
        rcases StructOf_cases R out with h | h
        · exact Or.inl ⟨_, h⟩
        · exact Or.inr h
    · exact Or.inr (MutateTag_not_struct R skip mutate rt hk)

/-- The type the loop body gives a struct field it enters is the type the
recursive call gives. -/
theorem mutateField_struct_inv (skip : Skipper) (mutate : TagMutator)
    (r : GoType → Except Abort GoType) (f g : StructField)
    (hs : skip f.Typ = false) (hk : f.Typ.Kind = .Struct)
    (h : mutateField skip mutate r f = .ok g) : r f.Typ = .ok g.Typ := by
  cases hr : r f.Typ with
  | ok typ =>
    rw [mutateField_struct _ _ _ _ typ hs hk hr] at h
    injection h with h
    rw [← h]
  | error e =>
    unfold mutateField at h
    simp only [hs, hk, hr] at h
    simp only [Bool.not_false, if_true] at h
    cases h

/-- The type the loop body gives a field that is a pointer to a struct it
enters is the pointer to the type the recursive call gives. -/
theorem mutateField_pointer_inv (skip : Skipper) (mutate : TagMutator)
    (r : GoType → Except Abort GoType) (f g : StructField) (elem : GoType)
    (hs : skip f.Typ = false) (he : f.Typ = .pointer elem) (hek : elem.Kind = .Struct)
    (h : mutateField skip mutate r f = .ok g) :
    ∃ elem1, r elem = .ok elem1 ∧ g.Typ = .pointer elem1 := by
  cases hr : r elem with
  | ok typ =>
    rw [mutateField_pointer _ _ _ _ elem typ hs he hek hr] at h
    injection h with h
    exact ⟨typ, rfl, by rw [← h]; rfl⟩
  | error e =>
    unfold mutateField at h
    rw [he] at hs
    simp only [he, hs, kind_pointer, elem_pointer, hek, hr] at h
    simp +decide only [Bool.not_false, if_true, if_false] at h
    cases h

/-- A struct with an embedded field that has a package path is never rebuilt:
`reflect.StructOf` panics on the fields of the loop. -/
theorem MutateTag_embedded (R : Reflect) (skip : Skipper) (mutate : TagMutator) (name : Str)
    (fields : List StructField) (f : StructField) (hf : f ∈ fields)
    (ha : f.Anonymous = true) (hp : f.PkgPath ≠ []) (t : GoType) :
    MutateTag R (.struct name fields) skip mutate ≠ .ok t := by
  intro h
  obtain ⟨name1, fields1, out, hrt, _, hm⟩ := MutateTag_ok_inv R skip mutate _ t h
  injection hrt with _ hfs
  subst hfs
  obtain ⟨_, hget⟩ := mutateFields_get skip mutate _ fields out hm
  obtain ⟨i, hi⟩ := List.get?_of_mem hf
  obtain ⟨g, hg, hfg⟩ := hget i f hi
  obtain ⟨_, h2, h3, _⟩ := mutateField_ok skip mutate _ f g hfg
  have hgm : g ∈ out := List.get?_mem hg
  rw [MutateTag_struct_ok R skip mutate name fields out hm,
    StructOf_embedded R out g hgm (by rw [h3, ha]) (by rw [h2]; exact hp)] at h
  cases h

/-! ### Claims on `MutateTag` and `AddOption` -/

/-- C14, as stated: a struct with an embedded field of an unexported struct
type (the field has a package path and the embedded flag) is not rebuilt.
`MutateTag` copies both into the field it hands to `reflect.StructOf`, which
panics ("is anonymous but has PkgPath set"), so no struct type is given, with
no further refusal of `reflect.StructOf` and with any. -/
theorem C14_counterexample :
    MutateTag plainReflect
        (.struct (ascii "outer")
          [⟨ascii "hInner", ascii "main", .struct (ascii "hInner") [], [], true⟩])
        (fun _ => false) (fun sf => sf.Tag) = .error .panic ∧
      ∀ (R : Reflect) (skip : Skipper) (mutate : TagMutator) (t : GoType),
        MutateTag R
          (.struct (ascii "outer")
            [⟨ascii "hInner", ascii "main", .struct (ascii "hInner") [], [], true⟩])
          skip mutate ≠ .ok t :=
  ⟨by rfl, fun R skip mutate t =>
    MutateTag_embedded R skip mutate _ _ _ (List.mem_singleton.2 rfl) rfl (by decide) t⟩

/-- C14, amended (shape preservation): every call of `MutateTag` on a struct
type that returns a type returns the unnamed struct type of as many fields as
the source has, whose i-th field has the name, the package path and the
embedded flag of the i-th field of the source; a struct without fields always
gives the struct without fields. -/
theorem C14_shape_preservation (R : Reflect) (name : Str) (fields : List StructField)
    (skip : Skipper) (mutate : TagMutator) (T1 : GoType)
    (h : MutateTag R (.struct name fields) skip mutate = .ok T1) :
    (∃ out, T1 = .struct [] out ∧
      out.length = fields.length ∧
      (∀ i f, fields.get? i = some f →
        ∃ g, out.get? i = some g ∧ g.Name = f.Name ∧ g.PkgPath = f.PkgPath ∧
          g.Anonymous = f.Anonymous) ∧
      (fields = [] → out = [])) ∧
    MutateTag R (.struct name []) skip mutate = .ok (.struct [] []) := by
  obtain ⟨name1, fields1, out, hrt, hT, hm⟩ := MutateTag_ok_inv R skip mutate _ T1 h
  injection hrt with _ hfs
  subst hfs
  obtain ⟨hl, hget⟩ := mutateFields_get skip mutate _ fields out hm
  refine ⟨⟨out, hT, hl, ?_, ?_⟩, ?_⟩
  · intro i f hi
    obtain ⟨g, hg, hf⟩ := hget i f hi
    obtain ⟨h1, h2, h3, _⟩ := mutateField_ok skip mutate _ f g hf
    exact ⟨g, hg, h1, h2, h3⟩
  · intro hnil
    subst hnil
    exact List.eq_nil_of_length_eq_zero hl
  · rw [MutateTag_struct_ok R skip mutate name [] [] rfl, StructOf_nil]

theorem C14_shape_preservation_witness :
    MutateTag plainReflect
        (.struct (ascii "Outer")
          [⟨ascii "In", [], .pointer (.struct (ascii "Inner")
              [⟨ascii "n", ascii "main", .scalar (ascii "int"), ascii "json:\"n\"", false⟩]),
            ascii "json:\"in\"", false⟩])
        (fun _ => false) (fun sf => sf.Tag)
      = .ok (.struct []
          [⟨ascii "In", [], .pointer (.struct []
              [⟨ascii "n", ascii "main", .scalar (ascii "int"), ascii "json:\"n\"", false⟩]),
            ascii "json:\"in\"", false⟩]) ∧
    ((∃ out, GoType.struct []
          [⟨ascii "In", [], .pointer (.struct []
              [⟨ascii "n", ascii "main", .scalar (ascii "int"), ascii "json:\"n\"", false⟩]),
            ascii "json:\"in\"", false⟩] = .struct [] out ∧
      out.length = [(⟨ascii "In", [], .pointer (.struct (ascii "Inner")
              [⟨ascii "n", ascii "main", .scalar (ascii "int"), ascii "json:\"n\"", false⟩]),
            ascii "json:\"in\"", false⟩ : StructField)].length ∧
      (∀ i f, [(⟨ascii "In", [], .pointer (.struct (ascii "Inner")
              [⟨ascii "n", ascii "main", .scalar (ascii "int"), ascii "json:\"n\"", false⟩]),
            ascii "json:\"in\"", false⟩ : StructField)].get? i = some f →
        ∃ g, out.get? i = some g ∧ g.Name = f.Name ∧ g.PkgPath = f.PkgPath ∧
          g.Anonymous = f.Anonymous) ∧
      ([(⟨ascii "In", [], .pointer (.struct (ascii "Inner")
              [⟨ascii "n", ascii "main", .scalar (ascii "int"), ascii "json:\"n\"", false⟩]),
            ascii "json:\"in\"", false⟩ : StructField)] = [] → out = [])) ∧
    MutateTag plainReflect (.struct (ascii "Outer") []) (fun _ => false) (fun sf => sf.Tag)
      = .ok (.struct [] [])) :=
  ⟨by rfl, C14_shape_preservation plainReflect _ _ _ _ _ (by rfl)⟩

/-- C15 (declared type of each output field): in every call of `MutateTag` on
a struct type that returns a type, that type is the unnamed struct of fields
of which the i-th has as its type what `MutateTag` returns for the field type
when the skip predicate is false of it and it is a struct, the pointer to what
`MutateTag` returns for the element when the skip predicate is false of it and
it is a pointer to a struct, and the field type itself otherwise: whenever the
skip predicate is true of it, and for scalar, interface, slice, map and
pointer-to-pointer types whatever the skip predicate says.  (The calls that
return no type are those of C14, where `reflect.StructOf` panics.) -/
theorem C15_declared_type_of_output_field (R : Reflect) (name : Str)
    (fields : List StructField) (skip : Skipper) (mutate : TagMutator) (T1 : GoType)
    (h : MutateTag R (.struct name fields) skip mutate = .ok T1) :
    ∃ out, T1 = .struct [] out ∧ out.length = fields.length ∧
      ∀ i f, fields.get? i = some f →
        ∃ g, out.get? i = some g ∧
          (skip f.Typ = false → f.Typ.Kind = .Struct →
            MutateTag R f.Typ skip mutate = .ok g.Typ) ∧
          (skip f.Typ = false → ∀ E, f.Typ = .pointer E → E.Kind = .Struct →
            ∃ E1, MutateTag R E skip mutate = .ok E1 ∧ g.Typ = .pointer E1) ∧
          (skip f.Typ = true → g.Typ = f.Typ) ∧
          (f.Typ.Kind ≠ .Struct → (∀ E, f.Typ = .pointer E → E.Kind ≠ .Struct) →
            g.Typ = f.Typ) ∧
          (f.Typ.Kind = .Scalar ∨ f.Typ.Kind = .Interface ∨ f.Typ.Kind = .Slice ∨
            f.Typ.Kind = .Map ∨ (∃ E, f.Typ = .pointer (.pointer E)) → g.Typ = f.Typ) := by
  obtain ⟨name1, fields1, out, hrt, hT, hm⟩ := MutateTag_ok_inv R skip mutate _ T1 h
  injection hrt with _ hfs
  subst hfs
  obtain ⟨hl, hget⟩ := mutateFields_get skip mutate _ fields out hm
  refine ⟨out, hT, hl, ?_⟩
  intro i f hi
  obtain ⟨g, hg, hf⟩ := hget i f hi
  have hother : f.Typ.Kind ≠ .Struct → (∀ E, f.Typ = .pointer E → E.Kind ≠ .Struct) →
      g.Typ = f.Typ := by
    intro hk hp
    rw [mutateField_other _ _ _ _ hk hp] at hf
    injection hf with hf
    rw [← hf]
  refine ⟨g, hg, ?_, ?_, ?_, hother, ?_⟩
  · intro hs hk
    exact mutateField_struct_inv skip mutate (fun t => MutateTag R t skip mutate) f g hs hk hf
  · intro hs E he hk
    exact mutateField_pointer_inv skip mutate (fun t => MutateTag R t skip mutate) f g E hs he
      hk hf
  · intro hs
    rw [mutateField_skip _ _ _ _ hs] at hf
    injection hf with hf
    rw [← hf]
  · intro h
    rcases h with h | h | h | h | ⟨E, h⟩
    · exact hother (by rw [h]; decide) (fun E he => by rw [he, kind_pointer] at h; cases h)
    · exact hother (by rw [h]; decide) (fun E he => by rw [he, kind_pointer] at h; cases h)
    · exact hother (by rw [h]; decide) (fun E he => by rw [he, kind_pointer] at h; cases h)
    · exact hother (by rw [h]; decide) (fun E he => by rw [he, kind_pointer] at h; cases h)
    · refine hother (by rw [h, kind_pointer]; decide) (fun E1 he => ?_)
      rw [h] at he
      injection he with he
      rw [← he, kind_pointer]
      decide

theorem C15_declared_type_of_output_field_witness :
    MutateTag plainReflect (.struct (ascii "Outer")
      [(⟨ascii "In", [], .pointer (.struct (ascii "Inner")
          [⟨ascii "N", [], .scalar (ascii "int"), ascii "json:\"n\"", false⟩]),
        ascii "json:\"in\"", false⟩ : StructField)]) (fun _ => false) (fun sf => sf.Tag)
      = .ok (.struct []
      [(⟨ascii "In", [], .pointer (.struct []
          [⟨ascii "N", [], .scalar (ascii "int"), ascii "json:\"n\"", false⟩]),
        ascii "json:\"in\"", false⟩ : StructField)]) ∧
    ∃ out, GoType.struct []
      [(⟨ascii "In", [], .pointer (.struct []
          [⟨ascii "N", [], .scalar (ascii "int"), ascii "json:\"n\"", false⟩]),
        ascii "json:\"in\"", false⟩ : StructField)] = .struct [] out ∧
      out.length = ([(⟨ascii "In", [], .pointer (.struct (ascii "Inner")
          [⟨ascii "N", [], .scalar (ascii "int"), ascii "json:\"n\"", false⟩]),
        ascii "json:\"in\"", false⟩ : StructField)]).length ∧
      ∀ i f, ([(⟨ascii "In", [], .pointer (.struct (ascii "Inner")
          [⟨ascii "N", [], .scalar (ascii "int"), ascii "json:\"n\"", false⟩]),
        ascii "json:\"in\"", false⟩ : StructField)]).get? i = some f →
        ∃ g, out.get? i = some g ∧
          ((fun _ => false) f.Typ = false → f.Typ.Kind = .Struct →
            MutateTag plainReflect f.Typ (fun _ => false) (fun sf => sf.Tag) = .ok g.Typ) ∧
          ((fun _ => false) f.Typ = false → ∀ E, f.Typ = .pointer E → E.Kind = .Struct →
            ∃ E1, MutateTag plainReflect E (fun _ => false) (fun sf => sf.Tag) = .ok E1 ∧
              g.Typ = .pointer E1) ∧
          ((fun _ => false) f.Typ = true → g.Typ = f.Typ) ∧
          (f.Typ.Kind ≠ .Struct → (∀ E, f.Typ = .pointer E → E.Kind ≠ .Struct) →
            g.Typ = f.Typ) ∧
          (f.Typ.Kind = .Scalar ∨ f.Typ.Kind = .Interface ∨ f.Typ.Kind = .Slice ∨
            f.Typ.Kind = .Map ∨ (∃ E, f.Typ = .pointer (.pointer E)) → g.Typ = f.Typ) :=
  ⟨by rfl, C15_declared_type_of_output_field plainReflect (ascii "Outer")
      [(⟨ascii "In", [], .pointer (.struct (ascii "Inner")
          [⟨ascii "N", [], .scalar (ascii "int"), ascii "json:\"n\"", false⟩]),
        ascii "json:\"in\"", false⟩ : StructField)] (fun _ => false) (fun sf => sf.Tag) _ (by rfl)⟩

/-- C16 (the mutator sees the original field): in every call of `MutateTag` on
a struct type that returns a type, that type is the unnamed struct of as many
fields as the source has, and the annotation of its i-th field is the mutator
applied to the i-th field of the source as it was, with its original type and
annotation, whatever the skip predicate says of the field type.  The same
holds of every nested struct that the walk enters, directly or behind a
pointer: the type of the output field is, or points to, the unnamed struct
that the call of `MutateTag` on the nested struct returns, of as many fields,
the annotation of each being the mutator applied to the nested field as it
was.  (The calls that return no type are those of C14, where
`reflect.StructOf` panics.) -/
theorem C16_mutator_sees_original_field (R : Reflect) (name : Str)
    (fields : List StructField) (skip : Skipper) (mutate : TagMutator) (T1 : GoType)
    (h : MutateTag R (.struct name fields) skip mutate = .ok T1) :
    ∃ out, T1 = .struct [] out ∧ out.length = fields.length ∧
      ∀ i f, fields.get? i = some f →
        ∃ g, out.get? i = some g ∧ g.Tag = mutate f ∧
          ∀ name2 fields2, skip f.Typ = false →
            f.Typ = .struct name2 fields2 ∨ f.Typ = .pointer (.struct name2 fields2) →
            ∃ out2, MutateTag R (.struct name2 fields2) skip mutate = .ok (.struct [] out2) ∧
              (f.Typ = .struct name2 fields2 → g.Typ = .struct [] out2) ∧
              (f.Typ = .pointer (.struct name2 fields2) → g.Typ = .pointer (.struct [] out2)) ∧
              out2.length = fields2.length ∧
              ∀ j f2, fields2.get? j = some f2 →
                ∃ g2, out2.get? j = some g2 ∧ g2.Tag = mutate f2 := by
  obtain ⟨name1, fields1, out, hrt, hT, hm⟩ := MutateTag_ok_inv R skip mutate _ T1 h
  injection hrt with _ hfs
  subst hfs
  obtain ⟨hl, hget⟩ := mutateFields_get skip mutate _ fields out hm
  refine ⟨out, hT, hl, ?_⟩
  intro i f hi
  obtain ⟨g, hg, hf⟩ := hget i f hi
  refine ⟨g, hg, (mutateField_ok skip mutate _ f g hf).2.2.2, ?_⟩
  intro name2 fields2 hs hty
  have hcall : ∃ t2, MutateTag R (.struct name2 fields2) skip mutate = .ok t2 ∧
      (f.Typ = .struct name2 fields2 → g.Typ = t2) ∧
      (f.Typ = .pointer (.struct name2 fields2) → g.Typ = .pointer t2) := by
    rcases hty with hty | hty
    · have hk : f.Typ.Kind = .Struct := by rw [hty]; rfl
      have hr := mutateField_struct_inv skip mutate (fun t => MutateTag R t skip mutate) f g hs
        hk hf
      rw [hty] at hr
      refine ⟨g.Typ, hr, fun _ => rfl, fun hp => ?_⟩
      rw [hty] at hp
      cases hp
    · obtain ⟨E1, hr, hg1⟩ := mutateField_pointer_inv skip mutate
        (fun t => MutateTag R t skip mutate) f g (.struct name2 fields2) hs hty rfl hf
      refine ⟨E1, hr, fun hp => ?_, fun _ => hg1⟩
      rw [hty] at hp
      cases hp
  obtain ⟨t2, ht2, hst, hpt⟩ := hcall
  obtain ⟨name3, fields3, out2, hrt2, hT2, hm2⟩ := MutateTag_ok_inv R skip mutate _ t2 ht2
  injection hrt2 with _ hfs2
  subst hfs2
  subst hT2
  obtain ⟨hl2, hget2⟩ := mutateFields_get skip mutate _ fields2 out2 hm2
  refine ⟨out2, ht2, hst, hpt, hl2, ?_⟩
  intro j f2 hj
  obtain ⟨g2, hg2, hf2⟩ := hget2 j f2 hj
  exact ⟨g2, hg2, (mutateField_ok skip mutate _ f2 g2 hf2).2.2.2⟩

theorem C16_mutator_sees_original_field_witness :
    MutateTag plainReflect (.struct (ascii "Outer")
      [(⟨ascii "In", [], .pointer (.struct (ascii "Inner")
          [⟨ascii "N", [], .scalar (ascii "int"), ascii "json:\"n\"", false⟩]),
        ascii "json:\"in\"", false⟩ : StructField)]) (fun _ => false) (fun sf => sf.Name)
      = .ok (.struct []
      [(⟨ascii "In", [], .pointer (.struct []
          [⟨ascii "N", [], .scalar (ascii "int"), ascii "N", false⟩]),
        ascii "In", false⟩ : StructField)]) ∧
    ∃ out, GoType.struct []
      [(⟨ascii "In", [], .pointer (.struct []
          [⟨ascii "N", [], .scalar (ascii "int"), ascii "N", false⟩]),
        ascii "In", false⟩ : StructField)] = .struct [] out ∧
      out.length = ([(⟨ascii "In", [], .pointer (.struct (ascii "Inner")
          [⟨ascii "N", [], .scalar (ascii "int"), ascii "json:\"n\"", false⟩]),
        ascii "json:\"in\"", false⟩ : StructField)]).length ∧
      ∀ i f, ([(⟨ascii "In", [], .pointer (.struct (ascii "Inner")
          [⟨ascii "N", [], .scalar (ascii "int"), ascii "json:\"n\"", false⟩]),
        ascii "json:\"in\"", false⟩ : StructField)]).get? i = some f →
        ∃ g, out.get? i = some g ∧ g.Tag = (fun sf : StructField => sf.Name) f ∧
          ∀ name2 fields2, (fun _ => false) f.Typ = false →
            f.Typ = .struct name2 fields2 ∨ f.Typ = .pointer (.struct name2 fields2) →
            ∃ out2, MutateTag plainReflect (.struct name2 fields2) (fun _ => false)
                (fun sf => sf.Name) = .ok (.struct [] out2) ∧
              (f.Typ = .struct name2 fields2 → g.Typ = .struct [] out2) ∧
              (f.Typ = .pointer (.struct name2 fields2) → g.Typ = .pointer (.struct [] out2)) ∧
              out2.length = fields2.length ∧
              ∀ j f2, fields2.get? j = some f2 →
                ∃ g2, out2.get? j = some g2 ∧
                  g2.Tag = (fun sf : StructField => sf.Name) f2 :=
  ⟨by rfl, C16_mutator_sees_original_field plainReflect (ascii "Outer")
      [(⟨ascii "In", [], .pointer (.struct (ascii "Inner")
          [⟨ascii "N", [], .scalar (ascii "int"), ascii "json:\"n\"", false⟩]),
        ascii "json:\"in\"", false⟩ : StructField)] (fun _ => false) (fun sf => sf.Name) _ (by rfl)⟩

/-- C17 (best-effort mutator): the mutator that `AddOption` builds gives the
annotation of the field unchanged when `ignoreIf` holds of the field type or
when `AddTagOption` fails, and exactly the result of `AddTagOption` otherwise;
it is a total function, so it never fails. -/
theorem C17_best_effort_mutator (U : UnicodeTables) (tag opt : Str) (ignoreIf : GoType → Bool)
    (sf : StructField) :
    (ignoreIf sf.Typ = true → AddOption U tag opt ignoreIf sf = sf.Tag) ∧
    (∀ err, AddTagOption U sf.Tag tag opt = .error err →
      AddOption U tag opt ignoreIf sf = sf.Tag) ∧
    (∀ added, ignoreIf sf.Typ = false → AddTagOption U sf.Tag tag opt = .ok added →
      AddOption U tag opt ignoreIf sf = added) := by
  refine ⟨?_, ?_, ?_⟩
  · intro h
    simp [AddOption, h]
  · intro err h
    simp only [AddOption, h]
    split <;> rfl
  · intro added h1 h2
    simp [AddOption, h1, h2]

/-- C18 (bounded recursion): a struct type, as a description, is a finite
tree, and on every struct type, for every skip predicate and mutator,
`MutateTag` ends: it gives a type or it panics (in `reflect.StructOf`, see
C14).  Its calls nest no deeper than the nesting depth of the type: run with
a bound on the depth of the calls that is at least the nesting depth, it never
stops for want of depth and gives what it gives without a bound. -/
theorem C18_bounded_recursion (R : Reflect) (name : Str) (fields : List StructField)
    (skip : Skipper) (mutate : TagMutator) (d : Nat)
    (hd : (GoType.struct name fields).nesting ≤ d) :
    ((∃ r, MutateTag R (.struct name fields) skip mutate = .ok r) ∨
      MutateTag R (.struct name fields) skip mutate = .error .panic) ∧
    MutateTagWithin R skip mutate d (.struct name fields) ≠ .error .tooDeep ∧
    MutateTagWithin R skip mutate d (.struct name fields)
      = MutateTag R (.struct name fields) skip mutate := by
  have hc := MutateTag_cases R skip mutate _ (.struct name fields) (le_refl _)
  have he := MutateTagWithin_eq R skip mutate d (.struct name fields) rfl hd
  refine ⟨hc, ?_, he⟩
  rw [he]
  rcases hc with ⟨r, hr⟩ | hp
  · rw [hr]
    intro h
    cases h
  · rw [hp]
    intro h
    cases h

theorem C18_bounded_recursion_witness :
    (GoType.struct (ascii "Outer")
      [(⟨ascii "In", [], .pointer (.struct (ascii "Inner")
          [⟨ascii "N", [], .scalar (ascii "int"), ascii "json:\"n\"", false⟩]),
        ascii "json:\"in\"", false⟩ : StructField)]).nesting ≤ 3 ∧
    ((∃ r, MutateTag plainReflect (.struct (ascii "Outer")
      [(⟨ascii "In", [], .pointer (.struct (ascii "Inner")
          [⟨ascii "N", [], .scalar (ascii "int"), ascii "json:\"n\"", false⟩]),
        ascii "json:\"in\"", false⟩ : StructField)]) (fun _ => false) (fun sf => sf.Tag) = .ok r) ∨
      MutateTag plainReflect (.struct (ascii "Outer")
      [(⟨ascii "In", [], .pointer (.struct (ascii "Inner")
          [⟨ascii "N", [], .scalar (ascii "int"), ascii "json:\"n\"", false⟩]),
        ascii "json:\"in\"", false⟩ : StructField)]) (fun _ => false) (fun sf => sf.Tag) = .error .panic) ∧
    MutateTagWithin plainReflect (fun _ => false) (fun sf => sf.Tag) 3
      (.struct (ascii "Outer")
      [(⟨ascii "In", [], .pointer (.struct (ascii "Inner")
          [⟨ascii "N", [], .scalar (ascii "int"), ascii "json:\"n\"", false⟩]),
        ascii "json:\"in\"", false⟩ : StructField)]) ≠ .error .tooDeep ∧
    MutateTagWithin plainReflect (fun _ => false) (fun sf => sf.Tag) 3
      (.struct (ascii "Outer")
      [(⟨ascii "In", [], .pointer (.struct (ascii "Inner")
          [⟨ascii "N", [], .scalar (ascii "int"), ascii "json:\"n\"", false⟩]),
        ascii "json:\"in\"", false⟩ : StructField)])
      = MutateTag plainReflect (.struct (ascii "Outer")
      [(⟨ascii "In", [], .pointer (.struct (ascii "Inner")
          [⟨ascii "N", [], .scalar (ascii "int"), ascii "json:\"n\"", false⟩]),
        ascii "json:\"in\"", false⟩ : StructField)]) (fun _ => false) (fun sf => sf.Tag) :=
  ⟨by decide, C18_bounded_recursion plainReflect _ _ _ _ 3 (by decide)⟩

/-! ### What `readTagOption` returns -/

/-- A rune below `0x80` is decoded from the byte of that value only. -/
theorem utf8.decode_eq_ascii (b : Byte) (t : Str) (r : Nat) (hr : r < 0x80)
    (h : (utf8.DecodeRuneInString (b :: t)).1 = r) : b.val = r := by
  by_cases hlt : b.val < 0x80
  · rw [utf8.decode_ascii b t hlt] at h
    exact h
  · exfalso
    by_cases hw : (utf8.DecodeRuneInString (b :: t)).2 = 1
    · obtain ⟨b2, t2, hs2, hor⟩ := utf8.decode_width_one (b :: t) hw
      simp only [List.cons.injEq] at hs2
      obtain ⟨rfl, rfl⟩ := hs2
      rcases hor with h3 | h3
      · rw [h3] at h
        have : utf8.RuneError = 0xFFFD := rfl
        omega
      · exact hlt h3.1
    · have hw2 : 2 ≤ (utf8.DecodeRuneInString (b :: t)).2 := by
        have := utf8.decode_width_pos (b :: t) (by simp)
        omega
      have := (utf8.decode_valid (b :: t) hw2).1
      omega

/-- The two ways `readTagOption` returns a token: an identifier, which is the
text read, or a token that starts with a single quote, read by `unescape`. -/
theorem readTagOption_cases (U : UnicodeTables) (s opt : Str) (n : Nat)
    (h : readTagOption U s = .ok (opt, n)) :
    (opt = s.take n ∧ n = strings.trimLeftLen (identRune U) s ∧
        ((utf8.DecodeRuneInString s).1 = 0x5F
          ∨ unicode.IsLetter U (utf8.DecodeRuneInString s).1 = true)) ∨
      (s.head? = some 0x27 ∧ unescape s = .ok (opt, n)) := by
  simp only [readTagOption] at h
  by_cases hs : s.length = 0
  · rw [if_pos hs] at h
    simp at h
  rw [if_neg hs] at h
  by_cases h1 : (utf8.DecodeRuneInString s).1 = 0x5F
      ∨ unicode.IsLetter U (utf8.DecodeRuneInString s).1 = true
  · rw [if_pos h1] at h
    simp only [Except.ok.injEq, Prod.mk.injEq] at h
    left
    exact ⟨by rw [← h.1, h.2], h.2.symm, h1⟩
  · rw [if_neg h1] at h
    by_cases h2 : (utf8.DecodeRuneInString s).1 = 0x27
    · rw [if_pos h2] at h
      right
      cases s with
      | nil => exact absurd rfl hs
      | cons b t =>
        have hb : b.val = 0x27 := utf8.decode_eq_ascii b t 0x27 (by decide) h2
        have hb2 : b = 0x27 := Fin.ext hb
        exact ⟨by rw [hb2]; rfl, h⟩
    · rw [if_neg h2] at h
      simp at h

/-- The bytes below `0x80` that `strings.TrimLeftFunc` trims satisfy the
predicate. -/
theorem strings.trimLeftLoop_bytes (f : Nat → Bool) (fuel : Nat) :
    ∀ (s : Str) (b : Byte), b ∈ s.take (strings.trimLeftLoop f fuel s) → b.val < 0x80 →
      f b.val = true := by
  induction fuel with
  | zero =>
    intro s b hb
    simp [strings.trimLeftLoop] at hb
  | succ fuel ih =>
    intro s b hb hlt
    cases s with
    | nil => simp at hb
    | cons c t =>
      simp only [strings.trimLeftLoop] at hb
      by_cases hf : f (utf8.DecodeRuneInString (c :: t)).1 = true
      · rw [if_pos hf, List.take_add, List.mem_append] at hb
        rcases hb with hb | hb
        · by_cases hc : c.val < 0x80
          · rw [utf8.decode_ascii c t hc] at hb hf
            simp only [List.take_succ_cons, List.take_zero, List.mem_singleton] at hb
            subst hb
            exact hf
          · exfalso
            by_cases hw : 2 ≤ (utf8.DecodeRuneInString (c :: t)).2
            · have := utf8.decode_bytes_high (c :: t) hw b hb
              omega
            · have hpos := utf8.decode_width_pos (c :: t) (by simp)
              have hw1 : (utf8.DecodeRuneInString (c :: t)).2 = 1 := by omega
              rw [hw1] at hb
              simp only [List.take_succ_cons, List.take_zero, List.mem_singleton] at hb
              subst hb
              exact hc hlt
        · exact ih _ b hb hlt
      · rw [if_neg hf] at hb
        simp at hb

theorem identRune_colon (U : UnicodeTables) : identRune U 0x3A = false := rfl

theorem identRune_comma (U : UnicodeTables) : identRune U 0x2C = false := rfl

/-- The text of a token that does not start with a single quote holds no
colon. -/
theorem readTagOption_no_colon (U : UnicodeTables) (s opt : Str) (n : Nat)
    (h : readTagOption U s = .ok (opt, n)) (hq : (s.take n).head? ≠ some 0x27) :
    (0x3A : Byte) ∉ s.take n := by
  rcases readTagOption_cases U s opt n h with ⟨_, hn, _⟩ | ⟨hh, hu⟩
  · intro hmem
    rw [hn] at hmem
    have := strings.trimLeftLoop_bytes (identRune U) s.length s 0x3A hmem (by decide)
    rw [show ((0x3A : Byte).val) = 0x3A from rfl, identRune_colon] at this
    cases this
  · exfalso
    have hpos : 1 ≤ n := unescapeLoop_pos s _ _ _ _ (opt, n) hu
    cases s with
    | nil => simp at hh
    | cons b t =>
      obtain ⟨m, rfl⟩ : ∃ m, n = m + 1 := ⟨n - 1, by omega⟩
      simp only [List.head?_cons, Option.some.injEq] at hh
      rw [List.take_succ_cons, List.head?_cons, hh] at hq
      exact hq rfl

/-- The identifier of every token that `tokenLoop` lists is the text of a
token read by `readTagOption`. -/
theorem tokenLoop_read (U : UnicodeTables) (orig : Str) (fuel : Nat) :
    ∀ (value : Str) (toks : List OptToken), tokenLoop U orig fuel value = .ok toks →
      ∀ tok ∈ toks, ∃ s opt n, readTagOption U s = .ok (opt, n) ∧ tok.ident = s.take n := by
  induction fuel with
  | zero =>
    intro value toks h
    simp [tokenLoop] at h
  | succ fuel ih =>
    intro value toks h
    cases value with
    | nil =>
      simp only [tokenLoop, Except.ok.injEq] at h
      subst h
      intro tok htok
      cases htok
    | cons c value =>
      simp only [tokenLoop] at h
      by_cases hc : c ≠ 0x2C
      · rw [if_pos hc] at h
        simp at h
      rw [if_neg hc] at h
      by_cases hv : value.length = 0
      · rw [if_pos hv] at h
        simp at h
      rw [if_neg hv] at h
      cases hr : readTagOption U value with
      | error err =>
        rw [hr] at h
        simp at h
      | ok r =>
        obtain ⟨opt, n⟩ := r
        rw [hr] at h
        simp only at h
        by_cases hcol : colonNext (value.drop n)
        · rw [if_pos hcol] at h
          cases hr2 : readTagOption U ((value.drop n).drop 1) with
          | error err =>
            rw [hr2] at h
            simp at h
          | ok r2 =>
            obtain ⟨opt2, m⟩ := r2
            rw [hr2] at h
            simp only at h
            cases hrec : tokenLoop U orig fuel (((value.drop n).drop 1).drop m) with
            | error err =>
              rw [hrec] at h
              simp at h
            | ok toks2 =>
              rw [hrec] at h
              simp only [Except.ok.injEq] at h
              subst h
              intro tok htok
              rcases List.mem_cons.1 htok with rfl | htok
              · exact ⟨value, opt, n, hr, rfl⟩
              · exact ih _ toks2 hrec tok htok
        · rw [if_neg hcol] at h
          cases hrec : tokenLoop U orig fuel (value.drop n) with
          | error err =>
            rw [hrec] at h
            simp at h
          | ok toks2 =>
            rw [hrec] at h
            simp only [Except.ok.injEq] at h
            subst h
            intro tok htok
            rcases List.mem_cons.1 htok with rfl | htok
            · exact ⟨value, opt, n, hr, rfl⟩
            · exact ih _ toks2 hrec tok htok

/-- The identifier of a token of a value that does not start with a single
quote holds no colon. -/
theorem optionTokens_no_colon (U : UnicodeTables) (value : Str) (toks : List OptToken)
    (h : optionTokens U value = .ok toks) (tok : OptToken) (htok : tok ∈ toks)
    (hq : tok.ident.head? ≠ some 0x27) : (0x3A : Byte) ∉ tok.ident := by
  simp only [optionTokens] at h
  cases hs : skipName U value with
  | error err =>
    rw [hs] at h
    simp at h
  | ok rest =>
    rw [hs] at h
    obtain ⟨s, opt, n, hr, hid⟩ := tokenLoop_read U value _ rest toks h tok htok
    rw [hid] at hq ⊢
    exact readTagOption_no_colon U s opt n hr hq

/-- The identifier of a token of a value that does not start with a single
quote does not start with a comma. -/
theorem optionTokens_no_comma (U : UnicodeTables) (value : Str) (toks : List OptToken)
    (h : optionTokens U value = .ok toks) (tok : OptToken) (htok : tok ∈ toks)
    (hq : tok.ident.head? ≠ some 0x27) : tok.ident ≠ [] ∧ tok.ident.head? ≠ some 0x2C := by
  simp only [optionTokens] at h
  cases hs : skipName U value with
  | error err =>
    rw [hs] at h
    simp at h
  | ok rest =>
    rw [hs] at h
    obtain ⟨s, opt, n, hr, hid⟩ := tokenLoop_read U value _ rest toks h tok htok
    rw [hid] at hq ⊢
    rcases readTagOption_cases U s opt n hr with ⟨_, hn, hfirst⟩ | ⟨hh, hu⟩
    · cases s with
      | nil =>
        simp [readTagOption] at hr
      | cons b t =>
        have hpos : 1 ≤ n := by
          rw [hn]
          simp only [strings.trimLeftLen, List.length_cons, strings.trimLeftLoop]
          have hid : identRune U (utf8.DecodeRuneInString (b :: t)).1 = true := by
            simp only [identRune, Bool.or_eq_true, decide_eq_true_eq]
            rcases hfirst with h1 | h1
            · exact Or.inl (Or.inl h1)
            · exact Or.inl (Or.inr h1)
          rw [if_pos hid]
          have := utf8.decode_width_pos (b :: t) (by simp)
          omega
        obtain ⟨m, rfl⟩ : ∃ m, n = m + 1 := ⟨n - 1, by omega⟩
        rw [List.take_succ_cons]
        refine ⟨by simp, ?_⟩
        simp only [List.head?_cons, ne_eq, Option.some.injEq]
        rintro rfl
        rw [utf8.decode_ascii _ _ (by decide)] at hfirst
        have h1 : ((0x2C : Byte).val = 0x5F) = False := by decide
        have h2 : unicode.IsLetter U (0x2C : Byte).val = false := rfl
        simp only [h1, h2, false_or] at hfirst
        exact absurd hfirst (by simp)
    · exfalso
      have hpos : 1 ≤ n := unescapeLoop_pos s _ _ _ _ (opt, n) hu
      cases s with
      | nil => simp at hh
      | cons b t =>
        obtain ⟨m, rfl⟩ : ∃ m, n = m + 1 := ⟨n - 1, by omega⟩
        simp only [List.head?_cons, Option.some.injEq] at hh
        rw [List.take_succ_cons, List.head?_cons, hh] at hq
        exact hq rfl

/-- Between two texts without a colon, `q:` is a prefix of `p:rest` only when
`q` is `p`. -/
theorem hasPrefix_colon_inv (rest : Str) : ∀ (q p : Str), (0x3A : Byte) ∉ p → (0x3A : Byte) ∉ q →
    strings.HasPrefix (p ++ 0x3A :: rest) (q ++ [0x3A]) = true → q = p := by
  intro q
  induction q with
  | nil =>
    intro p hp _ h
    cases p with
    | nil => rfl
    | cons a p =>
      simp only [strings.HasPrefix, List.nil_append, List.length_singleton, List.cons_append,
        List.take_succ_cons, List.take_zero, decide_eq_true_eq, List.cons.injEq, and_true] at h
      subst h
      exact absurd (List.mem_cons_self _ _) hp
  | cons b q ih =>
    intro p hp hq h
    cases p with
    | nil =>
      simp only [strings.HasPrefix, List.nil_append, List.cons_append, List.length_cons,
        List.take_succ_cons, decide_eq_true_eq, List.cons.injEq] at h
      rw [← h.1] at hq
      exact absurd (List.mem_cons_self _ _) hq
    | cons a p =>
      simp only [strings.HasPrefix, List.cons_append, List.length_cons,
        List.take_succ_cons, decide_eq_true_eq, List.cons.injEq] at h
      obtain ⟨hab, h2⟩ := h
      subst hab
      have := ih p (fun hm => hp (List.mem_cons_of_mem _ hm))
        (fun hm => hq (List.mem_cons_of_mem _ hm))
        (by simp only [strings.HasPrefix, decide_eq_true_eq]; exact h2)
      rw [this]

/-! ### Claims on quoted names and on presence by name -/

/-- C11 at the failing input: the tag `json:"'a\"b'"`, whose value is the
single-quoted name `'a"b'` with a double quote in its body, the key `json` and
the option `omitzero`.  The tag parses, and `AddTagOption` fails with the
"invalid escaped string" error of `unescape`, where the claim gives the entry
`'a"b',omitzero`.  The buffer that `unescape` hands to `strconv.Unquote` is
built from `s[n:][:rn]` with `n` still zero: after the backslash written for
the double quote comes the first byte of `s`, a single quote, and `\'` is not
an escape of a double-quoted string.  With a comma in the body, and on the
name of the test, the call gives what the claim says. -/
theorem C11_quoted_name_with_double_quote :
    ParseStructTag (ascii "json:\"'a\\\"b'\"") = .ok [⟨ascii "json", ascii "'a\"b'"⟩]
      ∧ AddTagOption latin1Tables (ascii "json:\"'a\\\"b'\"") (ascii "json") (ascii "omitzero")
        = .error (.invalidEscaped (ascii "'a\"b'"))
      ∧ AddTagOption latin1Tables (ascii "json:\"'a,b'\"") (ascii "json") (ascii "omitzero")
        = .ok (ascii "json:\"'a,b',omitzero\"")
      ∧ AddTagOption latin1Tables (ascii "json:\"'\\\\xde\\\\xad\\\\xbe\\\\xef'\"") (ascii "json")
          (ascii "omitzero")
        = .ok (ascii "json:\"'\\\\xde\\\\xad\\\\xbe\\\\xef',omitzero\"") := by
  decide

/-- C12, as stated, fails: in `json:",format"` the bare token `format` does not
make the candidate `format:x` present; the candidate is appended and the entry
becomes `,format,format:x`. -/
theorem C12_counterexample :
    optionTokens latin1Tables (ascii ",format") = .ok [⟨ascii "format", none⟩]
      ∧ AddTagOption latin1Tables (ascii "json:\",format\"") (ascii "json") (ascii "format:x")
        = .ok (ascii "json:\",format,format:x\"")
      ∧ AddTagOption latin1Tables (ascii "json:\",format\"") (ascii "json") (ascii "format:x")
        ≠ .ok (ascii "json:\",format\"") := by
  decide

/-- C12, amended: a bare token does not make a candidate with a secondary value
present.  For every tag `t` that parses, whose first entry with key `k` has a
value `v` whose name slot and option tokens all scan without error, none of
the tokens being single-quoted, and which contains a bare option token `p`
(no secondary value): for every candidate `p:rest`, unless some token with the
identifier `p` carries a secondary value, `AddTagOption t k p:rest` does not
treat the option as present; it returns `StructTagOf` of the parsed entries
with the value of the first `k`-entry replaced by `v + "," + p:rest`. -/
theorem C12_bare_token_is_no_prefix_match (U : UnicodeTables) (t k p rest v : Str)
    (pre post : List Tag) (toks : List OptToken)
    (hparse : ParseStructTag t = .ok (pre ++ ⟨k, v⟩ :: post))
    (hpre : ∀ x ∈ pre, x.Key ≠ k) (htoks : optionTokens U v = .ok toks)
    (hplain : ∀ tok ∈ toks, tok.ident.head? ≠ some 0x27)
    (hbare : (⟨p, none⟩ : OptToken) ∈ toks)
    (hsec : ∀ tok ∈ toks, tok.secondary.isSome = true → tok.ident ≠ p) :
    AddTagOption U t k (p ++ 0x3A :: rest)
      = .ok (StructTagOf U (pre ++ ⟨k, v ++ 0x2C :: (p ++ 0x3A :: rest)⟩ :: post)) := by
  have hp := optionTokens_no_colon U v toks htoks _ hbare (hplain _ hbare)
  have hpc := optionTokens_no_comma U v toks htoks _ hbare (hplain _ hbare)
  have hscan : scanValue U (p ++ 0x3A :: rest) v = .ok false := by
    refine scanValue_of_tokens U _ v toks htoks (fun tok htok => ⟨hplain tok htok, ?_, ?_⟩)
    · intro heq
      have hq := optionTokens_no_colon U v toks htoks tok htok (hplain tok htok)
      rw [heq] at hq
      exact hq (by simp)
    · intro hs
      have hq := optionTokens_no_colon U v toks htoks tok htok (hplain tok htok)
      cases hh : strings.HasPrefix (p ++ 0x3A :: rest) (tok.ident ++ [0x3A]) with
      | false => rfl
      | true => exact absurd (hasPrefix_colon_inv rest tok.ident p hp hq hh) (hsec tok htok hs)
  have hcomma : strings.HasPrefix (p ++ 0x3A :: rest) [0x2C] = false := by
    cases hh : strings.HasPrefix (p ++ 0x3A :: rest) [0x2C] with
    | false => rfl
    | true =>
      rw [hasPrefix_comma] at hh
      cases p with
      | nil => exact absurd rfl hpc.1
      | cons b p => exact absurd hh hpc.2
  have h := AddTagOption_appended U t k (p ++ 0x3A :: rest) pre ⟨k, v⟩ post hparse hpre rfl hscan
  rw [h]
  simp only [hcomma, if_true, List.append_assoc, List.singleton_append]

/-- C12 (amended) at the tag `json:"foo,format,fmt:x"`, the key `json` and the
candidate `format:y`. -/
theorem C12_bare_token_is_no_prefix_match_witness :
    AddTagOption latin1Tables (ascii "json:\"foo,format,fmt:x\"") (ascii "json")
        (ascii "format" ++ 0x3A :: ascii "y")
      = .ok (StructTagOf latin1Tables ([] ++ ⟨ascii "json",
          ascii "foo,format,fmt:x" ++ 0x2C :: (ascii "format" ++ 0x3A :: ascii "y")⟩ :: []))
      ∧ StructTagOf latin1Tables ([] ++ ⟨ascii "json",
          ascii "foo,format,fmt:x" ++ 0x2C :: (ascii "format" ++ 0x3A :: ascii "y")⟩ :: [])
        = ascii "json:\"foo,format,fmt:x,format:y\"" :=
  ⟨C12_bare_token_is_no_prefix_match latin1Tables (ascii "json:\"foo,format,fmt:x\"")
      (ascii "json") (ascii "format") (ascii "y") (ascii "foo,format,fmt:x") [] []
      [⟨ascii "format", none⟩, ⟨ascii "fmt", some (ascii "x")⟩] (by decide) (by decide)
      (by decide) (by decide) (by decide) (by decide),
    by decide⟩

/-! ### Tokens never start with a comma -/

namespace strconv

/-- The loop of `strconv.unquote` only appends to its buffer. -/
theorem unquoteLoop_prefix (quote : Byte) (fuel : Nat) :
    ∀ (inp buf out rest : Str), unquoteLoop quote fuel inp buf = some (out, rest) →
      ∃ suffix, out = buf ++ suffix := by
  induction fuel with
  | zero =>
    intro inp buf out rest h
    simp only [unquoteLoop, Option.some.injEq, Prod.mk.injEq] at h
    exact ⟨[], by simp [h.1]⟩
  | succ fuel ih =>
    intro inp buf out rest h
    cases inp with
    | nil =>
      simp only [unquoteLoop, Option.some.injEq, Prod.mk.injEq] at h
      exact ⟨[], by simp [h.1]⟩
    | cons c cs =>
      simp only [unquoteLoop] at h
      by_cases hq : c = quote
      · rw [if_pos hq] at h
        simp only [Option.some.injEq, Prod.mk.injEq] at h
        exact ⟨[], by simp [h.1]⟩
      · rw [if_neg hq] at h
        cases hu : UnquoteChar (c :: cs) quote with
        | none =>
          rw [hu] at h
          simp at h
        | some res =>
          obtain ⟨r, mb, rem⟩ := res
          rw [hu] at h
          simp only at h
          by_cases hnl : c = 0x0A
          · rw [if_pos hnl] at h
            simp at h
          · rw [if_neg hnl] at h
            by_cases hq2 : quote = 0x27
            · rw [if_pos hq2] at h
              simp only [Option.some.injEq, Prod.mk.injEq] at h
              rw [← h.1]
              split_ifs
              · exact ⟨_, rfl⟩
              · exact ⟨_, rfl⟩
            · rw [if_neg hq2] at h
              obtain ⟨suffix, hs⟩ := ih _ _ _ _ h
              rw [hs]
              split_ifs
              · exact ⟨_, by rw [List.append_assoc]⟩
              · exact ⟨_, by rw [List.append_assoc]⟩

/-- A double-quoted literal whose body starts with a single quote unquotes,
if at all, to a text that starts with a single quote. -/
theorem Unquote_single_quote (e out : Str)
    (h : Unquote (0x22 :: 0x27 :: (e ++ [0x22])) = some out) : out.head? = some 0x27 := by
  simp only [Unquote] at h
  rw [unquote_eq_slow _ (by simp)] at h
  simp only [unquoteSlow, List.length_cons] at h
  rw [unquoteLoop_step _ 0x27 _ [] _ 0x27 false (by decide) (by decide)
    (unquoteChar_plain 0x27 _ (by decide) (by decide) (by decide))] at h
  cases hl : unquoteLoop 0x22 (e ++ [0x22]).length (e ++ [0x22]) ([] ++ unquoted 0x27 false) with
  | none =>
    rw [hl] at h
    simp at h
  | some res =>
    obtain ⟨buf, rest⟩ := res
    obtain ⟨suffix, hs⟩ := unquoteLoop_prefix _ _ _ _ _ _ hl
    rw [hl] at h
    simp only at h
    cases rest with
    | nil => simp at h
    | cons c rest =>
      simp only at h
      by_cases hc : c = 0x22
      · rw [if_pos hc] at h
        by_cases hr : 0 < rest.length
        · simp [hr] at h
        · simp only [hr, if_false, Option.some.injEq] at h
          rw [← h, hs]
          rfl
      · rw [if_neg hc] at h
        simp at h

/-- A double-quoted literal whose body starts with a backslash and a single
quote does not unquote. -/
theorem Unquote_backslash_quote (e : Str) :
    Unquote (0x22 :: 0x5C :: 0x27 :: (e ++ [0x22])) = none := by
  simp only [Unquote]
  rw [unquote_eq_slow _ (by simp)]
  simp only [unquoteSlow, List.length_cons, unquoteLoop]
  rw [if_neg (by decide)]
  have : UnquoteChar (0x5C :: 0x27 :: (e ++ [0x22])) 0x22 = none := by
    simp +decide [UnquoteChar]
  rw [this]

end strconv

theorem quoteLed_append (e y : Str) (h : quoteLed e) :
    quoteLed (e ++ 0x27 :: y) ∧ e ++ 0x27 :: y ≠ [] := by
  refine ⟨?_, by simp⟩
  rcases h with rfl | ⟨x, rfl⟩ | ⟨x, rfl⟩
  · exact Or.inr (Or.inl ⟨y, rfl⟩)
  · exact Or.inr (Or.inl ⟨_, rfl⟩)
  · exact Or.inr (Or.inr ⟨_, rfl⟩)

theorem quoteLed_backslash (e y : Str) (h : quoteLed e) :
    quoteLed (e ++ [0x5C] ++ 0x27 :: y) ∧ e ++ [0x5C] ++ 0x27 :: y ≠ [] := by
  refine ⟨?_, by simp⟩
  rcases h with rfl | ⟨x, rfl⟩ | ⟨x, rfl⟩
  · exact Or.inr (Or.inr ⟨y, rfl⟩)
  · exact Or.inr (Or.inl ⟨_, rfl⟩)
  · exact Or.inr (Or.inr ⟨_, rfl⟩)

theorem quoteLed_dropLast (e y : Str) (h : quoteLed e) (hne : e ≠ []) :
    ∃ e2, (0x22 :: e).take ((0x22 :: e).length - 1) ++ 0x27 :: y = 0x22 :: e2 ∧ quoteLed e2
      ∧ e2 ≠ [] := by
  rcases h with rfl | ⟨x, rfl⟩ | ⟨x, rfl⟩
  · exact absurd rfl hne
  · cases x with
    | nil => exact ⟨0x27 :: y, rfl, Or.inr (Or.inl ⟨_, rfl⟩), by simp⟩
    | cons a x =>
      refine ⟨0x27 :: ((a :: x).take x.length ++ 0x27 :: y), ?_, Or.inr (Or.inl ⟨_, rfl⟩), by simp⟩
      simp
  · cases x with
    | nil => exact ⟨0x5C :: 0x27 :: y, rfl, Or.inr (Or.inr ⟨_, rfl⟩), by simp⟩
    | cons a x =>
      refine ⟨0x5C :: 0x27 :: ((a :: x).take x.length ++ 0x27 :: y), ?_,
        Or.inr (Or.inr ⟨_, rfl⟩), by simp⟩
      simp

/-- A token read by `unescape` from a text that starts with a single quote is
empty or starts with a single quote. -/
theorem unescapeLoop_head (s : Str) (hs : s.head? = some 0x27) (fuel : Nat) :
    ∀ (i : Nat) (escaping : Bool) (e : Str) (r : Str × Nat), quoteLed e →
      (escaping = true → e ≠ []) →
      unescapeLoop s fuel i escaping (0x22 :: e) = .ok r →
      r.1 = [] ∨ r.1.head? = some 0x27 := by
  induction fuel with
  | zero =>
    intro i escaping e r _ _ h
    simp [unescapeLoop] at h
  | succ fuel ih =>
    intro i escaping e r hq hesc h
    simp only [unescapeLoop] at h
    by_cases hi : i < s.length
    · rw [if_pos hi] at h
      have hchunk : ∃ y, (List.drop 0 s).take (utf8.DecodeRuneInString (s.drop i)).2
          = 0x27 :: y := by
        have hpos := utf8.decode_width_pos (s.drop i)
          (by intro hnil; have := congrArg List.length hnil; simp at this; omega)
        obtain ⟨m, hm⟩ : ∃ m, (utf8.DecodeRuneInString (s.drop i)).2 = m + 1 :=
          ⟨_, (Nat.sub_add_cancel hpos).symm⟩
        cases s with
        | nil => simp at hs
        | cons b t =>
          simp only [List.head?_cons, Option.some.injEq] at hs
          rw [hm, hs]
          exact ⟨_, rfl⟩
      obtain ⟨y, hy⟩ := hchunk
      rw [hy] at h
      by_cases h1 : escaping = true
      · rw [if_pos h1] at h
        by_cases h2 : (utf8.DecodeRuneInString (s.drop i)).1 = 0x27
        · rw [if_pos h2] at h
          obtain ⟨e2, he2, hq2, _⟩ := quoteLed_dropLast e y hq (hesc h1)
          rw [he2] at h
          exact ih _ _ _ r hq2 (by simp) h
        · rw [if_neg h2] at h
          have := quoteLed_append e y hq
          exact ih _ _ _ r this.1 (by simp) h
      · rw [if_neg h1] at h
        by_cases h2 : (utf8.DecodeRuneInString (s.drop i)).1 = 0x5C
        · rw [if_pos h2] at h
          have := quoteLed_append e y hq
          exact ih _ _ _ r this.1 (fun _ => this.2) h
        · rw [if_neg h2] at h
          by_cases h3 : (utf8.DecodeRuneInString (s.drop i)).1 = 0x22
          · rw [if_pos h3] at h
            have := quoteLed_backslash e y hq
            exact ih _ _ _ r this.1 (by simp) h
          · rw [if_neg h3] at h
            by_cases h4 : (utf8.DecodeRuneInString (s.drop i)).1 = 0x27
            · rw [if_pos h4] at h
              cases hu : strconv.Unquote (0x22 :: e ++ [0x22]) with
              | none =>
                rw [hu] at h
                simp at h
              | some out =>
                rw [hu] at h
                simp only [Except.ok.injEq] at h
                subst h
                simp only
                rcases hq with rfl | ⟨x, rfl⟩ | ⟨x, rfl⟩
                · left
                  have : strconv.Unquote (0x22 :: ([] : Str) ++ [0x22]) = some [] := by decide
                  rw [this] at hu
                  injection hu with hu
                  exact hu.symm
                · right
                  exact strconv.Unquote_single_quote x out hu
                · exfalso
                  have := strconv.Unquote_backslash_quote x
                  rw [show 0x22 :: 0x5C :: 0x27 :: x ++ [0x22]
                    = 0x22 :: 0x5C :: 0x27 :: (x ++ [0x22]) from rfl] at hu
                  rw [this] at hu
                  cases hu
            · rw [if_neg h4] at h
              have := quoteLed_append e y hq
              exact ih _ _ _ r this.1 (by simp) h
    · rw [if_neg hi] at h
      simp at h

/-- No token that `readTagOption` returns starts with a comma. -/
theorem readTagOption_no_comma (U : UnicodeTables) (s opt : Str) (n : Nat)
    (h : readTagOption U s = .ok (opt, n)) : opt.head? ≠ some 0x2C := by
  rcases readTagOption_cases U s opt n h with ⟨ho, hn, hfirst⟩ | ⟨hh, hu⟩
  · intro hc
    rw [ho] at hc
    cases s with
    | nil => simp at hc
    | cons b t =>
      cases n with
      | zero => simp at hc
      | succ m =>
        simp only [List.take_succ_cons, List.head?_cons, Option.some.injEq] at hc
        subst hc
        rw [utf8.decode_ascii _ _ (by decide)] at hfirst
        have h1 : ((0x2C : Byte).val = 0x5F) = False := by decide
        have h2 : unicode.IsLetter U (0x2C : Byte).val = false := rfl
        simp only [h1, h2, false_or] at hfirst
        exact absurd hfirst (by simp)
  · simp only [unescape] at hu
    rcases unescapeLoop_head s hh _ _ _ [] (opt, n) (Or.inl rfl) (by simp) hu with h1 | h1
    · simp only at h1
      rw [h1]
      simp
    · simp only at h1
      rw [h1]
      simp

/-- A text that starts with a comma does not start with a token and a colon. -/
theorem hasPrefix_of_comma (option opt : Str) (ho : option.head? = some 0x2C)
    (hopt : opt.head? ≠ some 0x2C) : strings.HasPrefix option (opt ++ [0x3A]) = false := by
  cases option with
  | nil => simp at ho
  | cons a option =>
    simp only [List.head?_cons, Option.some.injEq] at ho
    subst ho
    cases opt with
    | nil => simp +decide [strings.HasPrefix]
    | cons b opt =>
      simp only [List.head?_cons, ne_eq, Option.some.injEq] at hopt
      simp only [strings.HasPrefix, List.cons_append, List.length_cons, List.take_succ_cons,
        decide_eq_false_iff_not, List.cons.injEq, not_and]
      intro hb
      exact absurd hb.symm hopt

/-- With an option that starts with a comma, the part of a turn after the
token never ends the loop with the option found. -/
theorem afterToken_of_comma (U : UnicodeTables) (option opt value : Str)
    (ho : option.head? = some 0x2C) (hopt : opt.head? ≠ some 0x2C) :
    afterToken U option opt value ≠ .done (.ok true) := by
  have hne : option ≠ opt := by
    rintro rfl
    exact hopt ho
  simp only [afterToken, hasPrefix_of_comma option opt ho hopt, if_neg hne]
  by_cases hc : colonNext value
  · rw [if_pos hc]
    simp only [Bool.false_eq_true, if_false]
    cases readTagOption U (value.drop 1) with
    | error err => simp
    | ok r => simp
  · rw [if_neg hc]
    simp

/-- With an option that starts with a comma, no turn of the option loop ends
with the option found. -/
theorem optionStep_of_comma (U : UnicodeTables) (option orig value : Str)
    (ho : option.head? = some 0x2C) : optionStep U option orig value ≠ .done (.ok true) := by
  cases value with
  | nil =>
    rw [optionStep_nil]
    simp
  | cons c value =>
    rw [optionStep_cons]
    by_cases hc : c ≠ 0x2C
    · rw [if_pos hc]
      simp
    rw [if_neg hc]
    by_cases hv : value.length = 0
    · rw [if_pos hv]
      simp
    rw [if_neg hv]
    cases hr : readTagOption U value with
    | error err => simp
    | ok r =>
      obtain ⟨opt, n⟩ := r
      simp only
      exact afterToken_of_comma U option opt _ ho (readTagOption_no_comma U value opt n hr)

/-- With an option that starts with a comma, the option loop never finds the
option. -/
theorem optionScan_of_comma (U : UnicodeTables) (option orig : Str)
    (ho : option.head? = some 0x2C) (n : Nat) :
    ∀ (value : Str) (b : Bool), value.length ≤ n → optionScan U option orig value = .ok b →
      b = false := by
  induction n with
  | zero =>
    intro value b hn h
    have : value = [] := List.eq_nil_of_length_eq_zero (by omega)
    subst this
    rw [optionScan_eq, optionStep_nil] at h
    simp only [Except.ok.injEq] at h
    exact h.symm
  | succ n ih =>
    intro value b hn h
    rw [optionScan_eq] at h
    cases hs : optionStep U option orig value with
    | done r =>
      rw [hs] at h
      simp only at h
      subst h
      cases b with
      | false => rfl
      | true => exact absurd hs (optionStep_of_comma U option orig value ho)
    | more rest =>
      rw [hs] at h
      simp only at h
      have := optionStep_length U option orig value rest hs
      exact ih rest b (by omega) h

theorem scanValue_of_comma (U : UnicodeTables) (option value : Str) (b : Bool)
    (ho : option.head? = some 0x2C) (h : scanValue U option value = .ok b) : b = false := by
  simp only [scanValue] at h
  cases hs : skipName U value with
  | error err =>
    rw [hs] at h
    simp at h
  | ok rest =>
    rw [hs] at h
    exact optionScan_of_comma U option value ho rest.length rest b (le_refl _) h

/-- After a value that scans without the option found, a comma and an
identifier that is not the option scan without error. -/
theorem scanValue_append_identifier (U : UnicodeTables) (option value p : Str)
    (h : scanValue U option value = .ok false) (hp : identifier U p = true)
    (hne : option ≠ p) : scanValue U option (value ++ 0x2C :: p) = .ok false := by
  rw [scanValue_append U option value p false h]
  simp only [Bool.false_eq_true, if_false]
  rw [optionScan_eq, optionStep_cons, if_neg (by simp),
    if_neg (by simpa using identifier_ne_nil U p hp), readTagOption_identifier U p hp]
  simp only [List.drop_length, afterToken, colonNext, List.length_nil, lt_self_iff_false,
    false_and, if_false, if_neg hne]
  rw [optionScan_eq, optionStep_nil]

/-! ### Claims on options with a leading comma and on malformed option lists -/

/-- C19, as stated: the tag `json:"foo"` parses, the option list `foo` of its
entry `json` scans without error and the option `,` begins with a comma.  The
first call of `AddTagOption` appends it, `json:"foo,"`; the second call does
not yield the option twice but fails, the value `foo,` now ending in a comma
with no option after it. -/
theorem C19_counterexample :
    ParseStructTag (ascii "json:\"foo\"") = .ok [⟨ascii "json", ascii "foo"⟩] ∧
    (∃ b, scanValue latin1Tables (ascii ",") (ascii "foo") = .ok b) ∧
    (ascii ",").head? = some 0x2C ∧
    AddTagOption latin1Tables (ascii "json:\"foo\"") (ascii "json") (ascii ",")
      = .ok (ascii "json:\"foo,\"") ∧
    AddTagOption latin1Tables (ascii "json:\"foo,\"") (ascii "json") (ascii ",")
      = .error (.malformedOption (ascii "foo,")) :=
  ⟨by decide, ⟨false, by decide⟩, by decide, by decide, by decide⟩

/-- C19, amended (an option written with a leading comma is never recognised
as present): for every tag `t` that parses, whose first entry with key `k` has
a value `v` that `AddTagOption` scans without error, and every option `o` that
begins with a comma, `AddTagOption t k o` appends `o` to the value, whatever
tokens the value holds.  Applied to its own result, it appends `o` once more,
so that the value is `v + o + o`, provided the value `v + o` scans without
error again, as it always does when `o` is a comma and an identifier. -/
theorem C19_leading_comma_never_present (U : UnicodeTables) (t k o v : Str)
    (pre post : List Tag) (hparse : ParseStructTag t = .ok (pre ++ ⟨k, v⟩ :: post))
    (hpre : ∀ x ∈ pre, x.Key ≠ k) (ho : o.head? = some 0x2C)
    (hscan : ∃ b, scanValue U o v = .ok b) :
    AddTagOption U t k o = .ok (StructTagOf U (pre ++ ⟨k, v ++ o⟩ :: post)) ∧
      ((∃ b, scanValue U o (v ++ o) = .ok b) →
        AddTagOption U (StructTagOf U (pre ++ ⟨k, v ++ o⟩ :: post)) k o
          = .ok (StructTagOf U (pre ++ ⟨k, v ++ o ++ o⟩ :: post))) ∧
      (∀ p, o = 0x2C :: p → identifier U p = true →
        AddTagOption U (StructTagOf U (pre ++ ⟨k, v ++ o⟩ :: post)) k o
          = .ok (StructTagOf U (pre ++ ⟨k, v ++ o ++ o⟩ :: post))) := by
  have hcomma : strings.HasPrefix o [0x2C] = true := (hasPrefix_comma o).2 ho
  have happend : ∀ (t2 w : Str), ParseStructTag t2 = .ok (pre ++ ⟨k, w⟩ :: post) →
      (∃ b, scanValue U o w = .ok b) →
      AddTagOption U t2 k o = .ok (StructTagOf U (pre ++ ⟨k, w ++ o⟩ :: post)) := by
    intro t2 w hp2 hs2
    obtain ⟨b, hb⟩ := hs2
    have hb2 := scanValue_of_comma U o w b ho hb
    subst hb2
    have h := AddTagOption_appended U t2 k o pre ⟨k, w⟩ post hp2 hpre rfl hb
    rw [h]
    simp only [hcomma, Bool.true_eq_false, if_false]
  have hkeys := keys_splice pre post ⟨k, v⟩ ⟨k, v ++ o⟩ rfl (ParseStructTag_keys t _ hparse)
  have hparse2 := ParseStructTag_StructTagOf U (pre ++ ⟨k, v ++ o⟩ :: post) hkeys
  refine ⟨happend t v hparse hscan, fun hscan2 => happend _ (v ++ o) hparse2 hscan2, ?_⟩
  intro p hop hp
  refine happend _ (v ++ o) hparse2 ⟨false, ?_⟩
  obtain ⟨b, hb⟩ := hscan
  have hb2 := scanValue_of_comma U o v b ho hb
  subst hb2
  have hne : o ≠ p := by
    rw [hop]
    intro h
    have := congrArg List.length h
    simp at this
  have e : v ++ o = v ++ 0x2C :: p := by rw [hop]
  rw [e]
  exact scanValue_append_identifier U o v p hb hp hne

/-- C19 at the tag `json:",omitzero"`, the key `json` and the option
`,omitzero`, the form the example driver passes: the option, present already,
is appended, and appended again by a second call. -/
theorem C19_leading_comma_never_present_witness :
    (ascii ",omitzero").head? = some 0x2C ∧
    (∃ b, scanValue latin1Tables (ascii ",omitzero") (ascii ",omitzero") = .ok b) ∧
    AddTagOption latin1Tables (ascii "json:\",omitzero\"") (ascii "json") (ascii ",omitzero")
      = .ok (ascii "json:\",omitzero,omitzero\"") ∧
    AddTagOption latin1Tables (ascii "json:\",omitzero,omitzero\"") (ascii "json")
        (ascii ",omitzero")
      = .ok (ascii "json:\",omitzero,omitzero,omitzero\"") := by
  have h := C19_leading_comma_never_present latin1Tables (ascii "json:\",omitzero\"")
    (ascii "json") (ascii ",omitzero") (ascii ",omitzero") [] [] (by decide) (by decide)
    (by decide) ⟨false, by decide⟩
  have e1 : StructTagOf latin1Tables ([] ++ ⟨ascii "json", ascii ",omitzero" ++ ascii ",omitzero"⟩
      :: []) = ascii "json:\",omitzero,omitzero\"" := by decide
  have e2 : StructTagOf latin1Tables ([] ++ ⟨ascii "json",
      ascii ",omitzero" ++ ascii ",omitzero" ++ ascii ",omitzero"⟩ :: [])
      = ascii "json:\",omitzero,omitzero,omitzero\"" := by decide
  refine ⟨by decide, ⟨false, by decide⟩, ?_, ?_⟩
  · rw [← e1]
    exact h.1
  · rw [← e1, ← e2]
    exact h.2.2 (ascii "omitzero") (by decide) (by decide)

/-! ### Where the option loop stops with an error -/

/-- The loop gives from the start of a later turn what it gives from the
start. -/
theorem optionScan_reaches (U : UnicodeTables) (option orig a b : Str)
    (h : ScanReaches U option orig a b) :
    optionScan U option orig a = optionScan U option orig b := by
  induction h with
  | here a => rfl
  | turn a b c hstep _ ih =>
    rw [optionScan_eq, hstep]
    exact ih

/-- The loop of `unescape` ends with the error of the missing quote when no
single quote that ends the token is left. -/
theorem unescapeLoop_unterminated (s : Str) (fuel : Nat) :
    ∀ (g i : Nat) (escaping : Bool) (escaped : Str), (s.drop i).length ≤ fuel →
      (s.drop i).length < g → closesQuote fuel escaping (s.drop i) = false →
      unescapeLoop s g i escaping escaped = .error (.missingQuote s) := by
  induction fuel with
  | zero =>
    intro g i escaping escaped hf hg _
    obtain ⟨g, rfl⟩ : ∃ g1, g = g1 + 1 := ⟨g - 1, by omega⟩
    simp only [unescapeLoop]
    rw [if_neg (by simp only [List.length_drop] at hf; omega)]
  | succ fuel ih =>
    intro g i escaping escaped hf hg hc
    obtain ⟨g, rfl⟩ : ∃ g1, g = g1 + 1 := ⟨g - 1, by omega⟩
    simp only [unescapeLoop]
    by_cases hi : i < s.length
    · rw [if_pos hi]
      obtain ⟨c, rest, hd⟩ : ∃ c rest, s.drop i = c :: rest := by
        cases hd : s.drop i with
        | nil =>
          have := congrArg List.length hd
          simp only [List.length_drop, List.length_nil] at this
          omega
        | cons c rest => exact ⟨c, rest, rfl⟩
      have hpos := utf8.decode_width_pos (s.drop i) (by rw [hd]; simp)
      have hnext : ∀ n, s.drop (i + n) = (s.drop i).drop n := by
        intro n
        rw [List.drop_drop, Nat.add_comm]
      have hlen : ((s.drop i).drop (utf8.DecodeRuneInString (s.drop i)).2).length ≤ fuel := by
        simp only [List.length_drop] at hf ⊢
        omega
      have hlen2 : ((s.drop i).drop (utf8.DecodeRuneInString (s.drop i)).2).length < g := by
        simp only [List.length_drop] at hg ⊢
        omega
      rw [hd] at hc
      simp only [closesQuote] at hc
      rw [← hd] at hc
      by_cases h1 : escaping = true
      · rw [if_pos h1] at hc ⊢
        exact ih g _ false _ (by rw [hnext]; exact hlen) (by rw [hnext]; exact hlen2)
          (by rw [hnext]; exact hc)
      · rw [if_neg h1] at hc ⊢
        by_cases h2 : (utf8.DecodeRuneInString (s.drop i)).1 = 0x5C
        · rw [if_pos h2] at hc ⊢
          exact ih g _ true _ (by rw [hnext]; exact hlen) (by rw [hnext]; exact hlen2)
            (by rw [hnext]; exact hc)
        · rw [if_neg h2] at hc ⊢
          by_cases h4 : (utf8.DecodeRuneInString (s.drop i)).1 = 0x27
          · rw [if_pos h4] at hc
            cases hc
          · rw [if_neg h4] at hc
            by_cases h3 : (utf8.DecodeRuneInString (s.drop i)).1 = 0x22
            · rw [if_pos h3]
              exact ih g _ false _ (by rw [hnext]; exact hlen) (by rw [hnext]; exact hlen2)
                (by rw [hnext]; exact hc)
            · rw [if_neg h3, if_neg h4]
              exact ih g _ false _ (by rw [hnext]; exact hlen) (by rw [hnext]; exact hlen2)
                (by rw [hnext]; exact hc)
    · rw [if_neg hi]

/-- A single-quoted token with no terminating single quote is not read. -/
theorem unescape_unterminated (body : Str) (h : terminated body = false) :
    unescape (0x27 :: body) = .error (.missingQuote (0x27 :: body)) := by
  simp only [unescape, List.head?_cons, if_true]
  exact unescapeLoop_unterminated (0x27 :: body) body.length _ 1 false _ (by simp)
    (by simp only [List.drop_succ_cons, List.drop_zero, List.length_cons]; omega)
    (by simpa [terminated] using h)

/-- No token is read at a text that starts with a character that is neither a
letter, an underscore nor a single quote, or with a single-quoted token that
has no terminating single quote. -/
theorem readTagOption_badToken (U : UnicodeTables) (tok : Str) (h : badToken U tok) :
    ∃ err, readTagOption U tok = .error err := by
  rcases h with ⟨hne, h1, h2, h3⟩ | ⟨body, rfl, hb⟩
  · refine ⟨.invalidCharacter tok, ?_⟩
    simp only [readTagOption]
    rw [if_neg (by simpa using hne), if_neg (by simp [h1, h2]), if_neg h3]
  · refine ⟨.missingQuote (0x27 :: body), ?_⟩
    simp only [readTagOption]
    rw [if_neg (by simp), utf8.decode_ascii _ _ (by decide)]
    have h1 : ((0x27 : Byte).val = 0x5F) = False := by decide
    have h2 : unicode.IsLetter U (0x27 : Byte).val = false := rfl
    simp only [h1, h2, false_or, Bool.false_eq_true, if_false]
    rw [if_pos (by decide)]
    exact unescape_unterminated body hb

/-- A turn of the option loop that starts at a malformed rest of the option
list ends the loop with an error. -/
theorem optionStep_malformed (U : UnicodeTables) (option orig rem : Str)
    (h : MalformedAt U option rem) : ∃ err, optionStep U option orig rem = .done (.error err) := by
  rcases h with rfl | ⟨c, x, rfl, hc⟩ | ⟨tok, rfl, hbad⟩ | ⟨p, tok, rfl, hp, hpre, hbad⟩
  · exact ⟨.malformedOption orig, by rw [optionStep_cons, if_neg (by simp), if_pos (by rfl)]⟩
  · exact ⟨.malformedOption orig, by rw [optionStep_cons, if_pos hc]⟩
  · obtain ⟨err, herr⟩ := readTagOption_badToken U tok hbad
    have hne : tok ≠ [] := by
      rcases hbad with ⟨hne, _⟩ | ⟨body, rfl, _⟩
      · exact hne
      · simp
    refine ⟨err, ?_⟩
    rw [optionStep_cons, if_neg (by simp), if_neg (by simpa using hne), herr]
  · have herr : ∃ err, readTagOption U tok = .error err := by
      rcases hbad with rfl | hbad
      · exact ⟨.unexpectedEOF, by simp [readTagOption]⟩
      · exact readTagOption_badToken U tok hbad
    obtain ⟨err, herr⟩ := herr
    refine ⟨err, ?_⟩
    rw [optionStep_cons, if_neg (by simp), if_neg (by simp),
      readTagOption_identifier_append U p 0x3A tok hp (Or.inr rfl)]
    simp only [List.drop_left, afterToken]
    rw [if_pos (by simp [colonNext]), hpre]
    simp only [Bool.false_eq_true, if_false, List.drop_succ_cons, List.drop_zero, herr]

theorem AddTagOption_error (U : UnicodeTables) (t tag option : Str) (pre : List Tag) (e : Tag)
    (post : List Tag) (err : TagError) (hparse : ParseStructTag t = .ok (pre ++ e :: post))
    (hpre : ∀ x ∈ pre, x.Key ≠ tag) (he : e.Key = tag)
    (hscan : scanValue U option e.Value = .error err) :
    AddTagOption U t tag option = .error err := by
  simp only [AddTagOption, hparse]
  rw [addLoop_first U tag option pre e post hpre he, addToEntry_eq, hscan]

/-- C13 (malformed option list): for every tag `t` that parses, whose first
entry with key `k` has the value `v`: when the option loop of `AddTagOption`,
started after the name slot, comes to the start of a turn without having found
the option, and what is left of the value there is a comma that ends the value
(an empty token), or starts with a character other than a comma, or holds
after the comma a text that starts with a character that is neither a letter,
an underscore nor a single quote, or a single-quoted token with no terminating
single quote (the same for the secondary value after an identifier and a
colon), then `AddTagOption t k o` fails: it returns an error and the empty
tag. -/
theorem C13_malformed_option_list (U : UnicodeTables) (t k o v rest rem : Str)
    (pre post : List Tag) (hparse : ParseStructTag t = .ok (pre ++ ⟨k, v⟩ :: post))
    (hpre : ∀ x ∈ pre, x.Key ≠ k) (hname : skipName U v = .ok rest)
    (hreach : ScanReaches U o v rest rem) (hbad : MalformedAt U o rem) :
    ∃ err, AddTagOption U t k o = .error err ∧ AddTagOptionResults U t k o = ([], some err) := by
  obtain ⟨err, herr⟩ := optionStep_malformed U o v rem hbad
  have hscan : scanValue U o v = .error err := by
    simp only [scanValue, hname]
    rw [optionScan_reaches U o v rest rem hreach, optionScan_eq, herr]
  have h := AddTagOption_error U t k o pre ⟨k, v⟩ post err hparse hpre rfl hscan
  exact ⟨err, h, by simp only [AddTagOptionResults, h]⟩

/-- C13 at the values `foo,a,` (a trailing comma), `foo,a-b` (no comma where
the separator is expected), `foo,9` (a token that starts with a digit) and
`foo,'ab` (a single-quoted token with no terminating quote), with the key
`json` and the option `b`. -/
theorem C13_malformed_option_list_witness :
    (∃ err, AddTagOption latin1Tables (ascii "json:\"foo,a,\"") (ascii "json") (ascii "b")
        = .error err ∧
      AddTagOptionResults latin1Tables (ascii "json:\"foo,a,\"") (ascii "json") (ascii "b")
        = ([], some err)) ∧
    (∃ err, AddTagOption latin1Tables (ascii "json:\"foo,a-b\"") (ascii "json") (ascii "b")
        = .error err ∧
      AddTagOptionResults latin1Tables (ascii "json:\"foo,a-b\"") (ascii "json") (ascii "b")
        = ([], some err)) ∧
    (∃ err, AddTagOption latin1Tables (ascii "json:\"foo,9\"") (ascii "json") (ascii "b")
        = .error err ∧
      AddTagOptionResults latin1Tables (ascii "json:\"foo,9\"") (ascii "json") (ascii "b")
        = ([], some err)) ∧
    (∃ err, AddTagOption latin1Tables (ascii "json:\"foo,'ab\"") (ascii "json") (ascii "b")
        = .error err ∧
      AddTagOptionResults latin1Tables (ascii "json:\"foo,'ab\"") (ascii "json") (ascii "b")
        = ([], some err)) :=
  ⟨C13_malformed_option_list latin1Tables (ascii "json:\"foo,a,\"") (ascii "json") (ascii "b")
      (ascii "foo,a,") (ascii ",a,") (ascii ",") [] [] (by decide) (by decide) (by decide)
      (.turn _ _ _ (by decide) (.here _)) (Or.inl rfl),
    C13_malformed_option_list latin1Tables (ascii "json:\"foo,a-b\"") (ascii "json") (ascii "b")
      (ascii "foo,a-b") (ascii ",a-b") (ascii "-b") [] [] (by decide) (by decide) (by decide)
      (.turn _ _ _ (by decide) (.here _)) (Or.inr (Or.inl ⟨_, _, rfl, by decide⟩)),
    C13_malformed_option_list latin1Tables (ascii "json:\"foo,9\"") (ascii "json") (ascii "b")
      (ascii "foo,9") (ascii ",9") (ascii ",9") [] [] (by decide) (by decide) (by decide)
      (.here _)
      (Or.inr (Or.inr (Or.inl ⟨_, rfl, Or.inl ⟨by decide, by decide, by decide, by decide⟩⟩))),
    C13_malformed_option_list latin1Tables (ascii "json:\"foo,'ab\"") (ascii "json") (ascii "b")
      (ascii "foo,'ab") (ascii ",'ab") (ascii ",'ab") [] [] (by decide) (by decide) (by decide)
      (.here _) (Or.inr (Or.inr (Or.inl ⟨_, rfl, Or.inr ⟨_, rfl, by decide⟩⟩)))⟩

/-! ### The checked pipeline never leaves the bounds -/

theorem indexAt_some {α : Type} (s : List α) (i : Nat) (b : α) (h : s.get? i = some b) :
    indexAt s i = .ok b := by
  simp only [indexAt, h]

theorem sliceFrom_le {α : Type} (s : List α) (i : Nat) (h : i ≤ s.length) :
    sliceFrom s i = .ok (s.drop i) := by
  simp only [sliceFrom, if_pos h]

theorem sliceTo_le {α : Type} (s : List α) (j : Nat) (h : j ≤ s.length) :
    sliceTo s j = .ok (s.take j) := by
  simp only [sliceTo, if_pos h]

theorem sliceToPred_pos {α : Type} (s : List α) (h : 0 < s.length) :
    sliceToPred s = .ok (s.take (s.length - 1)) := by
  simp only [sliceToPred, if_pos h]

theorem bind_ok {α β : Type} (a : α) (f : α → Except Fault β) :
    (Except.ok a >>= f) = f a := rfl

theorem drop_of_get? {α : Type} (s : List α) (i : Nat) (b : α) (h : s.get? i = some b) :
    s.drop i = b :: s.drop (i + 1) := by
  induction s generalizing i with
  | nil => simp at h
  | cons a s ih =>
    cases i with
    | zero =>
      simp only [List.get?_cons_zero, Option.some.injEq] at h
      subst h
      rfl
    | succ i =>
      simp only [List.get?_cons_succ] at h
      simpa using ih i h

theorem get?_of_lt {α : Type} (s : List α) (i : Nat) (h : i < s.length) :
    ∃ b, s.get? i = some b := by
  cases hg : s.get? i with
  | none =>
    rw [List.get?_eq_none] at hg
    omega
  | some b => exact ⟨b, rfl⟩

/-- The first loop ends at an index within the tag, with the leading spaces
skipped. -/
theorem spacesLoop_eq (tag : Str) (fuel : Nat) :
    ∀ i, i ≤ tag.length → tag.length - i < fuel →
      ∃ j, spacesLoop tag fuel i = .ok j ∧ j ≤ tag.length ∧
        tag.drop j = skipSpaces (tag.drop i) := by
  induction fuel with
  | zero => intro i _ h; omega
  | succ fuel ih =>
    intro i hi hf
    simp only [spacesLoop]
    by_cases hlt : i < tag.length
    · rw [if_pos hlt]
      obtain ⟨b, hb⟩ := get?_of_lt tag i hlt
      rw [indexAt_some tag i b hb, bind_ok, drop_of_get? tag i b hb]
      by_cases h20 : b = 0x20
      · rw [if_pos h20]
        obtain ⟨j, hj, hle, hd⟩ := ih (i + 1) (by omega) (by omega)
        refine ⟨j, hj, hle, ?_⟩
        rw [hd, skipSpaces, if_pos h20]
      · rw [if_neg h20]
        refine ⟨i, rfl, hi, ?_⟩
        rw [skipSpaces, if_neg h20, ← drop_of_get? tag i b hb]
    · rw [if_neg hlt]
      refine ⟨i, rfl, hi, ?_⟩
      have : tag.drop i = [] := List.drop_of_length_le (by omega)
      rw [this]
      rfl

/-- The second loop ends at the length of the key. -/
theorem keyLoop_eq (tag : Str) (fuel : Nat) :
    ∀ i, i ≤ tag.length → tag.length - i < fuel →
      keyLoop tag fuel i = .ok (i + keyLen (tag.drop i)) := by
  induction fuel with
  | zero => intro i _ h; omega
  | succ fuel ih =>
    intro i hi hf
    simp only [keyLoop]
    by_cases hlt : i < tag.length
    · rw [if_pos hlt]
      obtain ⟨b, hb⟩ := get?_of_lt tag i hlt
      rw [indexAt_some tag i b hb, bind_ok, drop_of_get? tag i b hb]
      by_cases hk : 0x20 < b.val ∧ b ≠ 0x3A ∧ b ≠ 0x22 ∧ b.val ≠ 0x7F
      · rw [if_pos hk, ih (i + 1) (by omega) (by omega), keyLen, if_pos hk]
        simp only [Except.ok.injEq]
        omega
      · rw [if_neg hk, keyLen, if_neg hk]
        rfl
    · rw [if_neg hlt]
      have : tag.drop i = [] := List.drop_of_length_le (by omega)
      rw [this]
      rfl

/-- The third loop ends at the closing quote that `scanQuoted` finds, or at or
after the end of the tag when there is none. -/
theorem quotedLoop_eq (tag : Str) (fuel : Nat) :
    ∀ i, tag.length - i < fuel →
      (∀ k, scanQuoted (tag.drop i) = some k →
        quotedLoop tag fuel i = .ok (i + k) ∧ i + k < tag.length) ∧
      (scanQuoted (tag.drop i) = none → ∃ j, quotedLoop tag fuel i = .ok j ∧ tag.length ≤ j) := by
  induction fuel with
  | zero => intro i h; omega
  | succ fuel ih =>
    intro i hf
    simp only [quotedLoop]
    by_cases hlt : i < tag.length
    · rw [if_pos hlt]
      obtain ⟨b, hb⟩ := get?_of_lt tag i hlt
      rw [indexAt_some tag i b hb, bind_ok, drop_of_get? tag i b hb]
      by_cases hq : b = 0x22
      · rw [if_neg (by simpa using hq), hq, scanQuoted_quote]
        refine ⟨fun k hk => ?_, fun h => by cases h⟩
        injection hk with hk
        subst hk
        exact ⟨rfl, hlt⟩
      · rw [if_pos hq, bind_ok]
        by_cases hbs : b = 0x5C
        · rw [if_pos hbs, hbs]
          by_cases hlt2 : i + 1 < tag.length
          · obtain ⟨e, he⟩ := get?_of_lt tag (i + 1) hlt2
            rw [drop_of_get? tag (i + 1) e he, scanQuoted_backslash]
            obtain ⟨ih1, ih2⟩ := ih (i + 1 + 1) (by omega)
            refine ⟨fun k hk => ?_, fun h => ?_⟩
            · obtain ⟨k1, hk1, rfl⟩ := Option.map_eq_some'.1 hk
              obtain ⟨h1, h2⟩ := ih1 k1 hk1
              exact ⟨(by rw [h1]; congr 1; omega), (by omega)⟩
            · exact ih2 (by simpa using h)
          · have hnil : tag.drop (i + 1) = [] := List.drop_of_length_le (by omega)
            rw [hnil, scanQuoted_backslash_end]
            obtain ⟨-, ih2⟩ := ih (i + 1 + 1) (by omega)
            refine ⟨fun k hk => (by cases hk), fun _ => ?_⟩
            have hnil2 : tag.drop (i + 1 + 1) = [] := List.drop_of_length_le (by omega)
            exact ih2 (by rw [hnil2, scanQuoted_nil])
        · rw [if_neg hbs, scanQuoted_cons b _ hq hbs]
          obtain ⟨ih1, ih2⟩ := ih (i + 1) (by omega)
          refine ⟨fun k hk => ?_, fun h => ?_⟩
          · obtain ⟨k1, hk1, rfl⟩ := Option.map_eq_some'.1 hk
            obtain ⟨h1, h2⟩ := ih1 k1 hk1
            exact ⟨(by rw [h1]; congr 1; omega), (by omega)⟩
          · exact ih2 (by simpa using h)
    · rw [if_neg hlt]
      have hnil : tag.drop i = [] := List.drop_of_length_le (by omega)
      rw [hnil, scanQuoted_nil]
      exact ⟨fun k hk => (by cases hk), fun _ => ⟨i, rfl, (by omega)⟩⟩

theorem unpairedAt_eq (tag : Str) (i : Nat) :
    unpairedAt tag i = .ok (decide (i = 0 ∨ tag.length ≤ i + 1 ∨ tag.get? i ≠ some 0x3A
      ∨ tag.get? (i + 1) ≠ some 0x22)) := by
  simp only [unpairedAt]
  by_cases h1 : i = 0 ∨ tag.length ≤ i + 1
  · rw [if_pos h1]
    congr 1
    symm
    rw [decide_eq_true_eq]
    rcases h1 with h | h
    · exact Or.inl h
    · exact Or.inr (Or.inl h)
  · rw [if_neg h1]
    have h0 : i ≠ 0 := fun h => h1 (Or.inl h)
    have hl : i + 1 < tag.length := by
      by_contra hc
      exact h1 (Or.inr (by omega))
    obtain ⟨c, hc⟩ := get?_of_lt tag i (by omega)
    obtain ⟨q, hq⟩ := get?_of_lt tag (i + 1) hl
    rw [indexAt_some tag i c hc, bind_ok, hc, hq]
    by_cases hc3 : c = 0x3A
    · rw [if_neg (by simpa using hc3), indexAt_some tag (i + 1) q hq, bind_ok]
      congr 1
      subst hc3
      by_cases hq2 : q = 0x22
      · subst hq2
        simp [h0]
        omega
      · simp [h0, hq2]
    · rw [if_pos hc3]
      congr 1
      symm
      rw [decide_eq_true_eq]
      exact Or.inr (Or.inr (Or.inl (by simpa using hc3)))

/-- One checked turn of the outer loop of `ParseStructTag` never leaves the
bounds and does what the turn of the model does. -/
theorem parseStepChecked_eq (tag : Str) : parseStepChecked tag = .ok (parseStep tag) := by
  simp only [parseStepChecked, parseStep]
  by_cases h0 : tag = []
  · rw [if_pos h0, if_pos h0]
  rw [if_neg h0, if_neg h0]
  obtain ⟨j, hj, hjle, hjd⟩ := spacesLoop_eq tag (tag.length + 1) 0 (by omega) (by omega)
  rw [hj, bind_ok, sliceFrom_le tag j hjle, bind_ok, hjd, List.drop_zero]
  by_cases h1 : skipSpaces tag = []
  · rw [if_pos h1, if_pos h1]
  rw [if_neg h1, if_neg h1]
  rw [keyLoop_eq (skipSpaces tag) _ 0 (by omega) (by omega), bind_ok, List.drop_zero,
    Nat.zero_add, unpairedAt_eq, bind_ok]
  by_cases h2 : keyLen (skipSpaces tag) = 0
      ∨ (skipSpaces tag).length ≤ keyLen (skipSpaces tag) + 1
      ∨ (skipSpaces tag).get? (keyLen (skipSpaces tag)) ≠ some 0x3A
      ∨ (skipSpaces tag).get? (keyLen (skipSpaces tag) + 1) ≠ some 0x22
  · rw [if_pos h2, if_pos (by simpa using h2)]
  rw [if_neg h2, if_neg (by simpa using h2)]
  have hlen : keyLen (skipSpaces tag) + 1 < (skipSpaces tag).length := by
    by_contra hc
    exact h2 (Or.inr (Or.inl (by omega)))
  rw [sliceTo_le _ _ (by omega), bind_ok, sliceFrom_le _ _ (by omega), bind_ok]
  obtain ⟨hq1, hq2⟩ := quotedLoop_eq ((skipSpaces tag).drop (keyLen (skipSpaces tag) + 1))
    (((skipSpaces tag).drop (keyLen (skipSpaces tag) + 1)).length + 1) 1 (by omega)
  cases hs : scanQuoted (((skipSpaces tag).drop (keyLen (skipSpaces tag) + 1)).drop 1) with
  | none =>
    obtain ⟨i, hi, hile⟩ := hq2 hs
    rw [hi, bind_ok, if_pos hile]
  | some k =>
    obtain ⟨hi, hilt⟩ := hq1 k hs
    rw [hi, bind_ok, if_neg (by omega), sliceTo_le _ _ (by omega), bind_ok,
      sliceFrom_le _ _ (by omega), bind_ok]
    simp only [Nat.add_comm 1 k]
    cases hU : strconv.Unquote (((skipSpaces tag).drop (keyLen (skipSpaces tag) + 1)).take
        (k + 1 + 1)) with
    | none => rfl
    | some value => rfl

theorem lift_ok {α : Type} (a : α) : Fault.lift (Except.ok a : Except TagError α) = .ok a := rfl

theorem lift_error {α : Type} (err : TagError) :
    Fault.lift (Except.error err : Except TagError α) = .error (.error err) := rfl

/-- A lifted result is never the panic. -/
theorem lift_ne_outOfRange {α : Type} (r : Except TagError α) :
    Fault.lift r ≠ .error .outOfRange := by
  cases r with
  | error err => simp [Fault.lift]
  | ok a => simp [Fault.lift]

theorem parseLoopChecked_eq (fuel : Nat) : ∀ (tag : Str) (out : List Tag),
    parseLoopChecked fuel tag out = Fault.lift (parseLoop fuel tag out) := by
  induction fuel with
  | zero => intro tag out; rfl
  | succ fuel ih =>
    intro tag out
    rw [parseLoopChecked, parseStepChecked_eq, parseLoop_succ]
    cases parseStep tag with
    | stop => rfl
    | fail err => rfl
    | entry t rest => exact ih rest (out ++ [t])

theorem ParseStructTagChecked_eq (tag : Str) :
    ParseStructTagChecked tag = Fault.lift (ParseStructTag tag) :=
  parseLoopChecked_eq _ tag []

theorem parseStep_fuel (tag : Str) : parseStep tag ≠ .fail .outOfFuel := by
  simp only [parseStep]
  split_ifs
  · simp
  · simp
  · simp
  · split
    · simp
    · split <;> simp

/-- The outer loop of `ParseStructTag` ends before its fuel does. -/
theorem parseLoop_terminates (fuel : Nat) : ∀ (tag : Str) (out : List Tag),
    tag.length < fuel → parseLoop fuel tag out ≠ .error .outOfFuel := by
  induction fuel with
  | zero => intro tag out h; omega
  | succ fuel ih =>
    intro tag out h
    rw [parseLoop_succ]
    cases hs : parseStep tag with
    | stop => simp
    | fail err =>
      simp only [ne_eq, Except.error.injEq]
      rintro rfl
      exact parseStep_fuel tag hs
    | entry t rest =>
      have := parseStep_length tag t rest hs
      exact ih rest _ (by omega)

theorem ParseStructTag_terminates (tag : Str) : ParseStructTag tag ≠ .error .outOfFuel :=
  parseLoop_terminates _ tag [] (by omega)

theorem appendChunk_eq (s escaped : Str) (rn : Nat) (h : rn ≤ s.length) :
    appendChunk s escaped rn = .ok (escaped ++ (s.drop 0).take rn) := by
  simp only [appendChunk]
  rw [sliceFrom_le s 0 (by omega), bind_ok, sliceTo_le _ _ (by simpa using h), bind_ok]

/-- The checked loop of `unescape` never leaves the bounds: the buffer is
never empty when its last byte is cut off, and `rn` bytes are there to
append. -/
theorem unescapeLoopChecked_eq (s : Str) (fuel : Nat) :
    ∀ (i : Nat) (escaping : Bool) (escaped : Str), 1 ≤ escaped.length →
      (escaping = true → 2 ≤ escaped.length) →
      unescapeLoopChecked s fuel i escaping escaped
        = Fault.lift (unescapeLoop s fuel i escaping escaped) := by
  induction fuel with
  | zero => intro i escaping escaped _ _; rfl
  | succ fuel ih =>
    intro i escaping escaped h1 h2
    simp only [unescapeLoopChecked, unescapeLoop]
    by_cases hi : i < s.length
    · rw [if_pos hi, if_pos hi, sliceFrom_le s i (by omega), bind_ok]
      have hpos := utf8.decode_width_pos (s.drop i)
        (by intro hnil; have := congrArg List.length hnil; simp at this; omega)
      have hle := utf8.decode_width_le (s.drop i)
      have hrn : (utf8.DecodeRuneInString (s.drop i)).2 ≤ s.length := by
        simp only [List.length_drop] at hle
        omega
      have hchunk : ((s.drop 0).take (utf8.DecodeRuneInString (s.drop i)).2).length
          = (utf8.DecodeRuneInString (s.drop i)).2 := by
        simp only [List.drop_zero, List.length_take]
        omega
      by_cases he : escaping = true
      · rw [if_pos he, if_pos he]
        by_cases hq : (utf8.DecodeRuneInString (s.drop i)).1 = 0x27
        · rw [if_pos hq, if_pos hq, sliceToPred_pos escaped (by omega), bind_ok,
            appendChunk_eq s _ _ hrn, bind_ok]
          exact ih _ _ _ (by rw [List.length_append, hchunk]; omega) (by simp)
        · rw [if_neg hq, if_neg hq, bind_ok, appendChunk_eq s _ _ hrn, bind_ok]
          exact ih _ _ _ (by rw [List.length_append, hchunk]; omega) (by simp)
      · rw [if_neg he, if_neg he]
        by_cases hb : (utf8.DecodeRuneInString (s.drop i)).1 = 0x5C
        · rw [if_pos hb, if_pos hb, appendChunk_eq s _ _ hrn, bind_ok]
          exact ih _ _ _ (by rw [List.length_append, hchunk]; omega)
            (fun _ => by rw [List.length_append, hchunk]; omega)
        · rw [if_neg hb, if_neg hb]
          by_cases hd : (utf8.DecodeRuneInString (s.drop i)).1 = 0x22
          · rw [if_pos hd, if_pos hd, appendChunk_eq s _ _ hrn, bind_ok]
            exact ih _ _ _ (by rw [List.length_append, hchunk]; omega) (by simp)
          · rw [if_neg hd, if_neg hd]
            by_cases hq : (utf8.DecodeRuneInString (s.drop i)).1 = 0x27
            · rw [if_pos hq, if_pos hq]
              cases strconv.Unquote (escaped ++ [0x22]) with
              | none => rfl
              | some out => rfl
            · rw [if_neg hq, if_neg hq, appendChunk_eq s _ _ hrn, bind_ok]
              exact ih _ _ _ (by rw [List.length_append, hchunk]; omega) (by simp)
    · rw [if_neg hi, if_neg hi]
      rfl

theorem unescapeChecked_eq (s : Str) (hs : s ≠ []) :
    unescapeChecked s = Fault.lift (unescape s) := by
  cases s with
  | nil => exact absurd rfl hs
  | cons b t =>
    simp only [unescapeChecked, unescape]
    rw [indexAt_some (b :: t) 0 b rfl, bind_ok]
    have : (if (b :: t).head? = some 0x27 then 1 else 0) = (if b = 0x27 then 1 else 0) := by
      simp
    rw [this]
    exact unescapeLoopChecked_eq (b :: t) _ _ false [0x22] (by simp) (by simp)

theorem readTagOptionChecked_eq (U : UnicodeTables) (s : Str) :
    readTagOptionChecked U s = Fault.lift (readTagOption U s) := by
  simp only [readTagOptionChecked, readTagOption]
  by_cases h0 : s.length = 0
  · rw [if_pos h0, if_pos h0]
    rfl
  rw [if_neg h0, if_neg h0]
  by_cases h1 : (utf8.DecodeRuneInString s).1 = 0x5F
      ∨ unicode.IsLetter U (utf8.DecodeRuneInString s).1 = true
  · rw [if_pos h1, if_pos h1, sliceTo_le _ _ (strings.trimLeftLen_le _ s), bind_ok]
    rfl
  rw [if_neg h1, if_neg h1]
  by_cases h2 : (utf8.DecodeRuneInString s).1 = 0x27
  · rw [if_pos h2, if_pos h2]
    exact unescapeChecked_eq s (by intro h; rw [h] at h0; exact h0 rfl)
  · rw [if_neg h2, if_neg h2]
    rfl

/-- The loop of `unescape` ends before its fuel does, at an index within the
text. -/
theorem unescapeLoop_terminates (s : Str) (fuel : Nat) :
    ∀ (i : Nat) (escaping : Bool) (escaped : Str), i ≤ s.length → s.length - i < fuel →
      unescapeLoop s fuel i escaping escaped ≠ .error .outOfFuel ∧
      ∀ r, unescapeLoop s fuel i escaping escaped = .ok r → r.2 ≤ s.length := by
  induction fuel with
  | zero => intro i escaping escaped _ h; omega
  | succ fuel ih =>
    intro i escaping escaped hle hf
    simp only [unescapeLoop]
    by_cases hi : i < s.length
    · rw [if_pos hi]
      have hpos := utf8.decode_width_pos (s.drop i)
        (by intro hnil; have := congrArg List.length hnil; simp at this; omega)
      have hw := utf8.decode_width_le (s.drop i)
      simp only [List.length_drop] at hw
      have hnext : ∀ esc e, unescapeLoop s fuel (i + (utf8.DecodeRuneInString (s.drop i)).2)
          esc e ≠ .error .outOfFuel ∧
          ∀ r, unescapeLoop s fuel (i + (utf8.DecodeRuneInString (s.drop i)).2) esc e = .ok r →
            r.2 ≤ s.length :=
        fun esc e => ih _ esc e (by omega) (by omega)
      by_cases he : escaping = true
      · rw [if_pos he]
        exact hnext _ _
      · rw [if_neg he]
        by_cases hb : (utf8.DecodeRuneInString (s.drop i)).1 = 0x5C
        · rw [if_pos hb]
          exact hnext _ _
        · rw [if_neg hb]
          by_cases hd : (utf8.DecodeRuneInString (s.drop i)).1 = 0x22
          · rw [if_pos hd]
            exact hnext _ _
          · rw [if_neg hd]
            by_cases hq : (utf8.DecodeRuneInString (s.drop i)).1 = 0x27
            · rw [if_pos hq]
              cases strconv.Unquote (escaped ++ [0x22]) with
              | none => simp
              | some out =>
                refine ⟨by simp, fun r hr => ?_⟩
                simp only [Except.ok.injEq] at hr
                subst hr
                simp only
                omega
            · rw [if_neg hq]
              exact hnext _ _
    · rw [if_neg hi]
      simp

theorem readTagOption_terminates (U : UnicodeTables) (s : Str) :
    readTagOption U s ≠ .error .outOfFuel ∧
      ∀ opt n, readTagOption U s = .ok (opt, n) → n ≤ s.length := by
  simp only [readTagOption]
  by_cases h0 : s.length = 0
  · rw [if_pos h0]
    simp
  rw [if_neg h0]
  by_cases h1 : (utf8.DecodeRuneInString s).1 = 0x5F
      ∨ unicode.IsLetter U (utf8.DecodeRuneInString s).1 = true
  · rw [if_pos h1]
    refine ⟨by simp, fun opt n h => ?_⟩
    simp only [Except.ok.injEq, Prod.mk.injEq] at h
    rw [← h.2]
    exact strings.trimLeftLen_le _ s
  rw [if_neg h1]
  by_cases h2 : (utf8.DecodeRuneInString s).1 = 0x27
  · rw [if_pos h2]
    simp only [unescape]
    have hi : (if s.head? = some 0x27 then 1 else 0) ≤ s.length := by
      split_ifs <;> omega
    obtain ⟨ht, hr⟩ := unescapeLoop_terminates s (s.length + 1) _ false [0x22] hi (by omega)
    exact ⟨ht, fun opt n h => hr (opt, n) h⟩
  · rw [if_neg h2]
    simp

theorem skipNameChecked_eq (U : UnicodeTables) (value : Str) :
    skipNameChecked U value = Fault.lift (skipName U value) := by
  simp only [skipNameChecked, skipName]
  by_cases hc : 0 < value.length ∧ ¬ strings.HasPrefix value [0x2C] = true
  · rw [if_pos hc, if_pos hc]
    by_cases hn : strings.trimLeftLen (fun r => !reservedRune r) value = 0
    · rw [if_pos hn, if_pos hn, readTagOptionChecked_eq]
      cases hr : readTagOption U value with
      | error err => rfl
      | ok r =>
        obtain ⟨opt, n⟩ := r
        have hle := (readTagOption_terminates U value).2 opt n hr
        simp only [Fault.lift, Except.map, bind_ok]
        rw [sliceFrom_le value n hle]
    · rw [if_neg hn, if_neg hn, bind_ok, sliceFrom_le _ _ (strings.trimLeftLen_le _ value)]
      rfl
  · rw [if_neg hc, if_neg hc]
    rfl

theorem skipName_terminates (U : UnicodeTables) (value : Str) :
    skipName U value ≠ .error .outOfFuel := by
  simp only [skipName]
  split_ifs
  · cases hr : readTagOption U value with
    | error err =>
      simp only [ne_eq, Except.error.injEq]
      rintro rfl
      exact (readTagOption_terminates U value).1 hr
    | ok r => simp
  · simp
  · simp

theorem colonAt_eq (value : Str) :
    colonAt value = .ok (decide (0 < value.length ∧ value.head? = some 0x3A)) := by
  cases value with
  | nil => rfl
  | cons a rest =>
    simp only [colonAt]
    rw [if_pos (by simp), indexAt_some (a :: rest) 0 a rfl, bind_ok]
    simp

/-- One checked turn of the option loop never leaves the bounds and does what
the turn of the model does. -/
theorem optionStepChecked_eq (U : UnicodeTables) (option orig value : Str) :
    optionStepChecked U option orig value = .ok (optionStep U option orig value) := by
  cases value with
  | nil => rfl
  | cons c value =>
    simp only [optionStepChecked, optionStep]
    rw [if_pos (by simp), indexAt_some (c :: value) 0 c rfl, bind_ok]
    by_cases hc : c ≠ 0x2C
    · rw [if_pos hc, if_pos hc]
    rw [if_neg hc, if_neg hc, sliceFrom_le (c :: value) 1 (by simp), bind_ok]
    simp only [List.drop_succ_cons, List.drop_zero]
    by_cases hv : value.length = 0
    · rw [if_pos hv, if_pos hv]
    rw [if_neg hv, if_neg hv, readTagOptionChecked_eq]
    cases hr : readTagOption U value with
    | error err => rfl
    | ok r =>
      obtain ⟨opt, n⟩ := r
      have hle := (readTagOption_terminates U value).2 opt n hr
      simp only [Fault.lift]
      rw [sliceFrom_le value n hle, bind_ok]
      rw [colonAt_eq, bind_ok]
      by_cases hcol : 0 < (value.drop n).length ∧ (value.drop n).head? = some 0x3A
      · rw [if_pos (by simpa using hcol), if_pos hcol]
        by_cases hp : strings.HasPrefix option (opt ++ [0x3A]) = true
        · rw [if_pos hp, if_pos hp]
        rw [if_neg hp, if_neg hp, sliceFrom_le _ 1 (by omega), bind_ok, readTagOptionChecked_eq]
        cases hr2 : readTagOption U ((value.drop n).drop 1) with
        | error err => rfl
        | ok r2 =>
          obtain ⟨opt2, m⟩ := r2
          have hle2 := (readTagOption_terminates U _).2 opt2 m hr2
          simp only [Fault.lift]
          rw [sliceFrom_le _ m hle2, bind_ok]
          by_cases ho : option = opt
          · rw [if_pos ho, if_pos ho]
          · rw [if_neg ho, if_neg ho]
      · rw [if_neg (by simpa using hcol), if_neg hcol]
        by_cases ho : option = opt
        · rw [if_pos ho, if_pos ho]
        · rw [if_neg ho, if_neg ho]

theorem optionLoopChecked_eq (U : UnicodeTables) (option orig : Str) (fuel : Nat) :
    ∀ value, optionLoopChecked U option orig fuel value
      = Fault.lift (optionLoop U option orig fuel value) := by
  induction fuel with
  | zero => intro value; rfl
  | succ fuel ih =>
    intro value
    rw [optionLoopChecked, optionStepChecked_eq, optionLoop_succ]
    cases optionStep U option orig value with
    | done r => rfl
    | more rest => exact ih rest

theorem afterToken_terminates (U : UnicodeTables) (option opt value : Str) :
    afterToken U option opt value ≠ .done (.error .outOfFuel) := by
  simp only [afterToken]
  by_cases hc : colonNext value
  · rw [if_pos hc]
    by_cases hp : strings.HasPrefix option (opt ++ [0x3A]) = true
    · rw [if_pos hp]
      simp
    · rw [if_neg hp]
      cases hr2 : readTagOption U (value.drop 1) with
      | error err =>
        simp only [ne_eq, OptStep.done.injEq, Except.error.injEq]
        rintro rfl
        exact (readTagOption_terminates U _).1 hr2
      | ok r2 =>
        simp only
        by_cases ho : option = opt
        · rw [if_pos ho]
          simp
        · rw [if_neg ho]
          simp
  · rw [if_neg hc]
    by_cases ho : option = opt
    · rw [if_pos ho]
      simp
    · rw [if_neg ho]
      simp

theorem optionStep_terminates (U : UnicodeTables) (option orig value : Str) :
    optionStep U option orig value ≠ .done (.error .outOfFuel) := by
  cases value with
  | nil => rw [optionStep_nil]; simp
  | cons c value =>
    rw [optionStep_cons]
    by_cases hc : c ≠ 0x2C
    · rw [if_pos hc]
      simp
    rw [if_neg hc]
    by_cases hv : value.length = 0
    · rw [if_pos hv]
      simp
    rw [if_neg hv]
    cases hr : readTagOption U value with
    | error err =>
      simp only [ne_eq, OptStep.done.injEq, Except.error.injEq]
      rintro rfl
      exact (readTagOption_terminates U value).1 hr
    | ok r =>
      obtain ⟨opt, n⟩ := r
      exact afterToken_terminates U option opt _

/-- The option loop ends before its fuel does. -/
theorem optionLoop_terminates (U : UnicodeTables) (option orig : Str) (fuel : Nat) :
    ∀ value : Str, value.length < fuel →
      optionLoop U option orig fuel value ≠ .error .outOfFuel := by
  induction fuel with
  | zero => intro value h; omega
  | succ fuel ih =>
    intro value h
    rw [optionLoop_succ]
    cases hs : optionStep U option orig value with
    | done r =>
      simp only
      rintro rfl
      exact optionStep_terminates U option orig value hs
    | more rest =>
      have := optionStep_length U option orig value rest hs
      exact ih rest (by omega)

theorem addToEntryChecked_eq (U : UnicodeTables) (option : Str) (t : Tag) :
    addToEntryChecked U option t = Fault.lift (addToEntry U option t) := by
  simp only [addToEntryChecked, addToEntry]
  rw [skipNameChecked_eq]
  cases skipName U t.Value with
  | error err => rfl
  | ok value =>
    simp only [Fault.lift, bind_ok]
    rw [optionLoopChecked_eq]
    cases optionLoop U option t.Value (value.length + 1) value with
    | error err => rfl
    | ok hasValue =>
      simp only [Fault.lift, bind_ok]
      by_cases hb : hasValue = false
      · rw [if_pos hb, if_pos hb]
      · rw [if_neg hb, if_neg hb]

theorem addLoopChecked_eq (U : UnicodeTables) (tag option : Str) (tags : List Tag) :
    addLoopChecked U tag option tags = Fault.lift (addLoop U tag option tags) := by
  induction tags with
  | nil => rfl
  | cons t rest ih =>
    simp only [addLoopChecked, addLoop]
    by_cases hk : t.Key ≠ tag
    · rw [if_pos hk, if_pos hk, ih]
      cases addLoop U tag option rest with
      | error err => rfl
      | ok r => rfl
    · rw [if_neg hk, if_neg hk, addToEntryChecked_eq]
      cases addToEntry U option t with
      | error err => rfl
      | ok t2 => rfl

theorem StructTagOfChecked_eq (U : UnicodeTables) (tags : List Tag) :
    StructTagOfChecked U tags = .ok (StructTagOf U tags) := by
  simp only [StructTagOfChecked, StructTagOf]
  by_cases h : 0 < (tags.foldl (fun buf tag => buf ++ tag.Flatten U ++ [0x20]) []).length
  · rw [if_pos h, if_pos h, sliceToPred_pos _ h]
  · rw [if_neg h, if_neg h]

/-- The checked `AddTagOption` never leaves the bounds and returns what the
model returns. -/
theorem AddTagOptionChecked_eq (U : UnicodeTables) (t tag option : Str) :
    AddTagOptionChecked U t tag option = Fault.lift (AddTagOption U t tag option) := by
  simp only [AddTagOptionChecked, AddTagOption]
  rw [ParseStructTagChecked_eq]
  cases ParseStructTag t with
  | error err => rfl
  | ok tags =>
    simp only [Fault.lift, bind_ok]
    rw [addLoopChecked_eq]
    cases addLoop U tag option tags with
    | error err => rfl
    | ok r =>
      obtain ⟨ts, hasTag⟩ := r
      simp only [Fault.lift, bind_ok]
      rw [StructTagOfChecked_eq]

theorem addToEntry_terminates (U : UnicodeTables) (option : Str) (t : Tag) :
    addToEntry U option t ≠ .error .outOfFuel := by
  simp only [addToEntry]
  cases hs : skipName U t.Value with
  | error err =>
    simp only [ne_eq, Except.error.injEq]
    rintro rfl
    exact skipName_terminates U t.Value hs
  | ok value =>
    simp only
    cases hl : optionLoop U option t.Value (value.length + 1) value with
    | error err =>
      simp only [ne_eq, Except.error.injEq]
      rintro rfl
      exact optionLoop_terminates U option t.Value _ value (by omega) hl
    | ok b =>
      simp only
      by_cases hb : b = false
      · rw [if_pos hb]
        simp
      · rw [if_neg hb]
        simp

theorem addLoop_terminates (U : UnicodeTables) (tag option : Str) (tags : List Tag) :
    addLoop U tag option tags ≠ .error .outOfFuel := by
  induction tags with
  | nil => simp [addLoop]
  | cons t rest ih =>
    simp only [addLoop]
    by_cases hk : t.Key ≠ tag
    · rw [if_pos hk]
      cases hr : addLoop U tag option rest with
      | error err =>
        simp only [ne_eq, Except.error.injEq]
        rintro rfl
        exact ih hr
      | ok r => simp
    · rw [if_neg hk]
      cases hr : addToEntry U option t with
      | error err =>
        simp only [ne_eq, Except.error.injEq]
        rintro rfl
        exact addToEntry_terminates U option t hr
      | ok t2 => simp

/-- Every call of `AddTagOption` ends before the fuel of its loops does. -/
theorem AddTagOption_terminates (U : UnicodeTables) (t tag option : Str) :
    AddTagOption U t tag option ≠ .error .outOfFuel := by
  simp only [AddTagOption]
  cases hp : ParseStructTag t with
  | error err =>
    simp only [ne_eq, Except.error.injEq]
    rintro rfl
    exact ParseStructTag_terminates t hp
  | ok tags =>
    simp only
    cases hr : addLoop U tag option tags with
    | error err =>
      simp only [ne_eq, Except.error.injEq]
      rintro rfl
      exact addLoop_terminates U tag option tags hr
    | ok r => simp

/-- C20 (panic freedom of the tag pipeline): for every input of bytes, every
key and every option, `ParseStructTag`, `readTagOption` (with `unescape`) and
`AddTagOption`, run with the bounds checks of the run time on every index and
slice expression, never end with an index or a slice out of range: each call
ends with a result or with an error the function returns, the same as the
model without the checks gives, and no loop runs out of its fuel.  Every turn
of the outer loop of `ParseStructTag` and of the option loop of
`AddTagOption` leaves a strictly shorter text, and every turn of the loop of
`unescape` advances by the width of a rune, at least one byte. -/
theorem C20_panic_freedom (U : UnicodeTables) (t k o : Str) :
    ((∃ tags, ParseStructTagChecked t = .ok tags) ∨
      (∃ err, err ≠ .outOfFuel ∧ ParseStructTagChecked t = .error (.error err))) ∧
    ((∃ r, AddTagOptionChecked U t k o = .ok r) ∨
      (∃ err, err ≠ .outOfFuel ∧ AddTagOptionChecked U t k o = .error (.error err))) ∧
    ((∃ r, readTagOptionChecked U t = .ok r) ∨
      (∃ err, err ≠ .outOfFuel ∧ readTagOptionChecked U t = .error (.error err))) ∧
    ParseStructTagChecked t = Fault.lift (ParseStructTag t) ∧
    AddTagOptionChecked U t k o = Fault.lift (AddTagOption U t k o) ∧
    readTagOptionChecked U t = Fault.lift (readTagOption U t) ∧
    (∀ tag e rest, parseStep tag = .entry e rest → rest.length < tag.length) ∧
    (∀ orig value rest, optionStep U o orig value = .more rest →
      rest.length < value.length) ∧
    (∀ s : Str, s ≠ [] → 1 ≤ (utf8.DecodeRuneInString s).2 ∧
      (utf8.DecodeRuneInString s).2 ≤ s.length) := by
  have hcases : ∀ {α : Type} (r : Except TagError α), r ≠ .error .outOfFuel →
      (∃ a, Fault.lift r = .ok a) ∨
        (∃ err, err ≠ .outOfFuel ∧ Fault.lift r = .error (.error err)) := by
    intro α r hr
    cases r with
    | ok a => exact Or.inl ⟨a, rfl⟩
    | error err => exact Or.inr ⟨err, fun h => hr (by rw [h]), rfl⟩
  refine ⟨?_, ?_, ?_, ParseStructTagChecked_eq t, AddTagOptionChecked_eq U t k o,
    readTagOptionChecked_eq U t, parseStep_length, optionStep_length U o,
    fun s hs => ⟨utf8.decode_width_pos s hs, utf8.decode_width_le s⟩⟩
  · rw [ParseStructTagChecked_eq]
    exact hcases _ (ParseStructTag_terminates t)
  · rw [AddTagOptionChecked_eq]
    exact hcases _ (AddTagOption_terminates U t k o)
  · rw [readTagOptionChecked_eq]
    exact hcases _ (readTagOption_terminates U t).1
